import Mathlib

/-!
Verification of the MoarVM spesh statistics aggregator and the Robin-Hood
hash-table family, against the sources in `src/`.

Part 1 models the call-graph-aware statistics aggregator
(`MVM_spesh_stats_update`, `sim_stack_pop`, `sim_stack_find`,
`MVM_spesh_stats_cleanup` and their helpers).  Opaque heap handles
(`MVMObject *`, `MVMCallsite *`) are modelled as records whose structural
equality stands for C pointer identity: distinct heap objects are modelled
by records that differ (at least in their `oid`/`csid` tag).

Machine integers that can never overflow on the modelled paths (hit
counters, offsets, sizes) are modelled as `Nat`; where wrap-around is
observable it is modelled with an explicit `% 2 ^ w`.
-/

namespace Spesh

/-- An `MVMObject *` heap handle.  `concrete` models `IS_CONCRETE`,
`reprIsCode` models `REPR(o)->ID == MVM_REPR_ID_MVMCode`, `codeSF` models
`((MVMCode *)o)->body.sf` (as a static-frame id, meaningful only when
`reprIsCode`), and `hasContainerSpec` models `o->st->container_spec != NULL`. -/
structure MVMObjectData where
  oid : Nat
  concrete : Bool
  reprIsCode : Bool
  codeSF : Nat
  hasContainerSpec : Bool
deriving DecidableEq, Repr

/-- An `MVMCallsite *` handle: `numPos` positional args and one flag per
callsite flag, `true` when the flag has the `MVM_CALLSITE_ARG_OBJ` bit.
`flag_count` is `argFlags.length`. -/
structure MVMCallsite where
  csid : Nat
  numPos : Nat
  argFlags : List Bool
deriving DecidableEq, Repr

/-- `MVMSpeshStatsType`: one slot of an argument type tuple.  A null
`MVMObject *` is `none`. -/
structure MVMSpeshStatsType where
  type : Option MVMObjectData
  typeConcrete : Bool
  decontType : Option MVMObjectData
  decontTypeConcrete : Bool
deriving DecidableEq, Repr

/-- The zero-initialized (`MVM_calloc`) type-tuple slot. -/
def emptyStatsType : MVMSpeshStatsType :=
  { type := none, typeConcrete := false, decontType := none, decontTypeConcrete := false }

/-- `MVMSpeshStatsTypeCount`. -/
structure MVMSpeshStatsTypeCount where
  type : MVMObjectData
  typeConcrete : Bool
  count : Nat
deriving DecidableEq, Repr

/-- `MVMSpeshStatsValueCount`. -/
structure MVMSpeshStatsValueCount where
  value : MVMObjectData
  count : Nat
deriving DecidableEq, Repr

/-- `MVMSpeshStatsTypeTupleCount`.  The `memcmp` on owned tuple copies is
modelled by structural equality of the `argTypes` list (both sides always
have length `cs.flag_count`). -/
structure MVMSpeshStatsTypeTupleCount where
  cs : Option MVMCallsite
  argTypes : List MVMSpeshStatsType
  count : Nat
deriving DecidableEq, Repr

/-- `MVMSpeshStatsStatic`: a static value recorded at a bytecode offset. -/
structure MVMSpeshStatsStatic where
  bytecodeOffset : Nat
  value : MVMObjectData
deriving DecidableEq, Repr

/-- `MVMSpeshStatsByOffset`. -/
structure MVMSpeshStatsByOffset where
  bytecodeOffset : Nat
  types : List MVMSpeshStatsTypeCount
  values : List MVMSpeshStatsValueCount
  typeTuples : List MVMSpeshStatsTypeTupleCount
deriving DecidableEq, Repr

/-- `MVMSpeshStatsByType`. -/
structure MVMSpeshStatsByType where
  argTypes : List MVMSpeshStatsType
  hits : Nat
  osrHits : Nat
  maxDepth : Nat
  byOffset : List MVMSpeshStatsByOffset
deriving DecidableEq, Repr

/-- `MVMSpeshStatsByCallsite`.  `cs = none` models the no-callsite sentinel
(null `MVMCallsite *`). -/
structure MVMSpeshStatsByCallsite where
  cs : Option MVMCallsite
  hits : Nat
  osrHits : Nat
  maxDepth : Nat
  byType : List MVMSpeshStatsByType
deriving DecidableEq, Repr

/-- `MVMSpeshStats` for one static frame. -/
structure MVMSpeshStats where
  hits : Nat
  osrHits : Nat
  lastUpdate : Nat
  byCallsite : List MVMSpeshStatsByCallsite
  staticValues : List MVMSpeshStatsStatic
deriving DecidableEq, Repr

/-- The zero-initialized stats record produced by `MVM_calloc` in `stats_for`. -/
def freshStats : MVMSpeshStats :=
  { hits := 0, osrHits := 0, lastUpdate := 0, byCallsite := [], staticValues := [] }

instance : Inhabited MVMSpeshStats := ⟨freshStats⟩

instance : Inhabited MVMSpeshStatsByCallsite :=
  ⟨{ cs := none, hits := 0, osrHits := 0, maxDepth := 0, byType := [] }⟩

instance : Inhabited MVMSpeshStatsByType :=
  ⟨{ argTypes := [], hits := 0, osrHits := 0, maxDepth := 0, byOffset := [] }⟩

instance : Inhabited MVMSpeshStatsByOffset :=
  ⟨{ bytecodeOffset := 0, types := [], values := [], typeTuples := [] }⟩

/-- `MVMSpeshLogEntry`, one record of the sealed log buffer.  The `id`
argument is the frame correlation ID; `concrete` models
`flags & MVM_SPESH_LOG_TYPE_FLAG_CONCRETE`.  A `RETURN` entry may carry a
null type (`none`). -/
inductive MVMSpeshLogEntry where
  | entry (id : Nat) (sf : Nat) (cs : Option MVMCallsite)
  | param (id : Nat) (argIdx : Nat) (ty : MVMObjectData) (concrete : Bool)
  | paramDecont (id : Nat) (argIdx : Nat) (ty : MVMObjectData) (concrete : Bool)
  | typeLog (id : Nat) (bytecodeOffset : Nat) (ty : MVMObjectData) (concrete : Bool)
  | invokeLog (id : Nat) (bytecodeOffset : Nat) (value : MVMObjectData)
  | osr (id : Nat)
  | staticLog (id : Nat) (bytecodeOffset : Nat) (value : MVMObjectData)
  | ret (id : Nat) (bytecodeOffset : Nat) (ty : Option MVMObjectData) (concrete : Bool)
deriving DecidableEq, Repr

/-- The correlation ID carried by a log entry (the C `e->id` field). -/
def MVMSpeshLogEntry.eid : MVMSpeshLogEntry → Nat
  | .entry id _ _ => id
  | .param id _ _ _ => id
  | .paramDecont id _ _ _ => id
  | .typeLog id _ _ _ => id
  | .invokeLog id _ _ => id
  | .osr id => id
  | .staticLog id _ _ => id
  | .ret id _ _ _ => id

/-- Whether a log entry is an `ENTRY` record. -/
def MVMSpeshLogEntry.isEntry : MVMSpeshLogEntry → Bool
  | .entry _ _ _ => true
  | _ => false

/-- A buffered offset-log reference held in a sim frame's `offset_logs`.
Only `TYPE`/`RETURN` (both processed identically at pop, so both become
`otype`) and `INVOKE` entries are ever appended.  For a `RETURN` attributed
to the caller the C code rewrites `e->type.bytecode_offset` in place before
appending; the model stores the rewritten offset directly. -/
inductive OffLogEntry where
  | otype (bytecodeOffset : Nat) (ty : MVMObjectData) (concrete : Bool)
  | oinvoke (bytecodeOffset : Nat) (value : MVMObjectData)
deriving DecidableEq, Repr

/-- `SimCallType`. -/
structure SimCallType where
  bytecodeOffset : Nat
  cs : Option MVMCallsite
  argTypes : List MVMSpeshStatsType
deriving DecidableEq, Repr

/-- `SimStackFrame`.  The C frame holds `ss` as a pointer to the frame's
stats; stats are shared state, so the model keys them by `sf` in the
aggregate state instead (the pointer never changes during an update call).
`argTypes = none` models the null `arg_types` buffer of a no-callsite
frame. -/
structure SimStackFrame where
  sf : Nat
  cid : Nat
  callsiteIdx : Nat
  argTypes : Option (List MVMSpeshStatsType)
  offsetLogs : List OffLogEntry
  callTypeInfo : List SimCallType
  osrHits : Nat
  lastInvokeOffset : Nat
  lastInvokeCode : Option MVMObjectData
deriving DecidableEq, Repr

/-- The aggregate mutable state of one `MVM_spesh_stats_update` call: the
per-static-frame stats (`sf->body.spesh->body.spesh_stats`, keyed by
static-frame id, absent key = null stats pointer), the simulation stack
(head = top), the `sims.depth` counter and the `sf_updated` sink. -/
structure AggState where
  stats : List (Nat × MVMSpeshStats)
  sims : List SimStackFrame
  depth : Nat
  sink : List Nat
deriving DecidableEq, Repr

/-- Association-list lookup for a frame's stats (null pointer = `none`). -/
def lookupStats : List (Nat × MVMSpeshStats) → Nat → Option MVMSpeshStats
  | [], _ => none
  | p :: l, sf => if p.1 = sf then some p.2 else lookupStats l sf

/-- Store (replace or add) a frame's stats. -/
def setStats : List (Nat × MVMSpeshStats) → Nat → MVMSpeshStats → List (Nat × MVMSpeshStats)
  | [], sf, ss => [(sf, ss)]
  | p :: l, sf, ss => if p.1 = sf then (sf, ss) :: l else p :: setStats l sf ss

/-- The stats a sim frame's `ss` pointer refers to (the frame is only pushed
after `stats_for` ensured they exist, so the default is unreachable). -/
def getStats (l : List (Nat × MVMSpeshStats)) (sf : Nat) : MVMSpeshStats :=
  (lookupStats l sf).getD freshStats

/-- `stats_for`: gets the statistics for a static frame, creating them if
needed. -/
def stats_for (l : List (Nat × MVMSpeshStats)) (sf : Nat) : MVMSpeshStats :=
  match lookupStats l sf with
  | some ss => ss
  | none => freshStats

/-- In-place update of the `i`-th element of a list (C array element
assignment). -/
def modIdx : List α → Nat → (α → α) → List α
  | [], _, _ => []
  | a :: l, 0, f => f a :: l
  | a :: l, n + 1, f => a :: modIdx l n f

/-- `by_callsite_idx`: find the `ByCallsite` record whose `cs` is
pointer-equal to `cs`, appending a zeroed record if missing; returns the
updated stats and the index. -/
def by_callsite_idx (ss : MVMSpeshStats) (cs : Option MVMCallsite) : MVMSpeshStats × Nat :=
  match ss.byCallsite.findIdx? (fun c => c.cs = cs) with
  | some i => (ss, i)
  | none =>
    ({ ss with byCallsite := ss.byCallsite ++
        [{ cs := cs, hits := 0, osrHits := 0, maxDepth := 0, byType := [] }] },
     ss.byCallsite.length)

/-- `incomplete_type_tuple`: no type logged for some object argument, or no
decont type logged for a concrete container type. -/
def incomplete_type_tuple (cs : MVMCallsite) (arg_types : List MVMSpeshStatsType) : Bool :=
  (List.range cs.argFlags.length).any (fun i =>
    cs.argFlags.getD i false &&
      (let a := arg_types.getD i emptyStatsType
       match a.type with
       | none => true
       | some t => a.typeConcrete && t.hasContainerSpec && a.decontType.isNone))

/-- `cs_without_object_args`: true iff the callsite has no object argument. -/
def cs_without_object_args (cs : MVMCallsite) : Bool :=
  !(cs.argFlags.any (fun b => b))

/-- `by_type`: resolves the destination `ByType` record for a popped frame,
creating it if needed.  Returns `none` (and in C frees `arg_types`) for the
no-callsite sentinel, a callsite without object args, or an incomplete
tuple; otherwise the index of the (found or appended) record.  The frame's
`arg_types` is the `Option` buffer; it is non-null whenever `cs` is
non-null. -/
def by_type (ss : MVMSpeshStats) (callsite_idx : Nat)
    (arg_types : Option (List MVMSpeshStatsType)) : MVMSpeshStats × Option Nat :=
  let css := ss.byCallsite.getD callsite_idx default
  match css.cs with
  | none => (ss, none)
  | some cs =>
    if cs_without_object_args cs then (ss, none)
    else
      let at0 := arg_types.getD []
      if incomplete_type_tuple cs at0 then (ss, none)
      else
        match css.byType.findIdx? (fun bt => bt.argTypes = at0) with
        | some i => (ss, some i)
        | none =>
          ({ ss with byCallsite := modIdx ss.byCallsite callsite_idx (fun c =>
              { c with byType := c.byType ++
                  [{ argTypes := at0, hits := 0, osrHits := 0, maxDepth := 0, byOffset := [] }] }) },
           some css.byType.length)

/-- `by_offset`: find or append the `ByOffset` record for a bytecode offset
under a `ByType`; returns the updated record and the index. -/
def by_offset (tss : MVMSpeshStatsByType) (off : Nat) : MVMSpeshStatsByType × Nat :=
  match tss.byOffset.findIdx? (fun o => o.bytecodeOffset = off) with
  | some i => (tss, i)
  | none =>
    ({ tss with byOffset := tss.byOffset ++
        [{ bytecodeOffset := off, types := [], values := [], typeTuples := [] }] },
     tss.byOffset.length)

/-- `add_type_at_offset`: bump the count of `(type, concrete)` or append a
fresh `TypeCount` with count 1 (the write barrier is a GC no-op here). -/
def add_type_at_offset (oss : MVMSpeshStatsByOffset) (ty : MVMObjectData) (concrete : Bool) :
    MVMSpeshStatsByOffset :=
  match oss.types.findIdx? (fun t => t.type = ty && t.typeConcrete = concrete) with
  | some i => { oss with types := modIdx oss.types i (fun t => { t with count := t.count + 1 }) }
  | none => { oss with types := oss.types ++ [{ type := ty, typeConcrete := concrete, count := 1 }] }

/-- `add_value_at_offset`. -/
def add_value_at_offset (oss : MVMSpeshStatsByOffset) (v : MVMObjectData) :
    MVMSpeshStatsByOffset :=
  match oss.values.findIdx? (fun t => t.value = v) with
  | some i => { oss with values := modIdx oss.values i (fun t => { t with count := t.count + 1 }) }
  | none => { oss with values := oss.values ++ [{ value := v, count := 1 }] }

/-- `add_type_tuple_at_offset`: keyed by `(cs, arg_types byte pattern)`; on
append the tuple is copied (value semantics make the copy implicit). -/
def add_type_tuple_at_offset (oss : MVMSpeshStatsByOffset) (info : SimCallType) :
    MVMSpeshStatsByOffset :=
  match oss.typeTuples.findIdx? (fun t => t.cs = info.cs && t.argTypes = info.argTypes) with
  | some i =>
    { oss with typeTuples := modIdx oss.typeTuples i (fun t => { t with count := t.count + 1 }) }
  | none =>
    { oss with typeTuples := oss.typeTuples ++
        [{ cs := info.cs, argTypes := info.argTypes, count := 1 }] }

/-- Apply an update to the `ByType` record at `(callsite_idx, type_idx)` of a
stats tree (the C code reads and writes through the `tss` pointer). -/
def withByType (ss : MVMSpeshStats) (callsite_idx type_idx : Nat)
    (f : MVMSpeshStatsByType → MVMSpeshStatsByType) : MVMSpeshStats :=
  { ss with byCallsite := modIdx ss.byCallsite callsite_idx (fun css =>
      { css with byType := modIdx css.byType type_idx f }) }

/-- One buffered offset-log entry folded into a `ByType` record (the
`switch (e->kind)` in `sim_stack_pop`'s first loop). -/
def offLogToByType (tss : MVMSpeshStatsByType) (e : OffLogEntry) : MVMSpeshStatsByType :=
  match e with
  | .otype off ty conc =>
    let p := by_offset tss off
    { p.1 with byOffset := modIdx p.1.byOffset p.2 (fun oss => add_type_at_offset oss ty conc) }
  | .oinvoke off v =>
    let p := by_offset tss off
    { p.1 with byOffset := modIdx p.1.byOffset p.2 (fun oss => add_value_at_offset oss v) }

/-- One buffered `SimCallType` folded into a `ByType` record (the second
loop of `sim_stack_pop`). -/
def callInfoToByType (tss : MVMSpeshStatsByType) (info : SimCallType) : MVMSpeshStatsByType :=
  let p := by_offset tss info.bytecodeOffset
  { p.1 with byOffset := modIdx p.1.byOffset p.2 (fun oss => add_type_tuple_at_offset oss info) }

/-- One buffered offset-log entry incorporated at pop time. -/
def incorporateOffLog (ss : MVMSpeshStats) (callsite_idx type_idx : Nat) (e : OffLogEntry) :
    MVMSpeshStats :=
  withByType ss callsite_idx type_idx (fun tss => offLogToByType tss e)

/-- One buffered `SimCallType` incorporated at pop time. -/
def incorporateCallInfo (ss : MVMSpeshStats) (callsite_idx type_idx : Nat) (info : SimCallType) :
    MVMSpeshStats :=
  withByType ss callsite_idx type_idx (fun tss => callInfoToByType tss info)

/-- Step 2 of pop, first half: fold the frame's OSR hits into the stats and
the `ByCallsite` record. -/
def popOsr (ss : MVMSpeshStats) (simf : SimStackFrame) : MVMSpeshStats :=
  if simf.osrHits ≠ 0 then
    { ss with osrHits := ss.osrHits + simf.osrHits,
              byCallsite := modIdx ss.byCallsite simf.callsiteIdx (fun c =>
                { c with osrHits := c.osrHits + simf.osrHits }) }
  else ss

/-- Step 2 of pop, second half: bump the callsite-level max depth. -/
def popDepth (ss : MVMSpeshStats) (simf : SimStackFrame) (frame_depth : Nat) : MVMSpeshStats :=
  if frame_depth > (ss.byCallsite.getD simf.callsiteIdx default).maxDepth then
    { ss with byCallsite := modIdx ss.byCallsite simf.callsiteIdx (fun c =>
        { c with maxDepth := frame_depth }) }
  else ss

/-- Steps 4-6 of pop: incorporate the buffered offset events and call-type
infos into the resolved `ByType` record, then bump its hits, OSR hits and
max depth. -/
def popIncorporate (ss : MVMSpeshStats) (simf : SimStackFrame) (frame_depth tIdx : Nat) :
    MVMSpeshStats :=
  let ss4 := simf.offsetLogs.foldl (fun ss e => incorporateOffLog ss simf.callsiteIdx tIdx e) ss
  let ss5 := simf.callTypeInfo.foldl
    (fun ss info => incorporateCallInfo ss simf.callsiteIdx tIdx info) ss4
  withByType ss5 simf.callsiteIdx tIdx (fun tss =>
    { tss with hits := tss.hits + 1, osrHits := tss.osrHits + simf.osrHits,
               maxDepth := if frame_depth > tss.maxDepth then frame_depth else tss.maxDepth })

/-- Step 7 of pop: if the caller's last invocation targets the popped
frame's static frame, append a `SimCallType` to the caller's pending
call-type infos. -/
def popNotifyCaller (rest : List SimStackFrame) (simf : SimStackFrame) (ss6 : MVMSpeshStats)
    (tIdx : Nat) : List SimStackFrame :=
  match rest with
  | [] => rest
  | caller :: deeper =>
    match caller.lastInvokeCode with
    | some lic =>
      if lic.concrete && lic.reprIsCode && lic.codeSF = simf.sf then
        { caller with callTypeInfo := caller.callTypeInfo ++
            [{ bytecodeOffset := caller.lastInvokeOffset,
               cs := (ss6.byCallsite.getD simf.callsiteIdx default).cs,
               argTypes := ((ss6.byCallsite.getD simf.callsiteIdx default).byType.getD tIdx
                 default).argTypes }] } :: deeper
      else rest
    | none => rest

/-- `sim_stack_pop`.  Popping an empty stack is a fatal `MVM_panic` in C and
unreachable from the modelled call sites; the model returns the state
unchanged there. -/
def sim_stack_pop (st : AggState) : AggState :=
  match st.sims with
  | [] => st
  | simf :: rest =>
    let frame_depth := st.depth
    let ss2 := popDepth (popOsr (getStats st.stats simf.sf) simf) simf frame_depth
    -- See if there is a type tuple to attach type-based stats to.
    let bt := by_type ss2 simf.callsiteIdx simf.argTypes
    match bt.2 with
    | none =>
      { st with sims := rest, depth := st.depth - 1, stats := setStats st.stats simf.sf bt.1 }
    | some tIdx =>
      let ss6 := popIncorporate bt.1 simf frame_depth tIdx
      { st with sims := popNotifyCaller rest simf ss6 tIdx, depth := st.depth - 1,
                stats := setStats st.stats simf.sf ss6 }

/-- `n`-fold `sim_stack_pop`. -/
def popN (st : AggState) : Nat → AggState
  | 0 => st
  | n + 1 => popN (sim_stack_pop st) n

/-- `sim_stack_find`: search from the top of the sim stack down for the
correlation ID; pop every frame above the topmost hit (full pop semantics),
leaving the hit on top; `none` (and no change) if the ID is absent. -/
def sim_stack_find (st : AggState) (cid : Nat) : Option AggState :=
  match st.sims.findIdx? (fun f => f.cid = cid) with
  | none => none
  | some k => some (popN st k)

/-- `param_type`: maps a `PARAMETER`/`PARAMETER_DECONT` `arg_idx` to the flag
index of its object-arg slot, `none` when the frame has the no-callsite
sentinel or the flag is not an object flag.  A flag index at or beyond
`flag_count` is a fatal `MVM_panic` in C; the model drops the event there
(the path is unreachable for well-formed logs). -/
def param_type (cs : Option MVMCallsite) (argIdx : Nat) : Option Nat :=
  match cs with
  | none => none
  | some cs =>
    let flag_idx := if argIdx < cs.numPos then argIdx
      else cs.numPos + (argIdx - 1 - cs.numPos) / 2
    if flag_idx ≥ cs.argFlags.length then none
    else if cs.argFlags.getD flag_idx false then some flag_idx else none

/-- `add_static_value`: first observation of an offset wins, later ones are
ignored. -/
def add_static_value (ss : MVMSpeshStats) (off : Nat) (v : MVMObjectData) : MVMSpeshStats :=
  if ss.staticValues.any (fun sv => sv.bytecodeOffset = off) then ss
  else { ss with staticValues := ss.staticValues ++ [{ bytecodeOffset := off, value := v }] }

/-- The per-kind action applied to a state whose stack top is the frame the
event's correlation ID matched (everything after the `sim_stack_find` call
in each non-`ENTRY` arm of `MVM_spesh_stats_update`). -/
def applyToTop (st : AggState) (e : MVMSpeshLogEntry) : AggState :=
  match st.sims with
  | [] => st
  | simf :: rest =>
    match e with
    | .entry _ _ _ => st
    | .param _ argIdx ty conc =>
      let cs := (getStats st.stats simf.sf |>.byCallsite.getD simf.callsiteIdx default).cs
      match param_type cs argIdx with
      | none => st
      | some flagIdx =>
        { st with sims := { simf with argTypes := simf.argTypes.map (fun l =>
            modIdx l flagIdx (fun a => { a with type := some ty, typeConcrete := conc })) } :: rest }
    | .paramDecont _ argIdx ty conc =>
      let cs := (getStats st.stats simf.sf |>.byCallsite.getD simf.callsiteIdx default).cs
      match param_type cs argIdx with
      | none => st
      | some flagIdx =>
        { st with sims := { simf with argTypes := simf.argTypes.map (fun l =>
            modIdx l flagIdx (fun a =>
              { a with decontType := some ty, decontTypeConcrete := conc })) } :: rest }
    | .typeLog _ off ty conc =>
      { st with sims := { simf with offsetLogs := simf.offsetLogs ++ [.otype off ty conc] } :: rest }
    | .invokeLog _ off v =>
      { st with sims :=
          { simf with offsetLogs := simf.offsetLogs ++ [.oinvoke off v],
                      lastInvokeOffset := off, lastInvokeCode := some v } :: rest }
    | .osr _ =>
      { st with sims := { simf with osrHits := simf.osrHits + 1 } :: rest }
    | .staticLog _ off v =>
      { st with stats := setStats st.stats simf.sf (add_static_value (getStats st.stats simf.sf) off v) }
    | .ret _ _ ty conc =>
      let called_sf := simf.sf
      let st2 := sim_stack_pop st
      match ty with
      | none => st2
      | some t =>
        match st2.sims with
        | [] => st2
        | caller :: deeper =>
          match caller.lastInvokeCode with
          | some lic =>
            if lic.concrete && lic.reprIsCode && lic.codeSF = called_sf then
              { st2 with sims := { caller with offsetLogs := caller.offsetLogs ++
                  [.otype caller.lastInvokeOffset t conc] } :: deeper }
            else st2
          | none => st2

/-- One iteration of the event loop of `MVM_spesh_stats_update`.  `version`
is `tc->instance->spesh_stats_version`, constant across the call. -/
def processEvent (version : Nat) (st : AggState) (e : MVMSpeshLogEntry) : AggState :=
  match e with
  | .entry id sf cs =>
    let ss0 := stats_for st.stats sf
    let pushed := ss0.lastUpdate ≠ version
    let ss1 := if pushed then { ss0 with lastUpdate := version } else ss0
    let sink1 := if pushed then st.sink ++ [sf] else st.sink
    let ss2 := { ss1 with hits := ss1.hits + 1 }
    let p := by_callsite_idx ss2 cs
    let ss4 := { p.1 with byCallsite := modIdx p.1.byCallsite p.2 (fun c =>
        { c with hits := c.hits + 1 }) }
    let newFrame : SimStackFrame :=
      { sf := sf, cid := id, callsiteIdx := p.2,
        argTypes := match (ss4.byCallsite.getD p.2 default).cs with
          | some c => some (List.replicate c.argFlags.length emptyStatsType)
          | none => none,
        offsetLogs := [], callTypeInfo := [], osrHits := 0,
        lastInvokeOffset := 0, lastInvokeCode := none }
    { stats := setStats st.stats sf ss4, sink := sink1,
      sims := newFrame :: st.sims, depth := st.depth + 1 }
  | e =>
    match sim_stack_find st e.eid with
    | none => st
    | some st1 => applyToTop st1 e

/-- `sim_stack_destroy`: pop every remaining frame. -/
def sim_stack_destroy (st : AggState) : AggState :=
  popN st st.sims.length

/-- `MVM_spesh_stats_update`: consume the log in order, then tear down the
simulation stack.  The sink is the caller-owned `sf_updated` array, started
empty for the call. -/
def MVM_spesh_stats_update (version : Nat) (log : List MVMSpeshLogEntry)
    (stats0 : List (Nat × MVMSpeshStats)) : AggState :=
  sim_stack_destroy (log.foldl (processEvent version) { stats := stats0, sims := [], depth := 0, sink := [] })

/-- `MVM_spesh_stats_cleanup`.  `maxAge` is `MVM_SPESH_STATS_MAX_AGE` (a
caller-configurable tunable, not defined in the provided sources).  The
`MVMuint64` subtraction `version - last_update` is modelled with its
explicit wrap-around.  Returns the compacted sink together with the updated
stats map (`MVM_spesh_stats_destroy` frees a tree and nulls the pointer,
i.e. removes the map entry). -/
def MVM_spesh_stats_cleanup (version maxAge : Nat) (stats : List (Nat × MVMSpeshStats)) :
    List Nat → List (Nat × MVMSpeshStats) × List Nat
  | [] => (stats, [])
  | sf :: rest =>
    match lookupStats stats sf with
    | none => MVM_spesh_stats_cleanup version maxAge stats rest
    | some ss =>
      if (2 ^ 64 + version - ss.lastUpdate) % 2 ^ 64 > maxAge then
        MVM_spesh_stats_cleanup version maxAge (stats.filter (fun p => p.1 ≠ sf)) rest
      else
        let r := MVM_spesh_stats_cleanup version maxAge stats rest
        (r.1, sf :: r.2)

/-- Does a `ByOffset` record hold a `TypeCount` for `(ty, conc)`? -/
def ossHasType (oss : MVMSpeshStatsByOffset) (ty : MVMObjectData) (conc : Bool) : Bool :=
  oss.types.any (fun t => t.type = ty && t.typeConcrete = conc)

/-- Does a `ByType` record hold a `TypeCount` for `(ty, conc)` at offset `off`? -/
def btHasType (bt : MVMSpeshStatsByType) (off : Nat) (ty : MVMObjectData) (conc : Bool) : Bool :=
  bt.byOffset.any (fun bo => bo.bytecodeOffset = off && ossHasType bo ty conc)

/-- Does a stats tree hold, under some `ByCallsite`/`ByType`, a `TypeCount`
for `(ty, conc)` at offset `off`? -/
def ssHasType (ss : MVMSpeshStats) (off : Nat) (ty : MVMObjectData) (conc : Bool) : Bool :=
  ss.byCallsite.any (fun css => css.byType.any (fun bt => btHasType bt off ty conc))

/-- The condition under which `by_type` discards the tuple: no-callsite
sentinel, a callsite without object args, or an incomplete tuple. -/
def discardsTuple (ss : MVMSpeshStats) (callsite_idx : Nat)
    (arg_types : Option (List MVMSpeshStatsType)) : Prop :=
  match (ss.byCallsite.getD callsite_idx default).cs with
  | none => True
  | some cs => cs_without_object_args cs = true ∨
      incomplete_type_tuple cs (arg_types.getD []) = true

instance (ss : MVMSpeshStats) (i : Nat) (a : Option (List MVMSpeshStatsType)) :
    Decidable (discardsTuple ss i a) := by
  unfold discardsTuple; exact match (ss.byCallsite.getD i default).cs with
    | none => inferInstanceAs (Decidable True)
    | some cs => inferInstanceAs (Decidable (_ ∨ _))

/-- The projection of a `ByCallsite` record that a tuple-discarding pop must
leave intact: its callsite, its entry hits and its whole `ByType` forest. -/
def csProj (c : MVMSpeshStatsByCallsite) : Option MVMCallsite × Nat × List MVMSpeshStatsByType :=
  (c.cs, c.hits, c.byType)

/-!  Concrete data for exercising the return-attribution path: static frame 1
calls static frame 2 through the code object `cexCode`, the callee returns
type `cexType`, and frame 1's own argument tuple is never completed because
no `PARAMETER` record for it appears in the log. -/

/-- A concrete observed type. -/
def cexType : MVMObjectData :=
  { oid := 30, concrete := true, reprIsCode := false, codeSF := 0, hasContainerSpec := false }

/-- A concrete code object whose body is static frame 2. -/
def cexCode : MVMObjectData :=
  { oid := 20, concrete := true, reprIsCode := true, codeSF := 2, hasContainerSpec := false }

/-- A callsite with one object argument. -/
def cexCallsite : MVMCallsite := { csid := 0, numPos := 1, argFlags := [true] }

/-- A callsite with no arguments. -/
def cexEmptyCallsite : MVMCallsite := { csid := 5, numPos := 0, argFlags := [] }

/-- A log in which the `RETURN` of frame `cid 2` is attributed to the caller
(frame `cid 1`, whose `last_invoke_code` is `cexCode` targeting frame 2),
but the caller's own type tuple stays incomplete. -/
def cexLog : List MVMSpeshLogEntry :=
  [.entry 1 1 (some cexCallsite), .invokeLog 1 42 cexCode,
   .entry 2 2 (some cexEmptyCallsite), .ret 2 0 (some cexType) true]

/-- The same log with the caller's object parameter logged, completing its
tuple. -/
def cexLogComplete : List MVMSpeshLogEntry :=
  [.entry 1 1 (some cexCallsite), .param 1 0 cexType true, .invokeLog 1 42 cexCode,
   .entry 2 2 (some cexEmptyCallsite), .ret 2 0 (some cexType) true]

/-- Does `cleanup` retain a candidate frame, judged against the stats map at
the start of the call? -/
def keepsFrame (version maxAge : Nat) (stats : List (Nat × MVMSpeshStats)) (sf : Nat) : Bool :=
  match lookupStats stats sf with
  | none => false
  | some ss => decide ((2 ^ 64 + version - ss.lastUpdate) % 2 ^ 64 ≤ maxAge)

/-- Is a candidate frame's stats record aged out, judged against the stats
map at the start of the call? -/
def agedOut (version maxAge : Nat) (stats : List (Nat × MVMSpeshStats)) (sf : Nat) : Bool :=
  match lookupStats stats sf with
  | none => false
  | some ss => decide ((2 ^ 64 + version - ss.lastUpdate) % 2 ^ 64 > maxAge)


/-- The aggregation state after the first three events of `cexLog` (frame 1
entered and its invoke recorded, frame 2 entered). -/
def cexMid : AggState :=
  (cexLog.take 3).foldl (processEvent 7) { stats := [], sims := [], depth := 0, sink := [] }

/-- A `ByOffset` record already holding a `TypeCount` for `cexType` at
offset 42 (used to exercise preservation). -/
def cexByOffset : MVMSpeshStatsByOffset :=
  { bytecodeOffset := 42,
    types := [{ type := cexType, typeConcrete := true, count := 1 }],
    values := [],
    typeTuples := [] }

/-- A stats tree holding `cexByOffset`. -/
def cexStatsWithCount : MVMSpeshStats :=
  { hits := 1,
    osrHits := 0,
    lastUpdate := 0,
    byCallsite := [{ cs := none, hits := 1, osrHits := 0, maxDepth := 0,
                     byType := [{ argTypes := [], hits := 1, osrHits := 0, maxDepth := 0,
                                  byOffset := [cexByOffset] }] }],
    staticValues := [] }


/-- The empty aggregation state at the start of an update call. -/
def emptyAggState : AggState := { stats := [], sims := [], depth := 0, sink := [] }

/-- A sim frame with a complete one-slot type tuple and a pending rewritten
return observation at offset 42. -/
def cexFlushFrame : SimStackFrame :=
  { sf := 1, cid := 1, callsiteIdx := 0,
    argTypes := some [{ type := some cexType, typeConcrete := true,
                        decontType := none, decontTypeConcrete := false }],
    offsetLogs := [.otype 42 cexType true],
    callTypeInfo := [], osrHits := 0, lastInvokeOffset := 0, lastInvokeCode := none }

/-- Stats for `cexFlushFrame`'s static frame: one callsite record for the
one-object-arg callsite. -/
def cexFlushStats : MVMSpeshStats :=
  { hits := 1, osrHits := 0, lastUpdate := 7,
    byCallsite := [{ cs := some cexCallsite, hits := 1, osrHits := 0, maxDepth := 0,
                     byType := [] }],
    staticValues := [] }

/-- A state about to pop `cexFlushFrame`. -/
def cexFlushState : AggState :=
  { stats := [(1, cexFlushStats)], sims := [cexFlushFrame], depth := 1, sink := [] }

/-- A sim frame whose tuple is incomplete (object-arg slot never filled). -/
def cexDiscFrame : SimStackFrame :=
  { sf := 1, cid := 1, callsiteIdx := 0,
    argTypes := some [emptyStatsType],
    offsetLogs := [.otype 42 cexType true],
    callTypeInfo := [], osrHits := 0, lastInvokeOffset := 0, lastInvokeCode := none }

/-- A state about to pop `cexDiscFrame`. -/
def cexDiscState : AggState :=
  { stats := [(1, cexFlushStats)], sims := [cexDiscFrame], depth := 1, sink := [] }

/-- The sink invariant maintained across one update call: the sink holds no
duplicates and every frame in it has its stats stamped with the current
version. -/
def SinkInv (version : Nat) (st : AggState) : Prop :=
  st.sink.Nodup ∧ ∀ sf ∈ st.sink, (getStats st.stats sf).lastUpdate = version

end Spesh


namespace Hash

/-- `MVM_HASH_MAX_PROBE_DISTANCE`.  Modelled from the spec: the constant
lives in a header not among the provided sources; the spec fixes
`MAX_PROBE_DISTANCE = 255`. -/
def MVM_HASH_MAX_PROBE_DISTANCE : Nat := 255

/-- One slot of an open-addressed table: the metadata byte paired with the
entry it describes.  `none` is an empty slot (metadata 0); `some (d, k, v)`
is occupied with probe distance `d ≥ 1`.  The C stores the metadata bytes
in a separate parallel array; on insertion the entries and their metadata
move together, so the pairing loses nothing.  The code asserts, and
arranges via the `max_items = 0` saturation, that probe distances never
exceed `MVM_HASH_MAX_PROBE_DISTANCE`, so the byte is modelled as `Nat`. -/
abbrev Slot (K V : Type) := Option (Nat × K × V)

/-- The probe loop shared by `MVM_ptr_hash_fetch`, `MVM_uni_hash_fetch` and
the other fetch variants, walking the slot suffix that starts at the
bucket.  Running off the list corresponds to reaching the trailing sentinel
byte `1`, which is less than the probe distance there: miss. -/
def probeFetch {K V : Type} [DecidableEq K] (key : K) :
    List (Slot K V) → Nat → Option (K × V)
  | [], _ => none
  | none :: _, _ => none
  | some (d, k, v) :: rest, pd =>
    if d = pd ∧ k = key then some (k, v)
    else if d < pd then none
    else probeFetch key rest (pd + 1)

/-- The outcome of `hash_insert_internal`: a freshly reserved entry (the C
returns it with a NULL key for the caller to fill), or the already present
entry. -/
inductive InsOutcome (K V : Type) where
  | fresh
  | existing (k : K) (v : V)
deriving DecidableEq

/-- The "make room" loop of `hash_insert_internal`: place `e` (already
carrying its new probe distance) at the head position and shift the
occupied run one slot along until the first gap, bumping each shifted probe
distance.  The Bool records whether any written probe distance reached
`MVM_HASH_MAX_PROBE_DISTANCE` (the C then zeroes `max_items` to force a
grow before the next insert). -/
def shiftChain {K V : Type} (e : Nat × K × V) :
    List (Slot K V) → List (Slot K V) × Bool
  | [] => ([some e], e.1 == MVM_HASH_MAX_PROBE_DISTANCE)
  | none :: rest => (some e :: rest, e.1 == MVM_HASH_MAX_PROBE_DISTANCE)
  | some f :: rest =>
    let r := shiftChain (f.1 + 1, f.2.1, f.2.2) rest
    (some e :: r.1, (e.1 == MVM_HASH_MAX_PROBE_DISTANCE) || r.2)

/-- The probe-and-insert loop of `hash_insert_internal` on the slot suffix
that starts at the bucket.  Returns the updated suffix, the outcome, and
the `max_items = 0` saturation flag.  The C leaves a fresh entry's key NULL
for the caller to fill; the model writes `(key, val)` directly. -/
def probeIns {K V : Type} [DecidableEq K] (key : K) (val : V) :
    List (Slot K V) → Nat → List (Slot K V) × InsOutcome K V × Bool
  | [], pd => ([some (pd, key, val)], .fresh, pd == MVM_HASH_MAX_PROBE_DISTANCE)
  | none :: rest, pd =>
    (some (pd, key, val) :: rest, .fresh, pd == MVM_HASH_MAX_PROBE_DISTANCE)
  | some (d, k, v) :: rest, pd =>
    if d < pd then
      let r := shiftChain (d + 1, k, v) rest
      (some (pd, key, val) :: r.1, .fresh, (pd == MVM_HASH_MAX_PROBE_DISTANCE) || r.2)
    else if d = pd ∧ k = key then
      (some (d, k, v) :: rest, .existing k v, false)
    else
      let r := probeIns key val rest (pd + 1)
      (some (d, k, v) :: r.1, r.2.1, r.2.2)

/-- `MVMPtrHashTableControl` (also reused for the uni variant, which stores
its `probe_overflow_size` implicitly as `slots.length - officialSize`). -/
structure HashTable (K V : Type) where
  officialSize : Nat
  keyRightShift : Nat
  maxItems : Nat
  curItems : Nat
  slots : List (Slot K V)
deriving DecidableEq

/-- `MVM_ptr_hash_code`, 64-bit variant: Fibonacci multiplication by the
golden-ratio constant. -/
def MVM_ptr_hash_code (k : Nat) : Nat := k * 11400714819323198485 % 2 ^ 64

/-- Bucket derivation: the top bits of the hash word. -/
def ptrBucket (shift : Nat) (k : Nat) : Nat := MVM_ptr_hash_code k / 2 ^ shift

/-- `hash_true_size` of the ptr variant: `official + max_items - 1`, capped
at `official + MVM_HASH_MAX_PROBE_DISTANCE`. -/
def hash_true_size (officialSize maxItems : Nat) : Nat :=
  let ts := officialSize + maxItems - 1
  if officialSize + MVM_HASH_MAX_PROBE_DISTANCE < ts then
    officialSize + MVM_HASH_MAX_PROBE_DISTANCE
  else ts

/-- `hash_allocate_common` of the ptr variant: set
`max_items = official_size * 0.75` (exact for powers of two) and allocate
zeroed metadata/entries; `cur_items` is whatever the reused control held. -/
def hash_allocate_common {V : Type} (officialSize keyRightShift curItems : Nat) :
    HashTable Nat V :=
  let mi := officialSize * 3 / 4
  { officialSize := officialSize, keyRightShift := keyRightShift, maxItems := mi,
    curItems := curItems,
    slots := List.replicate (hash_true_size officialSize mi) none }

/-- `hash_initial_allocate`: `PTR_INITIAL_SIZE = 8`,
`key_right_shift = 8 * sizeof(uintptr_t) - 3 = 61` (64-bit build), on a
zeroed control. -/
def hash_initial_allocate {V : Type} : HashTable Nat V :=
  hash_allocate_common 8 61 0

/-- `hash_insert_internal`: `none` models the `MVM_oops` fired when the
table is already at capacity (a recursive grow). -/
def hash_insert_internal {K V : Type} [DecidableEq K] (bk : K → Nat) (t : HashTable K V)
    (key : K) (val : V) : Option (HashTable K V × InsOutcome K V) :=
  if t.curItems ≥ t.maxItems then none
  else
    let b := bk key
    let r := probeIns key val (t.slots.drop b) 1
    let t2 : HashTable K V :=
      { officialSize := t.officialSize, keyRightShift := t.keyRightShift,
        maxItems := if r.2.2 then 0 else t.maxItems, curItems := t.curItems,
        slots := t.slots.take b ++ r.1 }
    some (t2, r.2.1)

/-- The common tail of both `lvalue_fetch` variants: insert, and on a fresh
entry count it and write the key/value (fused; the C caller fills the NULL
key). -/
def finishInsert {K V : Type} [DecidableEq K] (bk : K → Nat) (t : HashTable K V)
    (key : K) (val : V) : Option (HashTable K V × InsOutcome K V) :=
  (hash_insert_internal bk t key val).map (fun r =>
    match r.2 with
    | .fresh => ({ r.1 with curItems := r.1.curItems + 1 }, .fresh)
    | .existing k v => (r.1, .existing k v))

/-- One iteration of the grow-reinsertion loops (shared by the ptr and uni
variants): skip an empty slot, reinsert a live entry by probing from
scratch. -/
def reinsertStep {K V : Type} [DecidableEq K] (bk2 : K → Nat) (acc : HashTable K V)
    (s : Slot K V) : Option (HashTable K V) :=
  match s with
  | none => some acc
  | some (_, k, v) => (hash_insert_internal bk2 acc k v).map (fun r => r.1)

/-- `hash_grow` followed by the reinsertion loop of
`MVM_ptr_hash_lvalue_fetch`: halve the bucket range shift, double the
official size, reallocate, reinsert every live entry in slot order by
probing from scratch.  `cur_items` lives in the reused control and is
untouched.  (Reinserting cannot find an existing key since the old table's
keys are distinct; the C asserts this.) -/
def ptr_grow_reinsert {V : Type} (t : HashTable Nat V) : Option (HashTable Nat V) :=
  let grown : HashTable Nat V :=
    hash_allocate_common (t.officialSize * 2) (t.keyRightShift - 1) t.curItems
  t.slots.foldlM (reinsertStep (ptrBucket (t.keyRightShift - 1))) grown

/-- `MVM_ptr_hash_build` leaves the table pointer NULL. -/
def MVM_ptr_hash_build {V : Type} : Option (HashTable Nat V) := none

/-- `MVM_ptr_hash_fetch`. -/
def MVM_ptr_hash_fetch {V : Type} (t : Option (HashTable Nat V)) (key : Nat) :
    Option (Nat × V) :=
  match t with
  | none => none
  | some control => probeFetch key (control.slots.drop (ptrBucket control.keyRightShift key)) 1

/-- `MVM_ptr_hash_lvalue_fetch` (fused with the caller's write of
`(key, val)` on the fresh path).  At capacity it first does a pure lookup
and only grows when the key is absent. -/
def MVM_ptr_hash_lvalue_fetch {V : Type} (t : Option (HashTable Nat V)) (key : Nat)
    (val : V) : Option (HashTable Nat V × InsOutcome Nat V) :=
  match t with
  | none => finishInsert (ptrBucket 61) hash_initial_allocate key val
  | some control =>
    if control.curItems ≥ control.maxItems then
      match probeFetch key (control.slots.drop (ptrBucket control.keyRightShift key)) 1 with
      | some (k, v) => some (control, .existing k v)
      | none =>
        (ptr_grow_reinsert control).bind (fun grown =>
          finishInsert (ptrBucket grown.keyRightShift) grown key val)
    else finishInsert (ptrBucket control.keyRightShift) control key val

/-- `MVM_ptr_hash_insert`: route through `lvalue_fetch`; an existing key
with a conflicting value is the `MVM_oops` (`none`); an existing key with
the same value is left alone. -/
def MVM_ptr_hash_insert {V : Type} [DecidableEq V] (t : Option (HashTable Nat V))
    (key : Nat) (value : V) : Option (Option (HashTable Nat V)) :=
  (MVM_ptr_hash_lvalue_fetch t key value).bind (fun r =>
    match r.2 with
    | .fresh => some (some r.1)
    | .existing _ v0 => if value ≠ v0 then none else some (some r.1))

/-- Inserting a list of pairs into an initially built (NULL) ptr hash. -/
def ptr_hash_insert_list {V : Type} [DecidableEq V] (pairs : List (Nat × V)) :
    Option (Option (HashTable Nat V)) :=
  pairs.foldlM (fun t p => MVM_ptr_hash_insert t p.1 p.2) MVM_ptr_hash_build

/-- `UNI_MIN_SIZE_BASE_2`. -/
def UNI_MIN_SIZE_BASE_2 : Nat := 3

/-- `MVM_round_up_log_base2`.  Modelled from the spec: only the declaration
is among the provided sources; the spec states that it rounds up to the
next power of two, i.e. returns the ceiling of the base-2 logarithm. -/
def MVM_round_up_log_base2 (v : Nat) : Nat := Nat.clog 2 v

/-- `(MVMuint32)(entries * (1.0 / UNI_LOAD_FACTOR))`.  The IEEE double
`1.0 / 0.75` is `4/3 - ulp`, just below `4/3`; for every `entries` for
which no 32-bit overflow occurs (the theorems assume `entries ≤ 2 ^ 30`)
the rounded product truncates to exactly `⌊4 * entries / 3⌋`: at a multiple
of 3 the round-to-nearest of `4 m - 4 m ulp` restores `4 m` exactly, and
otherwise the product lies strictly between the two neighbouring integers
and truncation floors it. -/
def uni_min_needed (entries : Nat) : Nat := 4 * entries / 3

/-- The uni variant's probe-overflow area: `max_items - 1` slots beyond the
official allocation, capped at `MVM_HASH_MAX_PROBE_DISTANCE - 1`. -/
def uni_probe_overflow (maxItems : Nat) : Nat :=
  let overflow := maxItems - 1
  if MVM_HASH_MAX_PROBE_DISTANCE < overflow then MVM_HASH_MAX_PROBE_DISTANCE - 1
  else overflow

/-- `hash_allocate_common` of the uni variant: a fresh control with
`max_items = official_size * 0.75` (exact for powers of two), the
probe-overflow area, zeroed metadata.  `cur_items` is 0 from the fresh
allocation and the build; the grow path overwrites it.  The
`probe_overflow_size` field is recoverable as
`slots.length - officialSize`. -/
def uni_hash_allocate_common {K V : Type} (keyRightShift officialSize : Nat) :
    HashTable K V :=
  let mi := officialSize * 3 / 4
  { officialSize := officialSize, keyRightShift := keyRightShift, maxItems := mi,
    curItems := 0,
    slots := List.replicate (officialSize + uni_probe_overflow mi) none }

/-- `MVM_uni_hash_build`: size the table for `entries` items given the load
factor, with a floor of `2 ^ UNI_MIN_SIZE_BASE_2` slots; the shift is
against a 32-bit hash. -/
def MVM_uni_hash_build {K V : Type} (entries : Nat) : HashTable K V :=
  let base2 :=
    if entries = 0 then UNI_MIN_SIZE_BASE_2
    else
      let b := MVM_round_up_log_base2 (uni_min_needed entries)
      if b < UNI_MIN_SIZE_BASE_2 then UNI_MIN_SIZE_BASE_2 else b
  uni_hash_allocate_common (8 * 4 - base2) (2 ^ base2)

/-- Bucket derivation of the uni variant: the stored `hash_val` is the
32-bit `MVM_uni_hash_code key` (the hash function itself is outside the
provided sources, so it is a parameter `hashFn`, truncated to 32 bits),
shifted down by `key_right_shift`. -/
def uniBucket {K : Type} (hashFn : K → Nat) (shift : Nat) (k : K) : Nat :=
  hashFn k % 2 ^ 32 / 2 ^ shift

/-- The grow-and-reinsert path of `MVM_uni_hash_lvalue_fetch`: allocate a
fresh control at twice the official size, copy `cur_items` over, reinsert
every live entry in slot order (the stored `hash_val` of an entry with key
`k` is `hashFn k`, so reprobing with it lands in `uniBucket hashFn`), then
demolish the old allocation.  `none` is the `MVM_oops` in
`hash_insert_internal`.  An entry's `hash_val == hash_val` comparison on
the existing-key path is implied by key equality, so `probeIns` loses
nothing. -/
def uni_grow_reinsert {K V : Type} [DecidableEq K] (hashFn : K → Nat)
    (t : HashTable K V) : Option (HashTable K V) :=
  let fresh0 : HashTable K V :=
    uni_hash_allocate_common (t.keyRightShift - 1) (t.officialSize * 2)
  let grown : HashTable K V :=
    { fresh0 with curItems := t.curItems }
  t.slots.foldlM (reinsertStep (uniBucket hashFn (t.keyRightShift - 1))) grown

/-- `MVM_uni_hash_fetch`: the same probe loop as the ptr variant, with the
`hash_val` comparison subsumed by key equality. -/
def MVM_uni_hash_fetch {K V : Type} [DecidableEq K] (hashFn : K → Nat)
    (t : Option (HashTable K V)) (key : K) : Option (K × V) :=
  match t with
  | none => none
  | some control =>
    probeFetch key (control.slots.drop (uniBucket hashFn control.keyRightShift key)) 1

/-- `MVM_uni_hash_lvalue_fetch` (fused with the caller's write of
`(key, val)` on the fresh path): build on a NULL table, at capacity fetch
first and grow only on a miss, then insert. -/
def MVM_uni_hash_lvalue_fetch {K V : Type} [DecidableEq K] (hashFn : K → Nat)
    (t : Option (HashTable K V)) (key : K) (val : V) :
    Option (HashTable K V × InsOutcome K V) :=
  match t with
  | none => finishInsert (uniBucket hashFn (32 - UNI_MIN_SIZE_BASE_2)) (MVM_uni_hash_build 0) key val
  | some control =>
    if control.curItems ≥ control.maxItems then
      match probeFetch key (control.slots.drop (uniBucket hashFn control.keyRightShift key)) 1 with
      | some (k, v) => some (control, .existing k v)
      | none =>
        (uni_grow_reinsert hashFn control).bind (fun grown =>
          finishInsert (uniBucket hashFn grown.keyRightShift) grown key val)
    else finishInsert (uniBucket hashFn control.keyRightShift) control key val

/-- `MVM_uni_hash_insert`: an existing key with a conflicting value is the
`MVM_oops` (`none`); an existing key with the same value is left alone. -/
def MVM_uni_hash_insert {K V : Type} [DecidableEq K] [DecidableEq V] (hashFn : K → Nat)
    (t : Option (HashTable K V)) (key : K) (value : V) :
    Option (Option (HashTable K V)) :=
  (MVM_uni_hash_lvalue_fetch hashFn t key value).bind (fun r =>
    match r.2 with
    | .fresh => some (some r.1)
    | .existing _ v0 => if value ≠ v0 then none else some (some r.1))

/-- Inserting a list of pairs into an initially NULL uni hash. -/
def uni_hash_insert_list {K V : Type} [DecidableEq K] [DecidableEq V] (hashFn : K → Nat)
    (pairs : List (K × V)) : Option (Option (HashTable K V)) :=
  pairs.foldlM (fun t p => MVM_uni_hash_insert hashFn t p.1 p.2) none

/-- The effect of the shift loop on one moved slot: its probe distance
grows by one. -/
def bumpSlot {K V : Type} (s : Slot K V) : Slot K V :=
  s.map (fun f => (f.1 + 1, f.2.1, f.2.2))

/-- Six concrete pairs that fill the initial ptr table to capacity
(`cur_items = max_items = 6`). -/
def cexPtrPairs : List (Nat × Nat) := [(1, 10), (2, 20), (3, 30), (4, 40), (5, 50), (6, 60)]

/-- The table reached by inserting `cexPtrPairs` into a fresh ptr hash. -/
def cexPtrTable : HashTable Nat Nat :=
  match ptr_hash_insert_list cexPtrPairs with
  | some (some t) => t
  | _ => hash_initial_allocate

/-- A concrete uni hash function for the examples. -/
def cexUniHash : Nat → Nat := fun k => k * 2654435761

/-- Six concrete pairs that fill the default uni table to capacity. -/
def cexUniPairs : List (Nat × Nat) := [(1, 10), (2, 20), (3, 30), (4, 40), (5, 50), (6, 60)]

/-- The table reached by inserting `cexUniPairs` into a NULL uni hash. -/
def cexUniTable : HashTable Nat Nat :=
  match uni_hash_insert_list cexUniHash cexUniPairs with
  | some (some t) => t
  | _ => MVM_uni_hash_build 0

/-- The key/value pairs stored in a slot array. -/
def pairsOf {K V : Type} (slots : List (Slot K V)) : List (K × V) :=
  slots.filterMap (fun s => s.map (fun f => (f.2.1, f.2.2)))

/-- The keys stored in a slot array. -/
def keysOf {K V : Type} (slots : List (Slot K V)) : List K :=
  (pairsOf slots).map Prod.fst

/-- The layout invariant of the Robin-Hood tables: every occupied slot sits
at or after its ideal bucket, its metadata byte is exactly
`1 + position - bucket`, and the whole range from its bucket to it is
occupied by entries whose own buckets are no later (the Robin-Hood
ordering). -/
def good {K V : Type} (bk : K → Nat) (slots : List (Slot K V)) : Prop :=
  ∀ i d k v, slots[i]? = some (some (d, k, v)) →
    bk k ≤ i ∧ d = i + 1 - bk k ∧
    ∀ j, bk k ≤ j → j < i →
      ∃ d2 k2 v2, slots[j]? = some (some (d2, k2, v2)) ∧ bk k2 ≤ bk k

/-- The bucket-function-generic part of the representation invariant tying
a table to the list of pairs inserted so far: the layout is `good`, keys
are distinct, the stored pairs are the inserted ones, every bucket is in
the official range, and the allocation covers the probe overflow area. -/
structure Inv {K V : Type} (bk : K → Nat) (t : HashTable K V) (ins : List (K × V)) : Prop where
  hgood : good bk t.slots
  hnodup : (keysOf t.slots).Nodup
  hperm : List.Perm (pairsOf t.slots) ins
  hbklt : ∀ k, bk k < t.officialSize
  hlenge : t.officialSize + min (t.maxItems - 1) (MVM_HASH_MAX_PROBE_DISTANCE - 1) ≤ t.slots.length

/-- The full invariant of a reachable ptr table (reachable by at most 254
insertions, which keeps the official size at or below 512 and the load
factor field unsaturated). -/
def PtrOk {V : Type} (t : HashTable Nat V) (ins : List (Nat × V)) : Prop :=
  Inv (ptrBucket t.keyRightShift) t ins ∧
  t.maxItems = t.officialSize * 3 / 4 ∧
  t.officialSize = 2 ^ (64 - t.keyRightShift) ∧
  55 ≤ t.keyRightShift ∧ t.keyRightShift ≤ 61

/-- The full invariant of a reachable uni table. -/
def UniOk {K V : Type} (hashFn : K → Nat) (t : HashTable K V) (ins : List (K × V)) : Prop :=
  Inv (uniBucket hashFn t.keyRightShift) t ins ∧
  t.maxItems = t.officialSize * 3 / 4 ∧
  t.officialSize = 2 ^ (32 - t.keyRightShift) ∧
  23 ≤ t.keyRightShift ∧ t.keyRightShift ≤ 29

/-- Invariant on the `hashtable->table` pointer of a ptr hash. -/
def PtrState {V : Type} (acc : Option (HashTable Nat V)) (ins : List (Nat × V)) : Prop :=
  match acc with
  | none => ins = []
  | some t => PtrOk t ins ∧ t.curItems = ins.length ∧ t.curItems ≤ t.maxItems

/-- Invariant on the `hashtable->table` pointer of a uni hash. -/
def UniState {K V : Type} (hashFn : K → Nat) (acc : Option (HashTable K V))
    (ins : List (K × V)) : Prop :=
  match acc with
  | none => ins = []
  | some t => UniOk hashFn t ins ∧ t.curItems = ins.length ∧ t.curItems ≤ t.maxItems

end Hash

/-! ## Theorems -/



namespace Spesh

theorem lookupStats_setStats (l : List (Nat × MVMSpeshStats)) (sf : Nat) (ss : MVMSpeshStats)
    (x : Nat) :
    lookupStats (setStats l sf ss) x = if x = sf then some ss else lookupStats l x := by
  induction l with
  | nil =>
    by_cases h : x = sf
    · subst h; simp [setStats, lookupStats]
    · have hsx : ¬ (sf = x) := fun hh => h hh.symm
      simp [setStats, lookupStats, h, hsx]
  | cons p l ih =>
    simp only [setStats]
    by_cases hp : p.1 = sf
    · by_cases h : x = sf
      · subst h; simp [hp, lookupStats]
      · have hsx : ¬ (sf = x) := fun hh => h hh.symm
        have hpx : ¬ (p.1 = x) := by rw [hp]; exact hsx
        simp [hp, h, hpx, lookupStats, hsx]
    · by_cases hx : p.1 = x
      · have hxsf : ¬ (x = sf) := by rw [← hx]; exact hp
        simp [hp, hx, hxsf, lookupStats]
      · simp [hp, hx, lookupStats, ih]

theorem getStats_setStats (l : List (Nat × MVMSpeshStats)) (sf : Nat) (ss : MVMSpeshStats)
    (x : Nat) :
    getStats (setStats l sf ss) x = if x = sf then ss else getStats l x := by
  unfold getStats
  rw [lookupStats_setStats]
  by_cases h : x = sf <;> simp [h]

theorem lookupStats_filter_ne (l : List (Nat × MVMSpeshStats)) (sf x : Nat) :
    lookupStats (l.filter (fun p => p.1 ≠ sf)) x
      = if x = sf then none else lookupStats l x := by
  induction l with
  | nil => by_cases h : x = sf <;> simp [h, lookupStats]
  | cons p l ih =>
    by_cases hp : p.1 = sf
    · have hfc : (p :: l).filter (fun q => q.1 ≠ sf) = l.filter (fun q => q.1 ≠ sf) := by
        simp [List.filter_cons, hp]
      rw [hfc, ih]
      by_cases h : x = sf
      · simp [h]
      · have hpx : ¬ (p.1 = x) := by rw [hp]; exact fun hh => h hh.symm
        simp [h, lookupStats, hpx]
    · have hfc : (p :: l).filter (fun q => q.1 ≠ sf) = p :: l.filter (fun q => q.1 ≠ sf) := by
        simp [List.filter_cons, hp]
      rw [hfc]
      by_cases hx : p.1 = x
      · have hxsf : ¬ (x = sf) := by rw [← hx]; exact hp
        simp [hxsf, lookupStats, hx]
      · have hstep : lookupStats (p :: l.filter (fun q => q.1 ≠ sf)) x
            = lookupStats (l.filter (fun q => q.1 ≠ sf)) x := by
          simp [lookupStats, hx]
        rw [hstep, ih]
        by_cases h : x = sf
        · simp [h]
        · simp [h, lookupStats, hx]

/-- Helper: the cleanup recursion, related to the initial stats map.  The
running map agrees with the initial one except on keys it has already
destroyed, all of which were aged out initially. -/
theorem cleanup_rec (version maxAge : Nat) (stats0 : List (Nat × MVMSpeshStats)) :
    ∀ (sink : List Nat) (stats : List (Nat × MVMSpeshStats)),
    (∀ sf, lookupStats stats sf = lookupStats stats0 sf ∨
       (lookupStats stats sf = none ∧ agedOut version maxAge stats0 sf = true)) →
    (MVM_spesh_stats_cleanup version maxAge stats sink).2
      = sink.filter (keepsFrame version maxAge stats0) ∧
    (∀ sf, lookupStats (MVM_spesh_stats_cleanup version maxAge stats sink).1 sf
      = if sf ∈ sink ∧ agedOut version maxAge stats0 sf = true then none
        else lookupStats stats sf) := by
  intro sink
  induction sink with
  | nil =>
    intro stats _
    refine ⟨rfl, fun sf => ?_⟩
    simp [MVM_spesh_stats_cleanup]
  | cons sf rest ih =>
    intro stats hinv
    rcases hlk : lookupStats stats sf with _ | ss
    · -- absent: dropped from the sink, no stats change
      simp only [MVM_spesh_stats_cleanup, hlk]
      have hkeep : keepsFrame version maxAge stats0 sf = false := by
        rcases hinv sf with h | ⟨_, haged⟩
        · unfold keepsFrame
          rw [← h, hlk]
        · unfold keepsFrame agedOut at *
          rcases h0 : lookupStats stats0 sf with _ | ss0
          · rfl
          · rw [h0] at haged
            simp only [decide_eq_true_eq] at haged
            simp only [decide_eq_false_iff_not]
            omega
      obtain ⟨h1, h2⟩ := ih stats hinv
      constructor
      · rw [h1, List.filter_cons, hkeep]; simp
      · intro x
        rw [h2 x]
        by_cases hx : x = sf
        · subst hx
          by_cases hmem : x ∈ rest <;> simp [hmem, hlk]
        · simp [hx]
    · by_cases hage : (2 ^ 64 + version - ss.lastUpdate) % 2 ^ 64 > maxAge
      · -- aged out: destroy the stats, drop from the sink
        simp only [MVM_spesh_stats_cleanup, hlk, if_pos hage]
        have hstats0 : lookupStats stats0 sf = some ss := by
          rcases hinv sf with h | ⟨hnone, _⟩
          · rw [← h, hlk]
          · rw [hlk] at hnone; cases hnone
        have haged : agedOut version maxAge stats0 sf = true := by
          unfold agedOut; rw [hstats0]; simpa using hage
        have hkeep : keepsFrame version maxAge stats0 sf = false := by
          unfold keepsFrame; rw [hstats0]
          simp only [decide_eq_false_iff_not]; omega
        have hinv2 : ∀ x, lookupStats (stats.filter (fun p => p.1 ≠ sf)) x
            = lookupStats stats0 x ∨
            (lookupStats (stats.filter (fun p => p.1 ≠ sf)) x = none ∧
              agedOut version maxAge stats0 x = true) := by
          intro x
          rw [lookupStats_filter_ne]
          by_cases hx : x = sf
          · subst hx; right; exact ⟨if_pos rfl, haged⟩
          · rw [if_neg hx]; exact hinv x
        obtain ⟨h1, h2⟩ := ih _ hinv2
        constructor
        · rw [h1, List.filter_cons, hkeep]; simp
        · intro x
          rw [h2 x, lookupStats_filter_ne]
          by_cases hx : x = sf
          · subst hx
            by_cases hmem : x ∈ rest <;> simp [hmem, haged]
          · simp [hx]
      · -- fresh enough: retained in place
        simp only [MVM_spesh_stats_cleanup, hlk, if_neg hage]
        have hstats0 : lookupStats stats0 sf = some ss := by
          rcases hinv sf with h | ⟨hnone, _⟩
          · rw [← h, hlk]
          · rw [hlk] at hnone; cases hnone
        have hkeep : keepsFrame version maxAge stats0 sf = true := by
          unfold keepsFrame; rw [hstats0]
          simp only [decide_eq_true_eq]; omega
        have hnotaged : agedOut version maxAge stats0 sf = false := by
          unfold agedOut; rw [hstats0]
          simp only [decide_eq_false_iff_not]; omega
        obtain ⟨h1, h2⟩ := ih stats hinv
        constructor
        · simp only [List.filter_cons, hkeep, if_pos]
          rw [h1]
        · intro x
          rw [h2 x]
          by_cases hx : x = sf
          · subst hx; simp [hnotaged]
          · simp [hx]

theorem stats_for_eq_getStats (l : List (Nat × MVMSpeshStats)) (sf : Nat) :
    stats_for l sf = getStats l sf := by
  unfold stats_for getStats
  cases lookupStats l sf <;> rfl

/-- Generic preservation of a predicate along a left fold. -/
theorem foldl_pres {α β : Type} (P : α → Prop) (g : α → β → α)
    (h : ∀ a b, P a → P (g a b)) : ∀ (l : List β) (a : α), P a → P (l.foldl g a) := by
  intro l
  induction l with
  | nil => intro a ha; exact ha
  | cons b l ih => intro a ha; exact ih (g a b) (h a b ha)

theorem by_callsite_idx_lastUpdate (ss : MVMSpeshStats) (cs : Option MVMCallsite) :
    (by_callsite_idx ss cs).1.lastUpdate = ss.lastUpdate := by
  unfold by_callsite_idx
  cases ss.byCallsite.findIdx? (fun c => c.cs = cs) <;> rfl

theorem by_type_lastUpdate (ss : MVMSpeshStats) (i : Nat)
    (a : Option (List MVMSpeshStatsType)) : (by_type ss i a).1.lastUpdate = ss.lastUpdate := by
  unfold by_type
  dsimp only
  split
  · rfl
  · split
    · rfl
    · split
      · rfl
      · split <;> rfl

theorem withByType_lastUpdate (ss : MVMSpeshStats) (i j : Nat) (f) :
    (withByType ss i j f).lastUpdate = ss.lastUpdate := rfl

theorem incorporateOffLog_lastUpdate (ss : MVMSpeshStats) (i j : Nat) (e : OffLogEntry) :
    (incorporateOffLog ss i j e).lastUpdate = ss.lastUpdate := rfl

theorem incorporateCallInfo_lastUpdate (ss : MVMSpeshStats) (i j : Nat) (info : SimCallType) :
    (incorporateCallInfo ss i j info).lastUpdate = ss.lastUpdate := rfl

theorem popOsr_lastUpdate (ss : MVMSpeshStats) (simf : SimStackFrame) :
    (popOsr ss simf).lastUpdate = ss.lastUpdate := by
  unfold popOsr; split <;> rfl

theorem popDepth_lastUpdate (ss : MVMSpeshStats) (simf : SimStackFrame) (d : Nat) :
    (popDepth ss simf d).lastUpdate = ss.lastUpdate := by
  unfold popDepth; split <;> rfl

theorem popIncorporate_lastUpdate (ss : MVMSpeshStats) (simf : SimStackFrame) (d tIdx : Nat) :
    (popIncorporate ss simf d tIdx).lastUpdate = ss.lastUpdate := by
  unfold popIncorporate
  rw [withByType_lastUpdate]
  have h5 := foldl_pres (fun s : MVMSpeshStats => s.lastUpdate = ss.lastUpdate)
    (fun ss e => incorporateCallInfo ss simf.callsiteIdx tIdx e)
    (fun a b ha => by
      show (incorporateCallInfo a simf.callsiteIdx tIdx b).lastUpdate = ss.lastUpdate
      rw [incorporateCallInfo_lastUpdate]; exact ha) simf.callTypeInfo
  apply h5
  exact foldl_pres (fun s : MVMSpeshStats => s.lastUpdate = ss.lastUpdate)
    (fun ss e => incorporateOffLog ss simf.callsiteIdx tIdx e)
    (fun a b ha => by
      show (incorporateOffLog a simf.callsiteIdx tIdx b).lastUpdate = ss.lastUpdate
      rw [incorporateOffLog_lastUpdate]; exact ha) simf.offsetLogs ss rfl

/-- `sim_stack_pop` does not touch the sink. -/
theorem sim_stack_pop_sink (st : AggState) : (sim_stack_pop st).sink = st.sink := by
  unfold sim_stack_pop
  rcases st.sims with _ | ⟨simf, rest⟩
  · rfl
  · dsimp only
    rcases (by_type _ simf.callsiteIdx simf.argTypes).2 with _ | tIdx
    · rfl
    · rfl

/-- `sim_stack_pop` never changes any frame's `last_update`. -/
theorem sim_stack_pop_lastUpdate (st : AggState) (sf : Nat) :
    (getStats (sim_stack_pop st).stats sf).lastUpdate = (getStats st.stats sf).lastUpdate := by
  unfold sim_stack_pop
  rcases hs : st.sims with _ | ⟨simf, rest⟩
  · rfl
  · dsimp only
    have hbase : (popDepth (popOsr (getStats st.stats simf.sf) simf) simf st.depth).lastUpdate
        = (getStats st.stats simf.sf).lastUpdate := by
      rw [popDepth_lastUpdate, popOsr_lastUpdate]
    rcases hbt : (by_type (popDepth (popOsr (getStats st.stats simf.sf) simf) simf st.depth)
        simf.callsiteIdx simf.argTypes).2 with _ | tIdx
    · dsimp only
      rw [getStats_setStats]
      split
      · next h =>
        subst h
        rw [by_type_lastUpdate, hbase]
      · rfl
    · dsimp only
      rw [getStats_setStats]
      split
      · next h =>
        subst h
        rw [popIncorporate_lastUpdate, by_type_lastUpdate, hbase]
      · rfl

theorem popN_sink (st : AggState) (n : Nat) : (popN st n).sink = st.sink := by
  induction n generalizing st with
  | zero => rfl
  | succ n ih => rw [popN, ih, sim_stack_pop_sink]

theorem popN_lastUpdate (st : AggState) (n : Nat) (sf : Nat) :
    (getStats (popN st n).stats sf).lastUpdate = (getStats st.stats sf).lastUpdate := by
  induction n generalizing st with
  | zero => rfl
  | succ n ih => rw [popN, ih, sim_stack_pop_lastUpdate]

theorem add_static_value_lastUpdate (ss : MVMSpeshStats) (off : Nat) (v : MVMObjectData) :
    (add_static_value ss off v).lastUpdate = ss.lastUpdate := by
  unfold add_static_value; split <;> rfl

/-- `applyToTop` does not touch the sink. -/
theorem applyToTop_sink (st : AggState) (e : MVMSpeshLogEntry) :
    (applyToTop st e).sink = st.sink := by
  unfold applyToTop
  rcases st.sims with _ | ⟨simf, rest⟩
  · rfl
  · rcases e with ⟨id, sf, cs⟩ | ⟨id, argIdx, ty, conc⟩ | ⟨id, argIdx, ty, conc⟩
      | ⟨id, off, ty, conc⟩ | ⟨id, off, v⟩ | id | ⟨id, off, v⟩ | ⟨id, off, ty, conc⟩
    · rfl
    · dsimp only; split <;> rfl
    · dsimp only; split <;> rfl
    · rfl
    · rfl
    · rfl
    · rfl
    · dsimp only
      rcases ty with _ | t
      · exact sim_stack_pop_sink _
      · dsimp only
        rcases (sim_stack_pop st).sims with _ | ⟨caller, deeper⟩
        · exact sim_stack_pop_sink _
        · dsimp only
          rcases caller.lastInvokeCode with _ | lic
          · exact sim_stack_pop_sink _
          · dsimp only
            split
            · show (sim_stack_pop _).sink = _
              exact sim_stack_pop_sink _
            · exact sim_stack_pop_sink _

/-- `applyToTop` never changes any frame's `last_update`. -/
theorem applyToTop_lastUpdate (st : AggState) (e : MVMSpeshLogEntry) (sf : Nat) :
    (getStats (applyToTop st e).stats sf).lastUpdate = (getStats st.stats sf).lastUpdate := by
  unfold applyToTop
  rcases st.sims with _ | ⟨simf, rest⟩
  · rfl
  · rcases e with ⟨id, sf0, cs⟩ | ⟨id, argIdx, ty, conc⟩ | ⟨id, argIdx, ty, conc⟩
      | ⟨id, off, ty, conc⟩ | ⟨id, off, v⟩ | id | ⟨id, off, v⟩ | ⟨id, off, ty, conc⟩
    · rfl
    · dsimp only; split <;> rfl
    · dsimp only; split <;> rfl
    · rfl
    · rfl
    · rfl
    · dsimp only
      rw [getStats_setStats]
      split
      · next h => subst h; rw [add_static_value_lastUpdate]
      · rfl
    · dsimp only
      rcases ty with _ | t
      · exact sim_stack_pop_lastUpdate _ _
      · dsimp only
        rcases (sim_stack_pop st).sims with _ | ⟨caller, deeper⟩
        · exact sim_stack_pop_lastUpdate _ _
        · dsimp only
          rcases caller.lastInvokeCode with _ | lic
          · exact sim_stack_pop_lastUpdate _ _
          · dsimp only
            split
            · show (getStats (sim_stack_pop _).stats sf).lastUpdate = _
              exact sim_stack_pop_lastUpdate _ _
            · exact sim_stack_pop_lastUpdate _ _

/-- For a non-`ENTRY` event, `processEvent` is exactly correlation-ID lookup
followed by the per-kind action. -/
theorem processEvent_ne_entry (version : Nat) (st : AggState) (e : MVMSpeshLogEntry)
    (h : e.isEntry = false) :
    processEvent version st e =
      match sim_stack_find st e.eid with
      | none => st
      | some st1 => applyToTop st1 e := by
  rcases e with ⟨id, sf, cs⟩ | _ | _ | _ | _ | _ | _ | _ <;> first
    | rfl
    | simp [MVMSpeshLogEntry.isEntry] at h

/-- C8.  After `cleanup(candidate_sink, global_version)`: the sink is exactly
the original sink filtered, in order, to the frames whose stats exist and
whose age `global_version - last_update` (64-bit arithmetic) is at most
`MAX_AGE`; every candidate frame whose stats were aged out has its stats
pointer nulled; all other frames' stats are untouched. -/
theorem spesh_stats_cleanup_spec (version maxAge : Nat) (stats : List (Nat × MVMSpeshStats))
    (sink : List Nat) :
    (MVM_spesh_stats_cleanup version maxAge stats sink).2
      = sink.filter (keepsFrame version maxAge stats) ∧
    (∀ sf, lookupStats (MVM_spesh_stats_cleanup version maxAge stats sink).1 sf
      = if sf ∈ sink ∧ agedOut version maxAge stats sf = true then none
        else lookupStats stats sf) :=
  cleanup_rec version maxAge stats sink stats (fun _ => Or.inl rfl)


/-- Characterization of an `ENTRY` event: the sink is extended and
`last_update` advanced exactly when the stats record's `last_update`
differs from the version; other frames' stats are untouched. -/
theorem processEvent_entry_char (version : Nat) (st : AggState) (id sf : Nat)
    (cs : Option MVMCallsite) :
    ((processEvent version st (.entry id sf cs)).sink
        = if (stats_for st.stats sf).lastUpdate ≠ version then st.sink ++ [sf] else st.sink)
    ∧ ((getStats (processEvent version st (.entry id sf cs)).stats sf).lastUpdate
        = if (stats_for st.stats sf).lastUpdate ≠ version then version
          else (stats_for st.stats sf).lastUpdate)
    ∧ (∀ x, x ≠ sf →
        getStats (processEvent version st (.entry id sf cs)).stats x = getStats st.stats x) := by
  unfold processEvent
  dsimp only
  by_cases hpush : (stats_for st.stats sf).lastUpdate ≠ version
  · simp only [if_pos hpush]
    refine ⟨by trivial, ?_, ?_⟩
    · show (getStats (setStats st.stats sf _) sf).lastUpdate = version
      rw [getStats_setStats, if_pos rfl]
      show ((by_callsite_idx _ cs).1).lastUpdate = version
      rw [by_callsite_idx_lastUpdate]
    · intro x hx
      show getStats (setStats st.stats sf _) x = getStats st.stats x
      rw [getStats_setStats, if_neg hx]
  · simp only [if_neg hpush]
    refine ⟨by trivial, ?_, ?_⟩
    · show (getStats (setStats st.stats sf _) sf).lastUpdate = (stats_for st.stats sf).lastUpdate
      rw [getStats_setStats, if_pos rfl]
      show ((by_callsite_idx _ cs).1).lastUpdate = _
      rw [by_callsite_idx_lastUpdate]
    · intro x hx
      show getStats (setStats st.stats sf _) x = getStats st.stats x
      rw [getStats_setStats, if_neg hx]

theorem sinkInv_pop (version : Nat) (st : AggState) (h : SinkInv version st) :
    SinkInv version (sim_stack_pop st) := by
  obtain ⟨h1, h2⟩ := h
  refine ⟨by rw [sim_stack_pop_sink]; exact h1, fun sf hsf => ?_⟩
  rw [sim_stack_pop_sink] at hsf
  rw [sim_stack_pop_lastUpdate]
  exact h2 sf hsf

theorem sinkInv_popN (version : Nat) (st : AggState) (n : Nat) (h : SinkInv version st) :
    SinkInv version (popN st n) := by
  induction n generalizing st with
  | zero => exact h
  | succ n ih => exact ih _ (sinkInv_pop version st h)

theorem sinkInv_applyToTop (version : Nat) (st : AggState) (e : MVMSpeshLogEntry)
    (h : SinkInv version st) : SinkInv version (applyToTop st e) := by
  obtain ⟨h1, h2⟩ := h
  refine ⟨by rw [applyToTop_sink]; exact h1, fun sf hsf => ?_⟩
  rw [applyToTop_sink] at hsf
  rw [applyToTop_lastUpdate]
  exact h2 sf hsf

theorem sinkInv_processEvent (version : Nat) (st : AggState) (e : MVMSpeshLogEntry)
    (h : SinkInv version st) : SinkInv version (processEvent version st e) := by
  by_cases he : e.isEntry = true
  · rcases e with ⟨id, sf, cs⟩ | _ | _ | _ | _ | _ | _ | _ <;>
      simp only [MVMSpeshLogEntry.isEntry] at he <;> try cases he
    obtain ⟨hsink, hlast, hother⟩ := processEvent_entry_char version st id sf cs
    obtain ⟨h1, h2⟩ := h
    by_cases hpush : (stats_for st.stats sf).lastUpdate ≠ version
    · rw [if_pos hpush] at hsink hlast
      have hnotin : sf ∉ st.sink := fun hin =>
        hpush (by rw [stats_for_eq_getStats]; exact h2 sf hin)
      constructor
      · rw [hsink]
        simpa [List.nodup_append] using ⟨h1, hnotin⟩
      · intro x hx
        rw [hsink] at hx
        simp only [List.mem_append, List.mem_singleton] at hx
        rcases hx with hx | hx
        · have hxne : x ≠ sf := fun hh => hnotin (hh ▸ hx)
          rw [hother x hxne]
          exact h2 x hx
        · subst hx
          exact hlast
    · rw [if_neg hpush] at hsink hlast
      push_neg at hpush
      constructor
      · rw [hsink]; exact h1
      · intro x hx
        rw [hsink] at hx
        by_cases hxs : x = sf
        · subst hxs
          rw [hlast, hpush]
        · rw [hother x hxs]
          exact h2 x hx
  · rw [processEvent_ne_entry version st e (by revert he; cases e.isEntry <;> simp)]
    unfold sim_stack_find
    rcases hf : st.sims.findIdx? (fun f => f.cid = e.eid) with _ | k
    · simp only [hf]
      exact h
    · simp only [hf]
      exact sinkInv_applyToTop version _ e (sinkInv_popN version st k h)

/-- C2.  (a) Processing an `ENTRY` event for `sf` pushes `sf` onto the
updated-frame sink and sets its stats `last_update` to the version exactly
when `last_update < version` (stated under the reachable-state invariant
`last_update ≤ version`).  (b) Over any complete `update` call, the sink
never receives the same static frame twice. -/
theorem spesh_entry_sink_once (version : Nat) :
    (∀ (st : AggState) (id sf : Nat) (cs : Option MVMCallsite),
      (stats_for st.stats sf).lastUpdate ≤ version →
      (((processEvent version st (.entry id sf cs)).sink = st.sink ++ [sf] ∧
        (getStats (processEvent version st (.entry id sf cs)).stats sf).lastUpdate = version)
        ↔ (stats_for st.stats sf).lastUpdate < version))
    ∧ (∀ (log : List MVMSpeshLogEntry) (stats0 : List (Nat × MVMSpeshStats)),
        (MVM_spesh_stats_update version log stats0).sink.Nodup) := by
  constructor
  · intro st id sf cs hle
    obtain ⟨hsink, hlast, _⟩ := processEvent_entry_char version st id sf cs
    by_cases hpush : (stats_for st.stats sf).lastUpdate ≠ version
    · rw [if_pos hpush] at hsink hlast
      constructor
      · intro _
        omega
      · intro _
        exact ⟨hsink, hlast⟩
    · rw [if_neg hpush] at hsink hlast
      push_neg at hpush
      constructor
      · rintro ⟨hs, _⟩
        rw [hsink] at hs
        have := congrArg List.length hs
        simp at this
      · intro hlt
        omega
  · intro log stats0
    have hinv : SinkInv version (MVM_spesh_stats_update version log stats0) := by
      unfold MVM_spesh_stats_update sim_stack_destroy
      apply sinkInv_popN
      apply foldl_pres (SinkInv version) _ (fun a b ha => sinkInv_processEvent version a b ha)
      exact ⟨List.nodup_nil, fun sf hsf => absurd hsf (List.not_mem_nil sf)⟩
    exact hinv.1


theorem getElem?_modIdx {α : Type} (l : List α) (i j : Nat) (f : α → α) :
    (modIdx l i f)[j]? = if i = j then l[j]?.map f else l[j]? := by
  induction l generalizing i j with
  | nil => cases i <;> cases j <;> simp [modIdx]
  | cons a l ih =>
    cases i with
    | zero =>
      cases j with
      | zero => simp [modIdx]
      | succ j => simp [modIdx]
    | succ i =>
      cases j with
      | zero => simp [modIdx]
      | succ j =>
        simp only [modIdx, List.getElem?_cons_succ]
        rw [ih i j]
        by_cases h : i = j
        · simp [h]
        · simp [h, fun hh => h (Nat.succ_injective hh)]

theorem modIdx_map_of_proj {α β : Type} (l : List α) (i : Nat) (f : α → α) (g : α → β)
    (hf : ∀ a, g (f a) = g a) : (modIdx l i f).map g = l.map g := by
  induction l generalizing i with
  | nil => rfl
  | cons a l ih =>
    cases i with
    | zero => simp [modIdx, hf]
    | succ i => simp [modIdx, ih]

theorem getD_cs_of_map_csProj {l1 l2 : List MVMSpeshStatsByCallsite}
    (h : l1.map csProj = l2.map csProj) (i : Nat) :
    (l1.getD i default).cs = (l2.getD i default).cs := by
  have hlen : l1.length = l2.length := by
    have := congrArg List.length h
    simpa using this
  by_cases hi : i < l1.length
  · have h1 : (l1.map csProj)[i]? = (l2.map csProj)[i]? := by rw [h]
    rw [List.getElem?_map, List.getElem?_map] at h1
    rw [List.getD_eq_getElem?_getD, List.getD_eq_getElem?_getD]
    rw [List.getElem?_eq_getElem hi, List.getElem?_eq_getElem (hlen ▸ hi)] at h1 ⊢
    have h2 : csProj l1[i] = csProj l2[i] := by
      simpa using h1
    have h3 := congrArg Prod.fst h2
    simpa [csProj] using h3
  · rw [List.getD_eq_getElem?_getD, List.getD_eq_getElem?_getD]
    rw [List.getElem?_eq_none (by omega), List.getElem?_eq_none (by omega)]

theorem popOsr_csProj (ss : MVMSpeshStats) (simf : SimStackFrame) :
    (popOsr ss simf).byCallsite.map csProj = ss.byCallsite.map csProj := by
  unfold popOsr
  split
  · exact modIdx_map_of_proj _ _ _ _ (fun a => rfl)
  · rfl

theorem popDepth_csProj (ss : MVMSpeshStats) (simf : SimStackFrame) (d : Nat) :
    (popDepth ss simf d).byCallsite.map csProj = ss.byCallsite.map csProj := by
  unfold popDepth
  split
  · exact modIdx_map_of_proj _ _ _ _ (fun a => rfl)
  · rfl

theorem popOsr_hits (ss : MVMSpeshStats) (simf : SimStackFrame) :
    (popOsr ss simf).hits = ss.hits := by unfold popOsr; split <;> rfl

theorem popDepth_hits (ss : MVMSpeshStats) (simf : SimStackFrame) (d : Nat) :
    (popDepth ss simf d).hits = ss.hits := by unfold popDepth; split <;> rfl

theorem popOsr_staticValues (ss : MVMSpeshStats) (simf : SimStackFrame) :
    (popOsr ss simf).staticValues = ss.staticValues := by unfold popOsr; split <;> rfl

theorem popDepth_staticValues (ss : MVMSpeshStats) (simf : SimStackFrame) (d : Nat) :
    (popDepth ss simf d).staticValues = ss.staticValues := by unfold popDepth; split <;> rfl

/-- When the discard condition holds, `by_type` frees the tuple and
resolves nothing. -/
theorem by_type_none_of_discard (ss : MVMSpeshStats) (i : Nat)
    (a : Option (List MVMSpeshStatsType)) (h : discardsTuple ss i a) :
    by_type ss i a = (ss, none) := by
  unfold by_type
  unfold discardsTuple at h
  rcases hcs : (ss.byCallsite.getD i default).cs with _ | c
  · simp only [hcs]
  · rw [hcs] at h
    simp only [hcs]
    rcases h with h | h
    · simp only [h, if_true]
    · by_cases hw : cs_without_object_args c = true
      · simp only [hw, if_true]
      · simp [hw, h]

/-- C3.  Popping a frame whose tuple is discarded (no-callsite sentinel, a
callsite without object args, or an incomplete tuple) drops the buffered
offset events and call-type infos without creating or modifying any
`ByType`/`ByOffset` record: every frame's callsite records keep their
callsite, entry hits and whole `ByType` forest, the frame-level hits and
static values stay, the sink stays, and the remaining stack is exactly the
old stack minus the popped frame (no caller is notified). -/
theorem sim_stack_pop_discard (st : AggState) (simf : SimStackFrame)
    (rest : List SimStackFrame) (hs : st.sims = simf :: rest)
    (hdisc : discardsTuple (getStats st.stats simf.sf) simf.callsiteIdx simf.argTypes) :
    (sim_stack_pop st).sims = rest ∧
    (sim_stack_pop st).sink = st.sink ∧
    (∀ sfid,
      (getStats (sim_stack_pop st).stats sfid).byCallsite.map csProj
        = (getStats st.stats sfid).byCallsite.map csProj ∧
      (getStats (sim_stack_pop st).stats sfid).hits = (getStats st.stats sfid).hits ∧
      (getStats (sim_stack_pop st).stats sfid).staticValues
        = (getStats st.stats sfid).staticValues) := by
  have hmap : (popDepth (popOsr (getStats st.stats simf.sf) simf) simf
        st.depth).byCallsite.map csProj
      = (getStats st.stats simf.sf).byCallsite.map csProj := by
    rw [popDepth_csProj, popOsr_csProj]
  have hdisc2 : discardsTuple
      (popDepth (popOsr (getStats st.stats simf.sf) simf) simf st.depth)
      simf.callsiteIdx simf.argTypes := by
    unfold discardsTuple at hdisc ⊢
    rw [getD_cs_of_map_csProj hmap simf.callsiteIdx]
    exact hdisc
  have hbt := by_type_none_of_discard _ simf.callsiteIdx simf.argTypes hdisc2
  unfold sim_stack_pop
  rw [hs]
  dsimp only
  rw [hbt]
  dsimp only
  refine ⟨rfl, rfl, fun sfid => ?_⟩
  rw [getStats_setStats]
  by_cases hx : sfid = simf.sf
  · subst hx
    rw [if_pos rfl]
    refine ⟨?_, ?_, ?_⟩
    · rw [popDepth_csProj, popOsr_csProj]
    · rw [popDepth_hits, popOsr_hits]
    · rw [popDepth_staticValues, popOsr_staticValues]
  · rw [if_neg hx]
    exact ⟨rfl, rfl, rfl⟩


/-- C4.  For every non-`ENTRY` event: if no simulated frame carries the
event's correlation ID, the event is dropped and the whole state (stack,
stats and sink) is unchanged; if some frame does, all frames strictly above
the topmost match are popped with full pop semantics and the per-kind
action is applied to the state with the match on top. -/
theorem correlation_lookup_semantics (version : Nat) (st : AggState) (e : MVMSpeshLogEntry)
    (hne : e.isEntry = false) :
    ((∀ f ∈ st.sims, f.cid ≠ e.eid) → processEvent version st e = st) ∧
    (∀ k, st.sims.findIdx? (fun f => f.cid = e.eid) = some k →
      (∃ h : k < st.sims.length, st.sims[k].cid = e.eid ∧
        ∀ j, (_ : j < k) → st.sims[j].cid ≠ e.eid) ∧
      processEvent version st e = applyToTop (popN st k) e) := by
  constructor
  · intro hnone
    rw [processEvent_ne_entry version st e hne]
    have hfi : st.sims.findIdx? (fun f => f.cid = e.eid) = none := by
      rw [List.findIdx?_eq_none_iff]
      intro x hx
      simp [hnone x hx]
    unfold sim_stack_find
    simp [hfi]
  · intro k hk
    constructor
    · rw [List.findIdx?_eq_some_iff_getElem] at hk
      obtain ⟨h, hp, hprev⟩ := hk
      refine ⟨h, by simpa using hp, fun j hj => ?_⟩
      have hx := hprev j hj
      simpa using hx
    · rw [processEvent_ne_entry version st e hne]
      unfold sim_stack_find
      simp [hk]


theorem any_of_getElem? {α : Type} {l : List α} {i : Nat} {a : α} {p : α → Bool}
    (h : l[i]? = some a) (hp : p a = true) : l.any p = true :=
  List.any_eq_true.mpr ⟨a, List.getElem?_mem h, hp⟩

theorem any_modIdx_mono {α : Type} {l : List α} {i : Nat} {f : α → α} {p : α → Bool}
    (hf : ∀ a, p a = true → p (f a) = true) (h : l.any p = true) :
    (modIdx l i f).any p = true := by
  obtain ⟨x, hx, hpx⟩ := List.any_eq_true.mp h
  obtain ⟨j, hj, hjx⟩ := List.mem_iff_getElem.mp hx
  subst hjx
  have hg : l[j]? = some l[j] := List.getElem?_eq_getElem hj
  by_cases hij : i = j
  · subst hij
    have : (modIdx l i f)[i]? = some (f l[i]) := by
      rw [getElem?_modIdx, if_pos rfl, hg]; rfl
    exact any_of_getElem? this (hf _ hpx)
  · have : (modIdx l i f)[j]? = some l[j] := by
      rw [getElem?_modIdx, if_neg hij, hg]
    exact any_of_getElem? this hpx

theorem add_type_at_offset_bytecodeOffset (oss : MVMSpeshStatsByOffset) (ty : MVMObjectData)
    (conc : Bool) : (add_type_at_offset oss ty conc).bytecodeOffset = oss.bytecodeOffset := by
  unfold add_type_at_offset; split <;> rfl

theorem add_value_at_offset_bytecodeOffset (oss : MVMSpeshStatsByOffset) (v : MVMObjectData) :
    (add_value_at_offset oss v).bytecodeOffset = oss.bytecodeOffset := by
  unfold add_value_at_offset; split <;> rfl

theorem add_value_at_offset_types (oss : MVMSpeshStatsByOffset) (v : MVMObjectData) :
    (add_value_at_offset oss v).types = oss.types := by
  unfold add_value_at_offset; split <;> rfl

theorem add_type_tuple_at_offset_bytecodeOffset (oss : MVMSpeshStatsByOffset)
    (info : SimCallType) :
    (add_type_tuple_at_offset oss info).bytecodeOffset = oss.bytecodeOffset := by
  unfold add_type_tuple_at_offset; split <;> rfl

theorem add_type_tuple_at_offset_types (oss : MVMSpeshStatsByOffset) (info : SimCallType) :
    (add_type_tuple_at_offset oss info).types = oss.types := by
  unfold add_type_tuple_at_offset; split <;> rfl

/-- `add_type_at_offset` records its own type/concreteness pair. -/
theorem ossHasType_add_self (oss : MVMSpeshStatsByOffset) (ty : MVMObjectData) (conc : Bool) :
    ossHasType (add_type_at_offset oss ty conc) ty conc = true := by
  unfold add_type_at_offset ossHasType
  rcases hf : oss.types.findIdx? (fun t => t.type = ty && t.typeConcrete = conc) with _ | i
  · simp only [hf]
    refine any_of_getElem? (List.getElem?_concat_length _ _) ?_
    simp
  · simp only [hf]
    rw [List.findIdx?_eq_some_iff_getElem] at hf
    obtain ⟨h, hp, _⟩ := hf
    have : (modIdx oss.types i (fun t => { t with count := t.count + 1 }))[i]?
        = some { oss.types[i] with count := oss.types[i].count + 1 } := by
      rw [getElem?_modIdx, if_pos rfl, List.getElem?_eq_getElem h]; rfl
    refine any_of_getElem? this ?_
    simpa using hp

/-- `add_type_at_offset` keeps every recorded pair. -/
theorem ossHasType_add_mono (oss : MVMSpeshStatsByOffset) (ty : MVMObjectData) (conc : Bool)
    (t : MVMObjectData) (c : Bool) (h : ossHasType oss t c = true) :
    ossHasType (add_type_at_offset oss ty conc) t c = true := by
  unfold ossHasType at h ⊢
  unfold add_type_at_offset
  rcases hf : oss.types.findIdx? (fun t0 => t0.type = ty && t0.typeConcrete = conc) with _ | i
  · simp only [hf]
    rw [List.any_append, h]
    rfl
  · simp only [hf]
    exact any_modIdx_mono (fun a ha => ha) h

theorem ossHasType_add_value (oss : MVMSpeshStatsByOffset) (v : MVMObjectData)
    (t : MVMObjectData) (c : Bool) (h : ossHasType oss t c = true) :
    ossHasType (add_value_at_offset oss v) t c = true := by
  unfold ossHasType at h ⊢
  rw [add_value_at_offset_types]
  exact h

theorem ossHasType_add_type_tuple (oss : MVMSpeshStatsByOffset) (info : SimCallType)
    (t : MVMObjectData) (c : Bool) (h : ossHasType oss t c = true) :
    ossHasType (add_type_tuple_at_offset oss info) t c = true := by
  unfold ossHasType at h ⊢
  rw [add_type_tuple_at_offset_types]
  exact h

/-- `by_offset` yields an in-range index whose record has the wanted
offset. -/
theorem by_offset_get (tss : MVMSpeshStatsByType) (off : Nat) :
    ∃ bo, ((by_offset tss off).1.byOffset)[(by_offset tss off).2]? = some bo ∧
      bo.bytecodeOffset = off := by
  unfold by_offset
  rcases hf : tss.byOffset.findIdx? (fun o => o.bytecodeOffset = off) with _ | i
  · simp only [hf]
    exact ⟨_, List.getElem?_concat_length _ _, rfl⟩
  · simp only [hf]
    rw [List.findIdx?_eq_some_iff_getElem] at hf
    obtain ⟨h, hp, _⟩ := hf
    exact ⟨_, List.getElem?_eq_getElem h, by simpa using hp⟩

/-- `by_offset` only ever appends a record. -/
theorem by_offset_any_mono (tss : MVMSpeshStatsByType) (off : Nat) (p : MVMSpeshStatsByOffset → Bool)
    (h : tss.byOffset.any p = true) : ((by_offset tss off).1.byOffset).any p = true := by
  unfold by_offset
  rcases hf : tss.byOffset.findIdx? (fun o => o.bytecodeOffset = off) with _ | i
  · simp only [hf]
    rw [List.any_append, h]
    rfl
  · simp only [hf]
    exact h

/-- Folding an offset-log entry into a `ByType` keeps every recorded
`(offset, type, concrete)` observation. -/
theorem btHasType_offLog_mono (tss : MVMSpeshStatsByType) (e : OffLogEntry) (o : Nat)
    (t : MVMObjectData) (c : Bool) (h : btHasType tss o t c = true) :
    btHasType (offLogToByType tss e) o t c = true := by
  rcases e with ⟨off, ty, conc⟩ | ⟨off, v⟩
  · unfold offLogToByType btHasType
    dsimp only
    apply any_modIdx_mono
    · intro a ha
      have h1 := Bool.and_elim_left ha
      have h2 := Bool.and_elim_right ha
      rw [Bool.and_eq_true]
      exact ⟨by rw [add_type_at_offset_bytecodeOffset]; exact h1,
        ossHasType_add_mono _ ty conc t c h2⟩
    · exact by_offset_any_mono tss off _ h
  · unfold offLogToByType btHasType
    dsimp only
    apply any_modIdx_mono
    · intro a ha
      have h1 := Bool.and_elim_left ha
      have h2 := Bool.and_elim_right ha
      rw [Bool.and_eq_true]
      exact ⟨by rw [add_value_at_offset_bytecodeOffset]; exact h1,
        ossHasType_add_value _ v t c h2⟩
    · exact by_offset_any_mono tss off _ h

/-- Folding a pending `TYPE`/`RETURN` observation records it. -/
theorem btHasType_offLog_self (tss : MVMSpeshStatsByType) (off : Nat) (ty : MVMObjectData)
    (conc : Bool) : btHasType (offLogToByType tss (.otype off ty conc)) off ty conc = true := by
  unfold offLogToByType btHasType
  dsimp only
  obtain ⟨bo, hbo, hoff⟩ := by_offset_get tss off
  have : (modIdx ((by_offset tss off).1.byOffset) (by_offset tss off).2
      (fun oss => add_type_at_offset oss ty conc))[(by_offset tss off).2]?
      = some (add_type_at_offset bo ty conc) := by
    rw [getElem?_modIdx, if_pos rfl, hbo]; rfl
  refine any_of_getElem? this ?_
  rw [Bool.and_eq_true]
  exact ⟨by rw [add_type_at_offset_bytecodeOffset, hoff]; simp,
    ossHasType_add_self bo ty conc⟩

theorem btHasType_callInfo_mono (tss : MVMSpeshStatsByType) (info : SimCallType) (o : Nat)
    (t : MVMObjectData) (c : Bool) (h : btHasType tss o t c = true) :
    btHasType (callInfoToByType tss info) o t c = true := by
  unfold callInfoToByType btHasType
  dsimp only
  apply any_modIdx_mono
  · intro a ha
    have h1 := Bool.and_elim_left ha
    have h2 := Bool.and_elim_right ha
    rw [Bool.and_eq_true]
    exact ⟨by rw [add_type_tuple_at_offset_bytecodeOffset]; exact h1,
      ossHasType_add_type_tuple _ info t c h2⟩
  · exact by_offset_any_mono tss info.bytecodeOffset _ h


theorem modIdx_length {α : Type} (l : List α) (i : Nat) (f : α → α) :
    (modIdx l i f).length = l.length := by
  induction l generalizing i with
  | nil => rfl
  | cons a l ih => cases i <;> simp [modIdx, ih]

theorem getD_modIdx_self {α : Type} [Inhabited α] (l : List α) (i : Nat) (f : α → α)
    (h : i < l.length) : (modIdx l i f).getD i default = f (l.getD i default) := by
  rw [List.getD_eq_getElem?_getD, List.getD_eq_getElem?_getD]
  rw [getElem?_modIdx, if_pos rfl, List.getElem?_eq_getElem h]
  rfl

theorem getElem?_eq_some_getD {α : Type} [Inhabited α] (l : List α) (i : Nat)
    (h : i < l.length) : l[i]? = some (l.getD i default) := by
  rw [List.getD_eq_getElem?_getD, List.getElem?_eq_getElem h]
  rfl

theorem withByType_ssHasType_mono (ss : MVMSpeshStats) (i j : Nat)
    (f : MVMSpeshStatsByType → MVMSpeshStatsByType) (o : Nat) (t : MVMObjectData) (c : Bool)
    (hf : ∀ bt, btHasType bt o t c = true → btHasType (f bt) o t c = true)
    (h : ssHasType ss o t c = true) : ssHasType (withByType ss i j f) o t c = true := by
  unfold ssHasType at h ⊢
  unfold withByType
  dsimp only
  apply any_modIdx_mono
  · intro css hcss
    exact any_modIdx_mono (fun bt hbt => hf bt hbt) hcss
  · exact h

theorem withByType_ssHasType_self (ss : MVMSpeshStats) (i j : Nat)
    (f : MVMSpeshStatsByType → MVMSpeshStatsByType) (o : Nat) (t : MVMObjectData) (c : Bool)
    (hi : i < ss.byCallsite.length) (hj : j < (ss.byCallsite.getD i default).byType.length)
    (hself : ∀ bt, btHasType (f bt) o t c = true) :
    ssHasType (withByType ss i j f) o t c = true := by
  unfold ssHasType withByType
  dsimp only
  have hgi : ss.byCallsite[i]? = some (ss.byCallsite.getD i default) :=
    getElem?_eq_some_getD _ _ hi
  have h1 : (modIdx ss.byCallsite i (fun css => { css with byType := modIdx css.byType j f }))[i]?
      = some { ss.byCallsite.getD i default with
          byType := modIdx (ss.byCallsite.getD i default).byType j f } := by
    rw [getElem?_modIdx, if_pos rfl, hgi]
    rfl
  refine any_of_getElem? h1 ?_
  dsimp only
  have hgj : (ss.byCallsite.getD i default).byType[j]?
      = some ((ss.byCallsite.getD i default).byType.getD j default) :=
    getElem?_eq_some_getD _ _ hj
  have h2 : (modIdx (ss.byCallsite.getD i default).byType j f)[j]?
      = some (f ((ss.byCallsite.getD i default).byType.getD j default)) := by
    rw [getElem?_modIdx, if_pos rfl, hgj]
    rfl
  exact any_of_getElem? h2 (hself _)

theorem withByType_valid (ss : MVMSpeshStats) (i j : Nat)
    (f : MVMSpeshStatsByType → MVMSpeshStatsByType)
    (hi : i < ss.byCallsite.length) (hj : j < (ss.byCallsite.getD i default).byType.length) :
    i < (withByType ss i j f).byCallsite.length ∧
    j < ((withByType ss i j f).byCallsite.getD i default).byType.length := by
  unfold withByType
  dsimp only
  constructor
  · rw [modIdx_length]; exact hi
  · rw [getD_modIdx_self _ _ _ hi]
    dsimp only
    rw [modIdx_length]
    exact hj

theorem incorporateOffLog_mono (ss : MVMSpeshStats) (i j : Nat) (e : OffLogEntry)
    (o : Nat) (t : MVMObjectData) (c : Bool) (h : ssHasType ss o t c = true) :
    ssHasType (incorporateOffLog ss i j e) o t c = true :=
  withByType_ssHasType_mono ss i j _ o t c (fun bt hbt => btHasType_offLog_mono bt e o t c hbt) h

theorem incorporateCallInfo_mono (ss : MVMSpeshStats) (i j : Nat) (info : SimCallType)
    (o : Nat) (t : MVMObjectData) (c : Bool) (h : ssHasType ss o t c = true) :
    ssHasType (incorporateCallInfo ss i j info) o t c = true :=
  withByType_ssHasType_mono ss i j _ o t c
    (fun bt hbt => btHasType_callInfo_mono bt info o t c hbt) h

theorem incorporateOffLog_valid (ss : MVMSpeshStats) (i j : Nat) (e : OffLogEntry)
    (hi : i < ss.byCallsite.length) (hj : j < (ss.byCallsite.getD i default).byType.length) :
    i < (incorporateOffLog ss i j e).byCallsite.length ∧
    j < ((incorporateOffLog ss i j e).byCallsite.getD i default).byType.length :=
  withByType_valid ss i j _ hi hj

theorem incorporateCallInfo_valid (ss : MVMSpeshStats) (i j : Nat) (info : SimCallType)
    (hi : i < ss.byCallsite.length) (hj : j < (ss.byCallsite.getD i default).byType.length) :
    i < (incorporateCallInfo ss i j info).byCallsite.length ∧
    j < ((incorporateCallInfo ss i j info).byCallsite.getD i default).byType.length :=
  withByType_valid ss i j _ hi hj

theorem incorporateOffLog_self (ss : MVMSpeshStats) (i j off : Nat) (ty : MVMObjectData)
    (conc : Bool) (hi : i < ss.byCallsite.length)
    (hj : j < (ss.byCallsite.getD i default).byType.length) :
    ssHasType (incorporateOffLog ss i j (.otype off ty conc)) off ty conc = true :=
  withByType_ssHasType_self ss i j _ off ty conc hi hj
    (fun bt => btHasType_offLog_self bt off ty conc)

/-- Establishing a property by processing one member of a fold, then keeping
it. -/
theorem foldl_mem_establishes {α β : Type} (P Q : α → Prop) (g : α → β → α) (x : β)
    (hQ : ∀ a b, Q a → Q (g a b)) (hP : ∀ a b, P a → P (g a b))
    (hest : ∀ a, Q a → P (g a x)) :
    ∀ (l : List β) (a : α), Q a → x ∈ l → P (l.foldl g a) := by
  intro l
  induction l with
  | nil => intro a _ hx; cases hx
  | cons b l ih =>
    intro a hQa hx
    rcases List.mem_cons.mp hx with rfl | hx
    · exact foldl_pres P g hP l _ (hest a hQa)
    · exact ih (g a b) (hQ a b hQa) hx

/-- Steps 4-6 of pop flush every buffered `TYPE`/`RETURN` observation into a
`TypeCount` at its (already rewritten) offset. -/
theorem popIncorporate_flush (ss : MVMSpeshStats) (simf : SimStackFrame) (d tIdx off : Nat)
    (ty : MVMObjectData) (conc : Bool)
    (hi : simf.callsiteIdx < ss.byCallsite.length)
    (hj : tIdx < (ss.byCallsite.getD simf.callsiteIdx default).byType.length)
    (hmem : OffLogEntry.otype off ty conc ∈ simf.offsetLogs) :
    ssHasType (popIncorporate ss simf d tIdx) off ty conc = true := by
  unfold popIncorporate
  have h4 : ssHasType (simf.offsetLogs.foldl
      (fun ss e => incorporateOffLog ss simf.callsiteIdx tIdx e) ss) off ty conc = true := by
    refine foldl_mem_establishes
      (fun s => ssHasType s off ty conc = true)
      (fun s => simf.callsiteIdx < s.byCallsite.length ∧
        tIdx < (s.byCallsite.getD simf.callsiteIdx default).byType.length)
      (fun ss e => incorporateOffLog ss simf.callsiteIdx tIdx e)
      (OffLogEntry.otype off ty conc)
      (fun a b ha => incorporateOffLog_valid a _ _ b ha.1 ha.2)
      (fun a b ha => incorporateOffLog_mono a _ _ b off ty conc ha)
      (fun a ha => incorporateOffLog_self a _ _ off ty conc ha.1 ha.2)
      simf.offsetLogs ss ⟨hi, hj⟩ hmem
  have h5 : ssHasType (simf.callTypeInfo.foldl
      (fun ss info => incorporateCallInfo ss simf.callsiteIdx tIdx info)
      (simf.offsetLogs.foldl (fun ss e => incorporateOffLog ss simf.callsiteIdx tIdx e) ss))
      off ty conc = true := by
    refine foldl_pres (fun s => ssHasType s off ty conc = true)
      (fun ss info => incorporateCallInfo ss simf.callsiteIdx tIdx info)
      (fun a b ha => incorporateCallInfo_mono a _ _ b off ty conc ha) _ _ h4
  exact withByType_ssHasType_mono _ _ _ _ off ty conc (fun bt hbt => hbt) h5

/-- `by_type` only ever appends a `ByType` record, so existing observations
survive. -/
theorem by_type_ssHasType_mono (ss : MVMSpeshStats) (i : Nat)
    (a : Option (List MVMSpeshStatsType)) (o : Nat) (t : MVMObjectData) (c : Bool)
    (h : ssHasType ss o t c = true) : ssHasType (by_type ss i a).1 o t c = true := by
  unfold by_type
  dsimp only
  split
  · exact h
  · split
    · exact h
    · split
      · exact h
      · split
        · exact h
        · unfold ssHasType at h ⊢
          dsimp only
          apply any_modIdx_mono
          · intro css hcss
            rw [List.any_append, hcss]
            rfl
          · exact h

/-- A resolved `by_type` index is in range. -/
theorem by_type_some_valid (ss : MVMSpeshStats) (i : Nat)
    (a : Option (List MVMSpeshStatsType)) (tIdx : Nat)
    (h : (by_type ss i a).2 = some tIdx) :
    i < (by_type ss i a).1.byCallsite.length ∧
    tIdx < ((by_type ss i a).1.byCallsite.getD i default).byType.length := by
  have hi : i < ss.byCallsite.length := by
    by_contra hge
    have hd : ss.byCallsite.getD i default = default := by
      rw [List.getD_eq_getElem?_getD, List.getElem?_eq_none (by omega)]
      rfl
    unfold by_type at h
    rw [hd] at h
    simp only [default] at h
    cases h
  unfold by_type at h ⊢
  rcases hcs : (ss.byCallsite.getD i default).cs with _ | c
  · simp only [hcs] at h
    simp at h
  · simp only [hcs] at h ⊢
    by_cases hw : cs_without_object_args c = true
    · simp only [hw, if_true] at h
      simp at h
    · simp only [hw, Bool.false_eq_true, if_false] at h ⊢
      by_cases hinc : incomplete_type_tuple c (a.getD []) = true
      · simp only [hinc, if_true] at h
        simp at h
      · simp only [hinc, Bool.false_eq_true, if_false] at h ⊢
        rcases hf : (ss.byCallsite.getD i default).byType.findIdx?
            (fun bt => bt.argTypes = a.getD []) with _ | k
        · simp only [hf] at h ⊢
          simp only [Option.some.injEq] at h
          subst h
          refine ⟨by rw [modIdx_length]; exact hi, ?_⟩
          rw [getD_modIdx_self _ _ _ hi]
          dsimp only
          simp
        · simp only [hf] at h ⊢
          simp only [Option.some.injEq] at h
          subst h
          refine ⟨hi, ?_⟩
          rw [List.findIdx?_eq_some_iff_getElem] at hf
          exact hf.1

/-- If the discard condition fails, `by_type` resolves a record. -/
theorem by_type_some_of_not_discard (ss : MVMSpeshStats) (i : Nat)
    (a : Option (List MVMSpeshStatsType)) (h : ¬ discardsTuple ss i a) :
    ∃ tIdx, (by_type ss i a).2 = some tIdx := by
  unfold discardsTuple at h
  unfold by_type
  rcases hcs : (ss.byCallsite.getD i default).cs with _ | c
  · rw [hcs] at h; exact absurd trivial h
  · rw [hcs] at h
    simp only [hcs]
    push_neg at h
    have hw : ¬ cs_without_object_args c = true := fun hh => h (Or.inl hh)
    have hinc : ¬ incomplete_type_tuple c (a.getD []) = true := fun hh => h (Or.inr hh)
    simp only [hw, hinc, Bool.false_eq_true, if_false]
    rcases hf : (ss.byCallsite.getD i default).byType.findIdx?
        (fun bt => bt.argTypes = a.getD []) with _ | k
    · simp only [hf]
      exact ⟨_, rfl⟩
    · simp only [hf]
      exact ⟨k, rfl⟩


theorem popOsr_hasType_mono (ss : MVMSpeshStats) (simf : SimStackFrame) (o : Nat)
    (t : MVMObjectData) (c : Bool) (h : ssHasType ss o t c = true) :
    ssHasType (popOsr ss simf) o t c = true := by
  unfold popOsr
  split
  · unfold ssHasType at h ⊢
    exact any_modIdx_mono (fun a ha => ha) h
  · exact h

theorem popDepth_hasType_mono (ss : MVMSpeshStats) (simf : SimStackFrame) (d o : Nat)
    (t : MVMObjectData) (c : Bool) (h : ssHasType ss o t c = true) :
    ssHasType (popDepth ss simf d) o t c = true := by
  unfold popDepth
  split
  · unfold ssHasType at h ⊢
    exact any_modIdx_mono (fun a ha => ha) h
  · exact h

theorem popIncorporate_hasType_mono (ss : MVMSpeshStats) (simf : SimStackFrame) (d tIdx o : Nat)
    (t : MVMObjectData) (c : Bool) (h : ssHasType ss o t c = true) :
    ssHasType (popIncorporate ss simf d tIdx) o t c = true := by
  unfold popIncorporate
  dsimp only
  apply withByType_ssHasType_mono
  · intro bt hbt
    exact hbt
  apply foldl_pres (fun s => ssHasType s o t c = true)
    (fun ss info => incorporateCallInfo ss simf.callsiteIdx tIdx info)
    (fun a b ha => incorporateCallInfo_mono a _ _ b o t c ha)
  apply foldl_pres (fun s => ssHasType s o t c = true)
    (fun ss e => incorporateOffLog ss simf.callsiteIdx tIdx e)
    (fun a b ha => incorporateOffLog_mono a _ _ b o t c ha)
  exact h

/-- `sim_stack_pop` preserves every recorded type observation of every
frame. -/
theorem sim_stack_pop_hasType_mono (st : AggState) (sfid o : Nat) (t : MVMObjectData) (c : Bool)
    (h : ssHasType (getStats st.stats sfid) o t c = true) :
    ssHasType (getStats (sim_stack_pop st).stats sfid) o t c = true := by
  unfold sim_stack_pop
  rcases hs : st.sims with _ | ⟨simf, rest⟩
  · exact h
  · dsimp only
    rcases hbt : (by_type (popDepth (popOsr (getStats st.stats simf.sf) simf) simf st.depth)
        simf.callsiteIdx simf.argTypes).2 with _ | tIdx
    · simp only [hbt]
      rw [getStats_setStats]
      split
      · next heq =>
        subst heq
        exact by_type_ssHasType_mono _ _ _ o t c
          (popDepth_hasType_mono _ _ _ o t c (popOsr_hasType_mono _ _ o t c h))
      · exact h
    · simp only [hbt]
      rw [getStats_setStats]
      split
      · next heq =>
        subst heq
        exact popIncorporate_hasType_mono _ _ _ _ o t c
          (by_type_ssHasType_mono _ _ _ o t c
            (popDepth_hasType_mono _ _ _ o t c (popOsr_hasType_mono _ _ o t c h)))
      · exact h

theorem popN_hasType_mono (st : AggState) (n sfid o : Nat) (t : MVMObjectData) (c : Bool)
    (h : ssHasType (getStats st.stats sfid) o t c = true) :
    ssHasType (getStats (popN st n).stats sfid) o t c = true := by
  induction n generalizing st with
  | zero => exact h
  | succ n ih => exact ih _ (sim_stack_pop_hasType_mono st sfid o t c h)

theorem add_static_value_byCallsite (ss : MVMSpeshStats) (off : Nat) (v : MVMObjectData) :
    (add_static_value ss off v).byCallsite = ss.byCallsite := by
  unfold add_static_value; split <;> rfl

theorem applyToTop_hasType_mono (st : AggState) (e : MVMSpeshLogEntry) (sfid o : Nat)
    (t : MVMObjectData) (c : Bool) (h : ssHasType (getStats st.stats sfid) o t c = true) :
    ssHasType (getStats (applyToTop st e).stats sfid) o t c = true := by
  unfold applyToTop
  rcases st.sims with _ | ⟨simf, rest⟩
  · exact h
  · rcases e with ⟨id, sf0, cs⟩ | ⟨id, argIdx, ty, conc⟩ | ⟨id, argIdx, ty, conc⟩
      | ⟨id, off, ty, conc⟩ | ⟨id, off, v⟩ | id | ⟨id, off, v⟩ | ⟨id, off, ty, conc⟩
    · exact h
    · dsimp only; split <;> exact h
    · dsimp only; split <;> exact h
    · exact h
    · exact h
    · exact h
    · dsimp only
      rw [getStats_setStats]
      split
      · next heq =>
        subst heq
        unfold ssHasType at h ⊢
        rw [add_static_value_byCallsite]
        exact h
      · exact h
    · dsimp only
      rcases ty with _ | ty0
      · exact sim_stack_pop_hasType_mono _ _ o t c h
      · dsimp only
        rcases (sim_stack_pop st).sims with _ | ⟨caller, deeper⟩
        · exact sim_stack_pop_hasType_mono _ _ o t c h
        · dsimp only
          rcases caller.lastInvokeCode with _ | lic
          · exact sim_stack_pop_hasType_mono _ _ o t c h
          · dsimp only
            split
            · show ssHasType (getStats (sim_stack_pop _).stats sfid) o t c = true
              exact sim_stack_pop_hasType_mono _ _ o t c h
            · exact sim_stack_pop_hasType_mono _ _ o t c h

theorem by_callsite_idx_hasType_mono (ss : MVMSpeshStats) (cs : Option MVMCallsite) (o : Nat)
    (t : MVMObjectData) (c : Bool) (h : ssHasType ss o t c = true) :
    ssHasType (by_callsite_idx ss cs).1 o t c = true := by
  unfold by_callsite_idx
  rcases hf : ss.byCallsite.findIdx? (fun c0 => c0.cs = cs) with _ | i
  · simp only [hf]
    unfold ssHasType at h ⊢
    rw [List.any_append, h]
    rfl
  · simp only [hf]
    exact h

theorem processEvent_hasType_mono (version : Nat) (st : AggState) (e : MVMSpeshLogEntry)
    (sfid o : Nat) (t : MVMObjectData) (c : Bool)
    (h : ssHasType (getStats st.stats sfid) o t c = true) :
    ssHasType (getStats (processEvent version st e).stats sfid) o t c = true := by
  by_cases he : e.isEntry = true
  · rcases e with ⟨id, sf, cs⟩ | _ | _ | _ | _ | _ | _ | _ <;>
      simp only [MVMSpeshLogEntry.isEntry] at he <;> try cases he
    unfold processEvent
    dsimp only
    show ssHasType (getStats (setStats st.stats sf _) sfid) o t c = true
    rw [getStats_setStats]
    split
    · next heq =>
      subst heq
      have hge : ssHasType (stats_for st.stats sfid) o t c = true := by
        rw [stats_for_eq_getStats]
        exact h
      unfold ssHasType
      dsimp only
      apply any_modIdx_mono
      · intro a ha
        exact ha
      show ssHasType (by_callsite_idx _ cs).1 o t c = true
      apply by_callsite_idx_hasType_mono
      unfold ssHasType
      dsimp only
      split <;> exact hge
    · exact h
  · rw [processEvent_ne_entry version st e (by revert he; cases e.isEntry <;> simp)]
    unfold sim_stack_find
    rcases hf : st.sims.findIdx? (fun f => f.cid = e.eid) with _ | k
    · simp only [hf]
      exact h
    · simp only [hf]
      exact applyToTop_hasType_mono _ e sfid o t c (popN_hasType_mono st k sfid o t c h)


/-- Popping a frame whose tuple resolves flushes every buffered
`TYPE`/`RETURN` observation into its stats. -/
theorem sim_stack_pop_flush (st : AggState) (caller : SimStackFrame)
    (rest : List SimStackFrame) (off : Nat) (ty : MVMObjectData) (conc : Bool)
    (hs : st.sims = caller :: rest)
    (hmem : OffLogEntry.otype off ty conc ∈ caller.offsetLogs)
    (hres : ¬ discardsTuple (getStats st.stats caller.sf) caller.callsiteIdx caller.argTypes) :
    ssHasType (getStats (sim_stack_pop st).stats caller.sf) off ty conc = true := by
  have hmap : (popDepth (popOsr (getStats st.stats caller.sf) caller) caller
        st.depth).byCallsite.map csProj
      = (getStats st.stats caller.sf).byCallsite.map csProj := by
    rw [popDepth_csProj, popOsr_csProj]
  have hres2 : ¬ discardsTuple
      (popDepth (popOsr (getStats st.stats caller.sf) caller) caller st.depth)
      caller.callsiteIdx caller.argTypes := by
    intro hd
    apply hres
    unfold discardsTuple at hd ⊢
    rw [getD_cs_of_map_csProj hmap caller.callsiteIdx] at hd
    exact hd
  obtain ⟨tIdx, htIdx⟩ := by_type_some_of_not_discard _ _ _ hres2
  unfold sim_stack_pop
  rw [hs]
  dsimp only
  simp only [htIdx]
  rw [getStats_setStats]
  rw [if_pos rfl]
  obtain ⟨hv1, hv2⟩ := by_type_some_valid _ _ _ tIdx htIdx
  exact popIncorporate_flush _ caller st.depth tIdx off ty conc hv1 hv2 hmem

/-- C1, amended.  Return attribution: (i) when a `RETURN` carrying a type is
processed and the caller left on the stack has a concrete code object
targeting the popped frame's static frame as its last invoke, the
observation is appended to the caller's pending offset logs, rewritten to
the caller's `last_invoke_offset`; (ii) whenever a frame holding such a
pending observation is popped and its own type tuple resolves (its callsite
is present, has object args, and the tuple is complete), the type appears
as a `TypeCount` at that offset in the frame's stats; (iii) a recorded
`TypeCount` observation survives all further processing of the update
call.  (The unamended claim omits the resolution condition in (ii); see the
counterexample.) -/
theorem return_attribution :
    (∀ (st : AggState) (id off : Nat) (ty : MVMObjectData) (conc : Bool)
       (simf caller : SimStackFrame) (rest deeper : List SimStackFrame)
       (lic : MVMObjectData),
       st.sims = simf :: rest →
       (sim_stack_pop st).sims = caller :: deeper →
       caller.lastInvokeCode = some lic →
       lic.concrete = true → lic.reprIsCode = true → lic.codeSF = simf.sf →
       applyToTop st (.ret id off (some ty) conc)
         = { sim_stack_pop st with sims :=
             { caller with offsetLogs := caller.offsetLogs ++
                 [.otype caller.lastInvokeOffset ty conc] } :: deeper }) ∧
    (∀ (st : AggState) (caller : SimStackFrame) (rest : List SimStackFrame)
       (off : Nat) (ty : MVMObjectData) (conc : Bool),
       st.sims = caller :: rest →
       OffLogEntry.otype off ty conc ∈ caller.offsetLogs →
       ¬ discardsTuple (getStats st.stats caller.sf) caller.callsiteIdx caller.argTypes →
       ssHasType (getStats (sim_stack_pop st).stats caller.sf) off ty conc = true) ∧
    (∀ (version : Nat) (l : List MVMSpeshLogEntry) (st : AggState) (sfid off : Nat)
       (ty : MVMObjectData) (conc : Bool),
       ssHasType (getStats st.stats sfid) off ty conc = true →
       ssHasType (getStats (sim_stack_destroy (l.foldl (processEvent version) st)).stats sfid)
         off ty conc = true) := by
  refine ⟨?_, ?_, ?_⟩
  · intro st id off ty conc simf caller rest deeper lic hs hpop hlic hconc hrepr hsf
    unfold applyToTop
    rw [hs]
    dsimp only
    simp only [hpop, hlic]
    rw [if_pos (by rw [hconc, hrepr, hsf]; simp)]
  · intro st caller rest off ty conc hs hmem hres
    exact sim_stack_pop_flush st caller rest off ty conc hs hmem hres
  · intro version l st sfid off ty conc h
    unfold sim_stack_destroy
    apply popN_hasType_mono
    exact foldl_pres (fun a => ssHasType (getStats a.stats sfid) off ty conc = true)
      (processEvent version)
      (fun a b ha => processEvent_hasType_mono version a b sfid off ty conc ha) l st h


/-- C1 counterexample.  On `cexLog` the original claim's premises hold: the
`RETURN` (log entry 3) carries `cexType` and its correlation ID matches the
top simulated frame (of static frame 2), and after that frame is popped the
caller's `last_invoke_code` is the concrete code object `cexCode` whose
static frame is 2, with `last_invoke_offset` 42.  Yet after the whole
update, no `TypeCount` for `(cexType, concrete)` exists at offset 42 in the
caller's stats, because the caller's own type tuple stayed incomplete. -/
theorem return_attribution_cex :
    cexMid.sims.map (fun f => (f.cid, f.sf)) = [(2, 2), (1, 1)] ∧
    (sim_stack_pop cexMid).sims.map (fun f => (f.sf, f.lastInvokeOffset, f.lastInvokeCode))
      = [(1, 42, some cexCode)] ∧
    cexCode.concrete = true ∧ cexCode.reprIsCode = true ∧ cexCode.codeSF = 2 ∧
    cexLog.getD 3 (.osr 0) = .ret 2 0 (some cexType) true ∧
    ssHasType (getStats (MVM_spesh_stats_update 7 cexLog []).stats 1) 42 cexType true
      = false := by
  decide

/-- Witness for the amended return-attribution theorem: a concrete frame
with a pending rewritten return observation and a complete tuple flushes it
into a `TypeCount` at offset 42. -/
theorem return_attribution_witness :
    (¬ discardsTuple (getStats cexFlushState.stats 1) 0 cexFlushFrame.argTypes) ∧
    ssHasType (getStats (sim_stack_pop cexFlushState).stats 1) 42 cexType true = true :=
  ⟨by decide,
   return_attribution.2.1 cexFlushState cexFlushFrame [] 42 cexType true rfl
     (by decide) (by decide)⟩

/-- Witness for the entry/sink theorem at a concrete fresh state. -/
theorem spesh_entry_sink_once_witness :
    ((processEvent 7 emptyAggState (.entry 1 1 (some cexCallsite))).sink
        = emptyAggState.sink ++ [1] ∧
      (getStats (processEvent 7 emptyAggState (.entry 1 1 (some cexCallsite))).stats 1).lastUpdate
        = 7)
      ↔ (stats_for emptyAggState.stats 1).lastUpdate < 7 :=
  (spesh_entry_sink_once 7).1 emptyAggState 1 1 (some cexCallsite) (by decide)

/-- Witness for the tuple-discard theorem at a concrete state with an
incomplete tuple. -/
theorem sim_stack_pop_discard_witness :
    (sim_stack_pop cexDiscState).sims = [] ∧
    (getStats (sim_stack_pop cexDiscState).stats 1).byCallsite.map csProj
      = (getStats cexDiscState.stats 1).byCallsite.map csProj :=
  ⟨(sim_stack_pop_discard cexDiscState cexDiscFrame [] rfl (by decide)).1,
   ((sim_stack_pop_discard cexDiscState cexDiscFrame [] rfl (by decide)).2.2 1).1⟩

/-- Witness for the correlation-ID lookup theorem: an `OSR` event whose ID
matches no frame leaves the state unchanged. -/
theorem correlation_lookup_semantics_witness :
    processEvent 7 emptyAggState (.osr 5) = emptyAggState :=
  (correlation_lookup_semantics 7 emptyAggState (.osr 5) rfl).1 (by decide)

end Spesh

/-! ### Hash-table lemmas -/

namespace Hash

theorem pairsOf_nil {K V : Type} : pairsOf ([] : List (Slot K V)) = [] := rfl

theorem pairsOf_cons_none {K V : Type} (l : List (Slot K V)) :
    pairsOf (none :: l) = pairsOf l := rfl

theorem pairsOf_cons_some {K V : Type} (e : Nat × K × V) (l : List (Slot K V)) :
    pairsOf (some e :: l) = (e.2.1, e.2.2) :: pairsOf l := rfl

theorem pairsOf_append {K V : Type} (l m : List (Slot K V)) :
    pairsOf (l ++ m) = pairsOf l ++ pairsOf m := by
  unfold pairsOf
  exact List.filterMap_append l m _

theorem keysOf_append {K V : Type} (l m : List (Slot K V)) :
    keysOf (l ++ m) = keysOf l ++ keysOf m := by
  unfold keysOf
  rw [pairsOf_append, List.map_append]

theorem pairsOf_replicate_none {K V : Type} (n : Nat) :
    pairsOf (List.replicate n (none : Slot K V)) = [] := by
  induction n with
  | zero => rfl
  | succ n ih => rw [List.replicate_succ]; exact ih

theorem good_replicate_none {K V : Type} (bk : K → Nat) (n : Nat) :
    good bk (List.replicate n (none : Slot K V)) := by
  intro i d k v h
  rcases Nat.lt_or_ge i n with hi | hi
  · rw [List.getElem?_eq_getElem (by simpa using hi)] at h
    simp at h
  · rw [List.getElem?_eq_none (by simpa using hi)] at h
    exact absurd h (by simp)

/-- An entry stored at a position contributes its pair. -/
theorem stored_mem_pairs {K V : Type} (L : List (Slot K V)) (i d : Nat) (k : K) (v : V)
    (h : L[i]? = some (some (d, k, v))) : (k, v) ∈ pairsOf L := by
  induction L generalizing i with
  | nil => simp at h
  | cons s rest ih =>
    cases i with
    | zero =>
      simp only [List.getElem?_cons_zero, Option.some.injEq] at h
      subst h
      rw [pairsOf_cons_some]
      exact List.mem_cons_self _ _
    | succ i =>
      rw [List.getElem?_cons_succ] at h
      cases s with
      | none =>
        rw [pairsOf_cons_none]
        exact ih i h
      | some e =>
        rw [pairsOf_cons_some]
        exact List.mem_cons_of_mem _ (ih i h)

theorem stored_mem_keys {K V : Type} (L : List (Slot K V)) (i d : Nat) (k : K) (v : V)
    (h : L[i]? = some (some (d, k, v))) : k ∈ keysOf L := by
  unfold keysOf
  exact List.mem_map.mpr ⟨(k, v), stored_mem_pairs L i d k v h, rfl⟩

/-- A stored pair sits at some position. -/
theorem pairs_mem_stored {K V : Type} (L : List (Slot K V)) (k : K) (v : V)
    (h : (k, v) ∈ pairsOf L) : ∃ (i d : Nat), L[i]? = some (some (d, k, v)) := by
  induction L with
  | nil => simp [pairsOf_nil] at h
  | cons s rest ih =>
    match s with
    | none =>
      rw [pairsOf_cons_none] at h
      obtain ⟨i, d, hi⟩ := ih h
      exact ⟨i + 1, d, by rw [List.getElem?_cons_succ]; exact hi⟩
    | some (d0, k0, v0) =>
      rw [pairsOf_cons_some] at h
      rcases List.mem_cons.mp h with h | h
      · obtain ⟨hk, hv⟩ := Prod.mk.injEq .. ▸ h
        exact ⟨0, d0, by simp [Prod.ext_iff] at h; simp [h]⟩
      · obtain ⟨i, d, hi⟩ := ih h
        exact ⟨i + 1, d, by rw [List.getElem?_cons_succ]; exact hi⟩

/-- With distinct keys, a key determines its position. -/
theorem stored_unique {K V : Type} (L : List (Slot K V)) (hnd : (keysOf L).Nodup)
    (i j d1 d2 : Nat) (k : K) (v1 v2 : V)
    (h1 : L[i]? = some (some (d1, k, v1))) (h2 : L[j]? = some (some (d2, k, v2))) :
    i = j := by
  induction L generalizing i j with
  | nil => simp at h1
  | cons s rest ih =>
    cases i with
    | zero =>
      cases j with
      | zero => rfl
      | succ j =>
        rw [List.getElem?_cons_zero, Option.some.injEq] at h1
        rw [List.getElem?_cons_succ] at h2
        subst h1
        unfold keysOf at hnd
        rw [pairsOf_cons_some, List.map_cons] at hnd
        exact absurd (stored_mem_keys rest j d2 k v2 h2) (List.nodup_cons.mp hnd).1
    | succ i =>
      cases j with
      | zero =>
        rw [List.getElem?_cons_zero, Option.some.injEq] at h2
        rw [List.getElem?_cons_succ] at h1
        subst h2
        unfold keysOf at hnd
        rw [pairsOf_cons_some, List.map_cons] at hnd
        exact absurd (stored_mem_keys rest i d1 k v1 h1) (List.nodup_cons.mp hnd).1
      | succ j =>
        rw [List.getElem?_cons_succ] at h1 h2
        have hnd2 : (keysOf rest).Nodup := by
          cases s with
          | none =>
            unfold keysOf at hnd ⊢
            rw [pairsOf_cons_none] at hnd
            exact hnd
          | some e =>
            unfold keysOf at hnd ⊢
            rw [pairsOf_cons_some, List.map_cons] at hnd
            exact (List.nodup_cons.mp hnd).2
        rw [ih hnd2 i j h1 h2]

theorem pairsOf_length_eq_countP {K V : Type} (L : List (Slot K V)) :
    (pairsOf L).length = L.countP (fun s => s.isSome) := by
  induction L with
  | nil => rfl
  | cons s rest ih =>
    cases s with
    | none => rw [pairsOf_cons_none, List.countP_cons_of_neg _ _ (by simp)]; exact ih
    | some e =>
      rw [pairsOf_cons_some, List.length_cons, List.countP_cons_of_pos _ _ (by simp)]
      rw [ih]

/-- A fully occupied index range bounds the number of stored pairs from
below. -/
theorem pairsOf_length_ge_of_occupied {K V : Type} (L : List (Slot K V)) (a c : Nat)
    (hc : c ≤ L.length)
    (hocc : ∀ j, a ≤ j → j < c → ∃ e : Nat × K × V, L[j]? = some (some e)) :
    c - a ≤ (pairsOf L).length := by
  rw [pairsOf_length_eq_countP]
  have hsub : ((L.take c).drop a).Sublist L :=
    ((L.take c).drop_sublist a).trans (L.take_sublist c)
  have hlen : ((L.take c).drop a).length = c - a := by
    rw [List.length_drop, List.length_take, Nat.min_eq_left hc]
  have hall : ∀ s ∈ (L.take c).drop a, (fun s : Slot K V => s.isSome) s = true := by
    intro s hs
    obtain ⟨i, hi, hgi⟩ := List.mem_iff_getElem.mp hs
    rw [List.getElem_drop, List.getElem_take] at hgi
    have hia : a + i < c := by
      have := hi
      rw [hlen] at this
      omega
    obtain ⟨e, he⟩ := hocc (a + i) (Nat.le_add_right a i) hia
    have hai : a + i < L.length := Nat.lt_of_lt_of_le hia hc
    have : L[a + i]? = some s := by
      rw [List.getElem?_eq_getElem hai]
      exact congrArg some hgi
    rw [this] at he
    rw [Option.some.injEq] at he
    subst he
    rfl
  calc c - a = ((L.take c).drop a).countP (fun s => s.isSome) := by
        rw [List.countP_eq_length.mpr (by intro s hs; exact hall s hs), hlen]
    _ ≤ L.countP (fun s => s.isSome) := hsub.countP_le _

/-- A slot array holding fewer pairs than slots has an empty slot. -/
theorem gap_exists {K V : Type} (L : List (Slot K V))
    (h : (pairsOf L).length < L.length) : none ∈ L := by
  by_contra hno
  have : ∀ s ∈ L, (fun s : Slot K V => s.isSome) s = true := by
    intro s hs
    cases s with
    | none => exact absurd hs hno
    | some e => rfl
  rw [pairsOf_length_eq_countP, List.countP_eq_length.mpr this] at h
  exact Nat.lt_irrefl _ h

end Hash

namespace Hash

theorem getElem?_append_lt {α : Type} (l1 l2 : List α) (i : Nat) (h : i < l1.length) :
    (l1 ++ l2)[i]? = l1[i]? := by
  rw [List.getElem?_append, if_pos h]

theorem getElem?_append_ge {α : Type} (l1 l2 : List α) (i : Nat) (h : l1.length ≤ i) :
    (l1 ++ l2)[i]? = l2[i - l1.length]? := by
  rw [List.getElem?_append_right h]

theorem pairsOf_map_bump {K V : Type} (l : List (Slot K V)) :
    pairsOf (l.map bumpSlot) = pairsOf l := by
  induction l with
  | nil => rfl
  | cons s rest ih =>
    cases s with
    | none => rw [List.map_cons]; exact ih
    | some e =>
      rw [List.map_cons]
      show pairsOf (some (e.1 + 1, e.2.1, e.2.2) :: rest.map bumpSlot) = _
      rw [pairsOf_cons_some, pairsOf_cons_some]
      rw [ih]

/-- Full characterization of the shift loop: it walks the maximal occupied
prefix of `l` (ending at the first gap, or at the end of the list), leaves
`e` at the front, shifts that prefix along by one slot bumping each probe
distance, and sets its flag only if some written probe distance reached the
maximum. -/
theorem shiftChain_spec {K V : Type} (e : Nat × K × V) (l : List (Slot K V)) :
    ∃ g, g ≤ l.length ∧
      (∀ j, j < g → ∃ ej : Nat × K × V, l[j]? = some (some ej)) ∧
      (l[g]? = some none ∨ g = l.length) ∧
      (shiftChain e l).1 = some e :: (l.take g).map bumpSlot ++ l.drop (g + 1) ∧
      ((shiftChain e l).2 = true →
        e.1 = MVM_HASH_MAX_PROBE_DISTANCE ∨
        ∃ (j : Nat) (f : Nat × K × V), j < g ∧ l[j]? = some (some f) ∧
          f.1 + 1 = MVM_HASH_MAX_PROBE_DISTANCE) := by
  induction l generalizing e with
  | nil =>
    refine ⟨0, Nat.le_refl 0, by omega, Or.inr rfl, rfl, ?_⟩
    intro hf
    left
    simpa [shiftChain] using hf
  | cons s rest ih =>
    cases s with
    | none =>
      refine ⟨0, Nat.zero_le _, by omega, Or.inl (by simp), rfl, ?_⟩
      intro hf
      left
      simpa [shiftChain] using hf
    | some f =>
      obtain ⟨g, hg, hocc, hgap, hres, hflag⟩ := ih (f.1 + 1, f.2.1, f.2.2)
      refine ⟨g + 1, by simpa using Nat.succ_le_succ hg, ?_, ?_, ?_, ?_⟩
      · intro j hj
        cases j with
        | zero => exact ⟨f, by simp⟩
        | succ j => rw [List.getElem?_cons_succ]; exact hocc j (by omega)
      · rcases hgap with h | h
        · exact Or.inl (by rw [List.getElem?_cons_succ]; exact h)
        · exact Or.inr (by simp [h])
      · show some e :: (shiftChain (f.1 + 1, f.2.1, f.2.2) rest).1 = _
        rw [hres]
        rw [List.take_succ_cons, List.map_cons, List.drop_succ_cons]
        rfl
      · intro hf2
        have hf3 : ((e.1 == MVM_HASH_MAX_PROBE_DISTANCE) ||
            (shiftChain (f.1 + 1, f.2.1, f.2.2) rest).2) = true := hf2
        rcases Bool.or_eq_true_iff.mp hf3 with h | h
        · exact Or.inl (by simpa using h)
        · rcases hflag h with h2 | ⟨j, f2, hj, hget, hfe⟩
          · exact Or.inr ⟨0, f, by omega, by simp, h2⟩
          · exact Or.inr ⟨j + 1, f2, by omega,
              by rw [List.getElem?_cons_succ]; exact hget, hfe⟩

/-- The probe loop only ever returns the searched key with a stored
value. -/
theorem probeFetch_some {K V : Type} [DecidableEq K] (key : K) :
    ∀ (l : List (Slot K V)) (pd : Nat) (k : K) (v : V),
    probeFetch key l pd = some (k, v) →
    k = key ∧ ∃ (i d : Nat), l[i]? = some (some (d, key, v)) := by
  intro l
  induction l with
  | nil => intro pd k v h; simp [probeFetch] at h
  | cons s rest ih =>
    intro pd k v h
    cases s with
    | none => simp [probeFetch] at h
    | some e =>
      obtain ⟨d0, k0, v0⟩ := e
      rw [probeFetch] at h
      by_cases h1 : d0 = pd ∧ k0 = key
      · rw [if_pos h1] at h
        obtain ⟨hk, hv⟩ := Prod.mk.injEq .. ▸ Option.some.injEq .. ▸ h
        refine ⟨hk ▸ h1.2.symm ▸ rfl, 0, d0, ?_⟩
        rw [List.getElem?_cons_zero]
        simp at h
        simp [h1.2, ← h.1, ← h.2]
      · rw [if_neg h1] at h
        by_cases h2 : d0 < pd
        · rw [if_pos h2] at h; exact absurd h (by simp)
        · rw [if_neg h2] at h
          obtain ⟨hk, i, d, hget⟩ := ih (pd + 1) k v h
          exact ⟨hk, i + 1, d, by rw [List.getElem?_cons_succ]; exact hget⟩

end Hash

namespace Hash

/-- Under the descent precondition, the probed key cannot be stored in the
already-walked prefix. -/
theorem key_absent_of_desc {K V : Type} (bk : K → Nat) (key : K)
    (pre suf : List (Slot K V))
    (hdesc : ∀ j, bk key ≤ j → j < pre.length →
      ∃ (d2 : Nat) (k2 : K) (v2 : V), (pre ++ suf)[j]? = some (some (d2, k2, v2)) ∧
        bk k2 ≤ bk key ∧ k2 ≠ key)
    (hgood : good bk (pre ++ suf)) : key ∉ keysOf pre := by
  intro hmem
  unfold keysOf at hmem
  obtain ⟨⟨k', v'⟩, hp, hk⟩ := List.mem_map.mp hmem
  obtain ⟨i, d, hget⟩ := pairs_mem_stored pre k' v' hp
  have hk' : k' = key := hk
  subst hk'
  have hilt : i < pre.length := by
    by_contra hge
    rw [List.getElem?_eq_none (by omega)] at hget
    exact absurd hget (by simp)
  have hgetL : (pre ++ suf)[i]? = some (some (d, k', v')) := by
    rw [getElem?_append_lt _ _ _ hilt]; exact hget
  have hb := (hgood i d k' v' hgetL).1
  obtain ⟨d2, k2, v2, hj, _, hne⟩ := hdesc i hb hilt
  rw [hgetL] at hj
  have : (d2, k2, v2) = (d, k', v') := by
    have := Option.some.injEq .. ▸ hj
    simpa using this.symm
  exact hne (by simpa using congrArg (fun e => e.2.1) this)

/-- The probe loop finds any stored key whose position lies in the walked
suffix. -/
theorem probeFetch_finds {K V : Type} [DecidableEq K] (bk : K → Nat) (key : K) :
    ∀ (suf pre : List (Slot K V)) (pd : Nat),
    good bk (pre ++ suf) →
    (keysOf (pre ++ suf)).Nodup →
    pre.length + 1 = bk key + pd →
    1 ≤ pd →
    ∀ (i d : Nat) (v : V), pre.length ≤ i →
      (pre ++ suf)[i]? = some (some (d, key, v)) →
    probeFetch key suf pd = some (key, v) := by
  intro suf
  induction suf with
  | nil =>
    intro pre pd _ _ _ _ i d v hpi hget
    rw [List.append_nil] at hget
    have hilt : i < pre.length := by
      by_contra hge
      rw [List.getElem?_eq_none (by omega)] at hget
      exact absurd hget (by simp)
    omega
  | cons s rest ih =>
    intro pre pd hgood hnd hlen hpd i d v hpi hget
    have hLp : (pre ++ s :: rest)[pre.length]? = some s := by
      rw [getElem?_append_ge _ _ _ (Nat.le_refl _), Nat.sub_self]
      simp
    cases s with
    | none =>
      exfalso
      have hine : i ≠ pre.length := by
        intro he
        rw [he, hLp] at hget
        simp at hget
      have hchain := (hgood i d key v hget).2.2
      obtain ⟨d2, k2, v2, hj, _⟩ := hchain pre.length (by omega) (by omega)
      rw [hLp] at hj
      simp at hj
    | some e =>
      obtain ⟨d0, k0, v0⟩ := e
      obtain ⟨hble0, hlaw0, _⟩ := hgood pre.length d0 k0 v0 hLp
      rw [probeFetch]
      by_cases h1 : d0 = pd ∧ k0 = key
      · have hieq : i = pre.length :=
          stored_unique _ hnd i pre.length d d0 key v v0 hget (h1.2 ▸ hLp)
        rw [hieq, hLp] at hget
        simp only [Option.some.injEq, Prod.mk.injEq] at hget
        rw [if_pos h1]
        rw [h1.2, hget.2.2]
      · rw [if_neg h1]
        by_cases h2 : d0 < pd
        · exfalso
          rcases Nat.eq_or_lt_of_le hpi with hieq | hilt
          · have hdlaw := (hgood i d key v hget).2.1
            rw [← hieq] at hget
            rw [hLp] at hget
            simp only [Option.some.injEq, Prod.mk.injEq] at hget
            have hbk := congrArg bk hget.2.1
            omega
          · have hchain := (hgood i d key v hget).2.2
            obtain ⟨d2, k2, v2, hj, hb2⟩ := hchain pre.length (by omega) hilt
            rw [hLp] at hj
            simp only [Option.some.injEq, Prod.mk.injEq] at hj
            have hbk := congrArg bk hj.2.1
            omega
        · rw [if_neg h2]
          have hL : (pre ++ [some (d0, k0, v0)]) ++ rest = pre ++ some (d0, k0, v0) :: rest := by
            simp
          have hlen2 : (pre ++ [some (d0, k0, v0)]).length + 1 = bk key + (pd + 1) := by
            rw [List.length_append]
            simp
            omega
          have hine : i ≠ pre.length := by
            intro he
            have hdlaw := (hgood i d key v hget).2.1
            rw [he] at hget hdlaw
            rw [hLp] at hget
            simp only [Option.some.injEq, Prod.mk.injEq] at hget
            have hbk := congrArg bk hget.2.1
            exact h1 ⟨by omega, hget.2.1⟩
          refine ih (pre ++ [some (d0, k0, v0)]) (pd + 1) (by rw [hL]; exact hgood)
            (by rw [hL]; exact hnd) hlen2 (by omega) i d v ?_ (by rw [hL]; exact hget)
          rw [List.length_append]
          simp
          omega

end Hash

namespace Hash

/-- The take/drop split of the stored pairs at the shift loop's gap. -/
theorem pairsOf_split_at_gap {K V : Type} (rest : List (Slot K V)) (g : Nat)
    (hgap : rest[g]? = some none ∨ g = rest.length) :
    pairsOf rest = pairsOf (rest.take g) ++ pairsOf (rest.drop (g + 1)) := by
  rcases hgap with h | h
  · have hlt : g < rest.length := by
      by_contra hge
      rw [List.getElem?_eq_none (by omega)] at h
      exact absurd h (by simp)
    have hdg : rest.drop g = rest[g] :: rest.drop (g + 1) := List.drop_eq_getElem_cons hlt
    have hgn : rest[g] = none := by
      have := List.getElem?_eq_getElem hlt
      rw [h] at this
      exact (Option.some.injEq .. ▸ this.symm)
    conv_lhs => rw [← List.take_append_drop g rest]
    rw [pairsOf_append, hdg, hgn, pairsOf_cons_none]
  · subst h
    rw [List.take_length, List.drop_eq_nil_of_le (by omega), pairsOf_nil, List.append_nil]

/-- The "make room" case of `hash_insert_internal`: displacing the head of
an over-distance chain and inserting preserves the layout invariant, the
key discipline, and adds exactly the new pair; the slot array length grows
only if the chain ran to the very end of the allocation. -/
theorem probeIns_make_room {K V : Type} [DecidableEq K] (bk : K → Nat) (key : K) (val : V)
    (pre rest : List (Slot K V)) (pd d : Nat) (k : K) (v : V)
    (hgood : good bk (pre ++ some (d, k, v) :: rest))
    (hnd : (keysOf (pre ++ some (d, k, v) :: rest)).Nodup)
    (hlen : pre.length + 1 = bk key + pd)
    (hpd : 1 ≤ pd)
    (hdesc : ∀ j, bk key ≤ j → j < pre.length →
      ∃ (d2 : Nat) (k2 : K) (v2 : V),
        (pre ++ some (d, k, v) :: rest)[j]? = some (some (d2, k2, v2)) ∧
        bk k2 ≤ bk key ∧ k2 ≠ key)
    (hdlt : d < pd) :
    good bk (pre ++ some (pd, key, val) :: (shiftChain (d + 1, k, v) rest).1) ∧
    (keysOf (pre ++ some (pd, key, val) :: (shiftChain (d + 1, k, v) rest).1)).Nodup ∧
    List.Perm (pairsOf (pre ++ some (pd, key, val) :: (shiftChain (d + 1, k, v) rest).1))
      ((key, val) :: pairsOf (pre ++ some (d, k, v) :: rest)) ∧
    rest.length ≤ (shiftChain (d + 1, k, v) rest).1.length ∧
    (shiftChain (d + 1, k, v) rest).1.length ≤ rest.length + 1 ∧
    (none ∈ rest → (shiftChain (d + 1, k, v) rest).1.length = rest.length) ∧
    (((pd == MVM_HASH_MAX_PROBE_DISTANCE) || (shiftChain (d + 1, k, v) rest).2) = true →
      MVM_HASH_MAX_PROBE_DISTANCE ≤
        (pairsOf (pre ++ some (d, k, v) :: rest)).length + 1) := by
  obtain ⟨g, hg, hoccg, hgap, hres, hflagSC⟩ := shiftChain_spec (d + 1, k, v) rest
  have hMlen : ((rest.take g).map bumpSlot).length = g := by
    rw [List.length_map, List.length_take]
    omega
  -- abbreviations for the two lists
  set L := pre ++ some (d, k, v) :: rest with hLdef
  set r1 := (shiftChain (d + 1, k, v) rest).1 with hr1def
  set Lp := pre ++ some (pd, key, val) :: r1 with hLpdef
  -- index characterisations of the original list
  have hLlt : ∀ q, q < pre.length → L[q]? = pre[q]? := by
    intro q hq
    exact getElem?_append_lt _ _ _ hq
  have hLp0 : L[pre.length]? = some (some (d, k, v)) := by
    rw [hLdef, getElem?_append_ge _ _ _ (Nat.le_refl _), Nat.sub_self]
    simp
  have hLgt : ∀ q, pre.length < q → L[q]? = rest[q - pre.length - 1]? := by
    intro q hq
    rw [hLdef, getElem?_append_ge _ _ _ (by omega)]
    obtain ⟨n, hn⟩ : ∃ n, q - pre.length = n + 1 := ⟨q - pre.length - 1, by omega⟩
    rw [hn, List.getElem?_cons_succ]
    congr 1
  -- index characterisations of the result list
  have hPlt : ∀ q, q < pre.length → Lp[q]? = pre[q]? := by
    intro q hq
    exact getElem?_append_lt _ _ _ hq
  have hPp : Lp[pre.length]? = some (some (pd, key, val)) := by
    rw [hLpdef, getElem?_append_ge _ _ _ (Nat.le_refl _), Nat.sub_self]
    simp
  have hPp1 : Lp[pre.length + 1]? = some (some (d + 1, k, v)) := by
    rw [hLpdef, getElem?_append_ge _ _ _ (by omega)]
    have h1 : pre.length + 1 - pre.length = 0 + 1 := by omega
    rw [h1, List.getElem?_cons_succ, hres, List.cons_append, List.getElem?_cons_zero]
  have hPmid : ∀ j, j < g → Lp[pre.length + 2 + j]? = rest[j]?.map bumpSlot := by
    intro j hj
    rw [hLpdef, getElem?_append_ge _ _ _ (by omega)]
    have h1 : pre.length + 2 + j - pre.length = (j + 1) + 1 := by omega
    rw [h1, List.getElem?_cons_succ, hres, List.cons_append, List.getElem?_cons_succ]
    rw [getElem?_append_lt _ _ _ (by omega)]
    rw [List.getElem?_map]
    congr 1
    rw [List.getElem?_take, if_pos hj]
  have hPhi : ∀ q, pre.length + 2 + g ≤ q → Lp[q]? = rest[q - pre.length - 1]? := by
    intro q hq
    rw [hLpdef, getElem?_append_ge _ _ _ (by omega)]
    obtain ⟨n, hn⟩ : ∃ n, q - pre.length = n + 1 + 1 := ⟨q - pre.length - 2, by omega⟩
    rw [hn, List.getElem?_cons_succ, hres, List.cons_append, List.getElem?_cons_succ]
    rw [getElem?_append_ge _ _ _ (by omega)]
    rw [List.getElem?_drop]
    congr 1
    omega
  -- facts about the displaced head entry
  obtain ⟨hbkk, hlawk, hchaink⟩ := hgood pre.length d k v hLp0
  have hbgt : bk key < bk k := by omega
  -- facts about the shifted chain entries
  have hmidfacts : ∀ j, j < g → ∃ ej : Nat × K × V,
      rest[j]? = some (some ej) ∧
      bk ej.2.1 ≤ pre.length + 1 + j ∧
      ej.1 = pre.length + 1 + j + 1 - bk ej.2.1 ∧
      bk key < bk ej.2.1 ∧
      (∀ m, bk ej.2.1 ≤ m → m < pre.length + 1 + j →
        ∃ (d2 : Nat) (k2 : K) (v2 : V), L[m]? = some (some (d2, k2, v2)) ∧
          bk k2 ≤ bk ej.2.1) := by
    intro j hj
    obtain ⟨ej, hej⟩ := hoccg j hj
    have hLq : L[pre.length + 1 + j]? = some (some ej) := by
      rw [hLgt _ (by omega)]
      have h1 : pre.length + 1 + j - pre.length - 1 = j := by omega
      rw [h1]
      exact hej
    obtain ⟨hb1, hb2, hb3⟩ := hgood (pre.length + 1 + j) ej.1 ej.2.1 ej.2.2
      (by rw [hLq])
    refine ⟨ej, hej, hb1, hb2, ?_, hb3⟩
    by_contra hle
    have hble : bk ej.2.1 ≤ bk key := by omega
    obtain ⟨d2, k2, v2, hm, hbm⟩ := hb3 pre.length (by omega) (by omega)
    rw [hLp0] at hm
    simp only [Option.some.injEq, Prod.mk.injEq] at hm
    have := congrArg bk hm.2.1
    omega
  refine ⟨?_, ?_, ?_, ?_, ?_, ?_, ?_⟩
  · -- goodness of the new layout
    intro i d0 k0 v0 hget
    have hir : i < pre.length ∨ i = pre.length ∨ i = pre.length + 1 ∨
        (pre.length + 2 ≤ i ∧ i < pre.length + 2 + g) ∨ pre.length + 2 + g ≤ i := by
      omega
    rcases hir with hi | hi | hi | ⟨hi1, hi2⟩ | hi
    · -- untouched prefix
      rw [hPlt i hi] at hget
      obtain ⟨h1, h2, h3⟩ := hgood i d0 k0 v0 (by rw [hLlt i hi]; exact hget)
      refine ⟨h1, h2, fun j hj1 hj2 => ?_⟩
      obtain ⟨d2, k2, v2, hj, hb⟩ := h3 j hj1 hj2
      rw [hLlt j (by omega)] at hj
      exact ⟨d2, k2, v2, by rw [hPlt j (by omega)]; exact hj, hb⟩
    · -- the freshly inserted entry
      subst hi
      rw [hPp] at hget
      simp only [Option.some.injEq, Prod.mk.injEq] at hget
      obtain ⟨hd0, hk0, hv0⟩ := hget
      subst hd0; subst hk0; subst hv0
      refine ⟨by omega, by omega, fun j hj1 hj2 => ?_⟩
      obtain ⟨d2, k2, v2, hj, hb, _⟩ := hdesc j hj1 hj2
      rw [hLlt j (by omega)] at hj
      exact ⟨d2, k2, v2, by rw [hPlt j (by omega)]; exact hj, hb⟩
    · -- the displaced head, bumped by one
      subst hi
      rw [hPp1] at hget
      simp only [Option.some.injEq, Prod.mk.injEq] at hget
      obtain ⟨hd0, hk0, hv0⟩ := hget
      subst hd0; subst hk0; subst hv0
      refine ⟨by omega, by omega, fun j hj1 hj2 => ?_⟩
      have hjr : j < pre.length ∨ j = pre.length := by omega
      rcases hjr with hj | hj
      · obtain ⟨d2, k2, v2, hm, hb⟩ := hchaink j hj1 (by omega)
        rw [hLlt j hj] at hm
        exact ⟨d2, k2, v2, by rw [hPlt j hj]; exact hm, hb⟩
      · subst hj
        exact ⟨pd, key, val, hPp, by omega⟩
    · -- a shifted chain entry, bumped by one
      obtain ⟨j, hjg, hij⟩ : ∃ j, j < g ∧ i = pre.length + 2 + j :=
        ⟨i - pre.length - 2, by omega, by omega⟩
      subst hij
      obtain ⟨ej, hej, hb1, hb2, hb4, hb3⟩ := hmidfacts j hjg
      rw [hPmid j hjg, hej] at hget
      have hget2 : some (some ((ej.1 + 1, ej.2.1, ej.2.2) : Nat × K × V)) =
          some (some (d0, k0, v0)) := hget
      simp only [Option.some.injEq, Prod.mk.injEq] at hget2
      obtain ⟨hd0, hk0, hv0⟩ := hget2
      subst hd0; subst hk0; subst hv0
      refine ⟨by omega, by omega, fun m hm1 hm2 => ?_⟩
      have hmr : m < pre.length ∨ m = pre.length ∨ m = pre.length + 1 ∨
          (pre.length + 2 ≤ m) := by omega
      rcases hmr with hm | hm | hm | hm
      · obtain ⟨d2, k2, v2, hmm, hb⟩ := hb3 m hm1 (by omega)
        rw [hLlt m hm] at hmm
        exact ⟨d2, k2, v2, by rw [hPlt m hm]; exact hmm, hb⟩
      · subst hm
        exact ⟨pd, key, val, hPp, by omega⟩
      · subst hm
        refine ⟨d + 1, k, v, hPp1, ?_⟩
        by_cases hc : bk ej.2.1 ≤ pre.length
        · obtain ⟨d2, k2, v2, hmm, hb⟩ := hb3 pre.length hc (by omega)
          rw [hLp0] at hmm
          simp only [Option.some.injEq, Prod.mk.injEq] at hmm
          have := congrArg bk hmm.2.1
          omega
        · omega
      · -- a previously shifted neighbour
        obtain ⟨j2, hj2, hmj⟩ : ∃ j2, j2 < j ∧ m = pre.length + 2 + j2 :=
          ⟨m - pre.length - 2, by omega, by omega⟩
        subst hmj
        obtain ⟨ej2, hej2, hc1, hc2, _, _⟩ := hmidfacts j2 (by omega)
        obtain ⟨ej2a, ej2k, ej2v⟩ := ej2
        refine ⟨ej2a + 1, ej2k, ej2v, ?_, ?_⟩
        · rw [hPmid j2 (by omega), hej2]
          rfl
        · by_cases hc : bk ej.2.1 ≤ pre.length + 1 + j2
          · obtain ⟨d2, k2, v2, hmm, hb⟩ := hb3 (pre.length + 1 + j2) hc (by omega)
            rw [hLgt _ (by omega)] at hmm
            have h1 : pre.length + 1 + j2 - pre.length - 1 = j2 := by omega
            rw [h1, hej2] at hmm
            simp only [Option.some.injEq, Prod.mk.injEq] at hmm
            have := congrArg bk hmm.2.1
            simp only at this hc1 hc2 ⊢
            omega
          · simp only at hc1 hc2 ⊢
            omega
    · -- entries beyond the chain's gap
      have hgetL : L[i]? = some (some (d0, k0, v0)) := by
        rw [hPhi i hi] at hget
        rw [hLgt i (by omega)]
        exact hget
      obtain ⟨h1, h2, h3⟩ := hgood i d0 k0 v0 hgetL
      rcases hgap with hga | hga
      · have hLgap : L[pre.length + 1 + g]? = some none := by
          rw [hLgt _ (by omega)]
          have he : pre.length + 1 + g - pre.length - 1 = g := by omega
          rw [he]
          exact hga
        have hbk0 : pre.length + 1 + g < bk k0 := by
          by_contra hc
          obtain ⟨d2, k2, v2, hmm, _⟩ := h3 (pre.length + 1 + g) (by omega) (by omega)
          rw [hLgap] at hmm
          simp at hmm
        refine ⟨h1, h2, fun m hm1 hm2 => ?_⟩
        obtain ⟨d2, k2, v2, hmm, hb⟩ := h3 m hm1 hm2
        rw [hLgt m (by omega)] at hmm
        refine ⟨d2, k2, v2, ?_, hb⟩
        rw [hPhi m (by omega)]
        exact hmm
      · exfalso
        rw [hPhi i hi] at hget
        rw [List.getElem?_eq_none (by omega)] at hget
        exact absurd hget (by simp)
  · -- keys stay distinct
    have hknotin : key ∉ keysOf L := by
      intro hmem
      unfold keysOf at hmem
      obtain ⟨⟨k', v'⟩, hp, hk⟩ := List.mem_map.mp hmem
      have hk' : k' = key := hk
      subst hk'
      obtain ⟨i, dd, hi⟩ := pairs_mem_stored L k' v' hp
      have hir : i < pre.length ∨ i = pre.length ∨ pre.length < i := by omega
      rcases hir with hilt | hieq | higt
      · obtain ⟨hb1, _, _⟩ := hgood i dd k' v' hi
        obtain ⟨d2, k2, v2, hj, _, hne⟩ := hdesc i hb1 hilt
        rw [hi] at hj
        simp only [Option.some.injEq, Prod.mk.injEq] at hj
        exact hne hj.2.1.symm
      · rw [hieq, hLp0] at hi
        simp only [Option.some.injEq, Prod.mk.injEq] at hi
        have := congrArg bk hi.2.1
        omega
      · obtain ⟨hb1, hb2, hb3⟩ := hgood i dd k' v' hi
        obtain ⟨d2, k2, v2, hj, hbj⟩ := hb3 pre.length (by omega) higt
        rw [hLp0] at hj
        simp only [Option.some.injEq, Prod.mk.injEq] at hj
        have := congrArg bk hj.2.1
        omega
    have hpairs : pairsOf Lp = pairsOf pre ++
        (key, val) :: ((k, v) :: (pairsOf (rest.take g) ++ pairsOf (rest.drop (g + 1)))) := by
      rw [hLpdef, pairsOf_append, hres, List.cons_append, pairsOf_cons_some, pairsOf_cons_some,
        pairsOf_append, pairsOf_map_bump]
    have hpairsL : pairsOf L = pairsOf pre ++
        ((k, v) :: (pairsOf (rest.take g) ++ pairsOf (rest.drop (g + 1)))) := by
      rw [hLdef, pairsOf_append, pairsOf_cons_some, pairsOf_split_at_gap rest g hgap]
    have hperm : List.Perm (pairsOf Lp) ((key, val) :: pairsOf L) := by
      rw [hpairs, hpairsL]
      exact List.perm_middle
    have hkperm : List.Perm (keysOf Lp) (key :: keysOf L) := by
      unfold keysOf
      have := hperm.map Prod.fst
      simpa using this
    refine hkperm.nodup_iff.mpr ?_
    exact List.nodup_cons.mpr ⟨hknotin, hnd⟩
  · -- the stored pairs gain exactly the new pair
    have hpairs : pairsOf Lp = pairsOf pre ++
        (key, val) :: ((k, v) :: (pairsOf (rest.take g) ++ pairsOf (rest.drop (g + 1)))) := by
      rw [hLpdef, pairsOf_append, hres, List.cons_append, pairsOf_cons_some, pairsOf_cons_some,
        pairsOf_append, pairsOf_map_bump]
    have hpairsL : pairsOf L = pairsOf pre ++
        ((k, v) :: (pairsOf (rest.take g) ++ pairsOf (rest.drop (g + 1)))) := by
      rw [hLdef, pairsOf_append, pairsOf_cons_some, pairsOf_split_at_gap rest g hgap]
    rw [hpairs, hpairsL]
    exact List.perm_middle
  · -- length lower bound
    rw [hres]
    simp only [List.length_cons, List.length_append, List.length_map, List.length_take,
      List.length_drop]
    omega
  · -- length upper bound
    rw [hres]
    simp only [List.length_cons, List.length_append, List.length_map, List.length_take,
      List.length_drop]
    omega
  · -- a gap inside the allocation keeps the length unchanged
    intro hnone
    obtain ⟨m, hm, hgm⟩ := List.mem_iff_getElem.mp hnone
    have hmo : ∀ j, j < g → rest[j]? ≠ some none := by
      intro j hj hc
      obtain ⟨ej, hej⟩ := hoccg j hj
      rw [hej] at hc
      simp at hc
    have hglt : g < rest.length := by
      by_contra hge
      have hmg : m < g := by omega
      exact hmo m hmg (by rw [List.getElem?_eq_getElem hm, hgm])
    rw [hres]
    simp only [List.length_cons, List.length_append, List.length_map, List.length_take,
      List.length_drop]
    omega
  · -- the saturation flag needs 254 stored pairs
    intro hf
    rcases Bool.or_eq_true_iff.mp hf with h | h
    · have hpd255 : pd = MVM_HASH_MAX_PROBE_DISTANCE := by simpa using h
      have hocc : ∀ j, bk key ≤ j → j < pre.length →
          ∃ e : Nat × K × V, L[j]? = some (some e) := by
        intro j hj1 hj2
        obtain ⟨d2, k2, v2, hj, _, _⟩ := hdesc j hj1 hj2
        exact ⟨(d2, k2, v2), hj⟩
      have hcnt := pairsOf_length_ge_of_occupied L (bk key) pre.length
        (by rw [hLdef]; simp) hocc
      rw [MVM_HASH_MAX_PROBE_DISTANCE] at hpd255 ⊢
      omega
    · rcases hflagSC h with h2 | ⟨j, f, hj, hget, hfe⟩
      · have hd255 : d + 1 = MVM_HASH_MAX_PROBE_DISTANCE := by simpa using h2
        have hocc : ∀ j, bk k ≤ j → j < pre.length + 1 →
            ∃ e : Nat × K × V, L[j]? = some (some e) := by
          intro j hj1 hj2
          by_cases hc : j = pre.length
          · exact ⟨(d, k, v), by rw [hc]; exact hLp0⟩
          · obtain ⟨d2, k2, v2, hm, _⟩ := hchaink j hj1 (by omega)
            exact ⟨(d2, k2, v2), hm⟩
        have hcnt := pairsOf_length_ge_of_occupied L (bk k) (pre.length + 1)
          (by rw [hLdef]; simp) hocc
        rw [MVM_HASH_MAX_PROBE_DISTANCE] at hd255 ⊢
        omega
      · obtain ⟨ej, hej, hb1, hb2, _, hb3⟩ := hmidfacts j hj
        rw [hej] at hget
        simp only [Option.some.injEq] at hget
        subst hget
        have hocc : ∀ m, bk ej.2.1 ≤ m → m < pre.length + 1 + j + 1 →
            ∃ e : Nat × K × V, L[m]? = some (some e) := by
          intro m hm1 hm2
          by_cases hc : m = pre.length + 1 + j
          · refine ⟨ej, ?_⟩
            rw [hc, hLgt _ (by omega)]
            have he : pre.length + 1 + j - pre.length - 1 = j := by omega
            rw [he]
            exact hej
          · obtain ⟨d2, k2, v2, hm, _⟩ := hb3 m hm1 (by omega)
            exact ⟨(d2, k2, v2), hm⟩
        have hLlen : pre.length + 1 + j + 1 ≤ L.length := by
          rw [hLdef]
          simp only [List.length_append, List.length_cons]
          omega
        have hcnt := pairsOf_length_ge_of_occupied L (bk ej.2.1) (pre.length + 1 + j + 1)
          hLlen hocc
        rw [MVM_HASH_MAX_PROBE_DISTANCE] at hfe ⊢
        omega

end Hash

namespace Hash

/-- Placing a fresh entry one past the end of the walked slots (the open
slot is in the trailing region). -/
theorem probeIns_place_nil {K V : Type} [DecidableEq K] (bk : K → Nat) (key : K) (val : V)
    (pre : List (Slot K V)) (pd : Nat)
    (hgood : good bk pre) (hnd : (keysOf pre).Nodup)
    (hlen : pre.length + 1 = bk key + pd) (hpd : 1 ≤ pd)
    (hdesc : ∀ j, bk key ≤ j → j < pre.length →
      ∃ (d2 : Nat) (k2 : K) (v2 : V), pre[j]? = some (some (d2, k2, v2)) ∧
        bk k2 ≤ bk key ∧ k2 ≠ key) :
    good bk (pre ++ [some (pd, key, val)]) ∧
    (keysOf (pre ++ [some (pd, key, val)])).Nodup ∧
    List.Perm (pairsOf (pre ++ [some (pd, key, val)])) ((key, val) :: pairsOf pre) := by
  have hknotin : key ∉ keysOf pre := by
    have h1 := key_absent_of_desc bk key pre [] (by simpa using hdesc) (by simpa using hgood)
    exact h1
  refine ⟨?_, ?_, ?_⟩
  · intro i d0 k0 v0 hget
    have hir : i < pre.length ∨ i = pre.length ∨ pre.length < i := by omega
    rcases hir with hi | hi | hi
    · rw [getElem?_append_lt _ _ _ hi] at hget
      obtain ⟨h1, h2, h3⟩ := hgood i d0 k0 v0 hget
      refine ⟨h1, h2, fun j hj1 hj2 => ?_⟩
      obtain ⟨d2, k2, v2, hj, hb⟩ := h3 j hj1 hj2
      exact ⟨d2, k2, v2, by rw [getElem?_append_lt _ _ _ (by omega)]; exact hj, hb⟩
    · subst hi
      rw [getElem?_append_ge _ _ _ (Nat.le_refl _), Nat.sub_self] at hget
      simp only [List.getElem?_cons_zero, Option.some.injEq, Prod.mk.injEq] at hget
      obtain ⟨hd0, hk0, hv0⟩ := hget
      subst hd0; subst hk0; subst hv0
      refine ⟨by omega, by omega, fun j hj1 hj2 => ?_⟩
      obtain ⟨d2, k2, v2, hj, hb, _⟩ := hdesc j hj1 hj2
      exact ⟨d2, k2, v2, by rw [getElem?_append_lt _ _ _ (by omega)]; exact hj, hb⟩
    · exfalso
      rw [getElem?_append_ge _ _ _ (by omega)] at hget
      rw [List.getElem?_eq_none (by simp; omega)] at hget
      exact absurd hget (by simp)
  · have hkeys : keysOf (pre ++ [some (pd, key, val)]) = keysOf pre ++ [key] := by
      rw [keysOf_append]
      rfl
    rw [hkeys]
    exact List.nodup_append.mpr ⟨hnd, List.nodup_singleton key,
      List.disjoint_singleton.mpr hknotin⟩
  · rw [pairsOf_append]
    have : pairsOf [(some (pd, key, val) : Slot K V)] = [(key, val)] := rfl
    rw [this]
    exact List.perm_append_singleton _ _

/-- Placing a fresh entry into an empty slot. -/
theorem probeIns_place_gap {K V : Type} [DecidableEq K] (bk : K → Nat) (key : K) (val : V)
    (pre rest : List (Slot K V)) (pd : Nat)
    (hgood : good bk (pre ++ none :: rest))
    (hnd : (keysOf (pre ++ none :: rest)).Nodup)
    (hlen : pre.length + 1 = bk key + pd) (hpd : 1 ≤ pd)
    (hdesc : ∀ j, bk key ≤ j → j < pre.length →
      ∃ (d2 : Nat) (k2 : K) (v2 : V), (pre ++ none :: rest)[j]? = some (some (d2, k2, v2)) ∧
        bk k2 ≤ bk key ∧ k2 ≠ key) :
    good bk (pre ++ some (pd, key, val) :: rest) ∧
    (keysOf (pre ++ some (pd, key, val) :: rest)).Nodup ∧
    List.Perm (pairsOf (pre ++ some (pd, key, val) :: rest))
      ((key, val) :: pairsOf (pre ++ none :: rest)) := by
  have hLp0 : (pre ++ none :: rest)[pre.length]? = some none := by
    rw [getElem?_append_ge _ _ _ (Nat.le_refl _), Nat.sub_self]
    simp
  have hLgt : ∀ q, pre.length < q → (pre ++ none :: rest)[q]? = rest[q - pre.length - 1]? := by
    intro q hq
    rw [getElem?_append_ge _ _ _ (by omega)]
    obtain ⟨n, hn⟩ : ∃ n, q - pre.length = n + 1 := ⟨q - pre.length - 1, by omega⟩
    rw [hn, List.getElem?_cons_succ]
    congr 1
  have hPp : (pre ++ some (pd, key, val) :: rest)[pre.length]? =
      some (some (pd, key, val)) := by
    rw [getElem?_append_ge _ _ _ (Nat.le_refl _), Nat.sub_self]
    simp
  have hPgt : ∀ q, pre.length < q →
      (pre ++ some (pd, key, val) :: rest)[q]? = rest[q - pre.length - 1]? := by
    intro q hq
    rw [getElem?_append_ge _ _ _ (by omega)]
    obtain ⟨n, hn⟩ : ∃ n, q - pre.length = n + 1 := ⟨q - pre.length - 1, by omega⟩
    rw [hn, List.getElem?_cons_succ]
    congr 1
  have hknotin : key ∉ keysOf (pre ++ none :: rest) := by
    intro hmem
    unfold keysOf at hmem
    obtain ⟨⟨k', v'⟩, hp, hk⟩ := List.mem_map.mp hmem
    have hk' : k' = key := hk
    subst hk'
    obtain ⟨i, dd, hi⟩ := pairs_mem_stored _ k' v' hp
    have hir : i < pre.length ∨ i = pre.length ∨ pre.length < i := by omega
    rcases hir with hilt | hieq | higt
    · obtain ⟨hb1, _, _⟩ := hgood i dd k' v' hi
      obtain ⟨d2, k2, v2, hj, _, hne⟩ := hdesc i hb1 hilt
      rw [hi] at hj
      simp only [Option.some.injEq, Prod.mk.injEq] at hj
      exact hne hj.2.1.symm
    · rw [hieq, hLp0] at hi
      simp at hi
    · obtain ⟨hb1, hb2, hb3⟩ := hgood i dd k' v' hi
      obtain ⟨d2, k2, v2, hj, hbj⟩ := hb3 pre.length (by omega) higt
      rw [hLp0] at hj
      simp at hj
  refine ⟨?_, ?_, ?_⟩
  · intro i d0 k0 v0 hget
    have hir : i < pre.length ∨ i = pre.length ∨ pre.length < i := by omega
    rcases hir with hi | hi | hi
    · rw [getElem?_append_lt _ _ _ hi] at hget
      obtain ⟨h1, h2, h3⟩ := hgood i d0 k0 v0 (by
        rw [getElem?_append_lt _ _ _ hi]; exact hget)
      refine ⟨h1, h2, fun j hj1 hj2 => ?_⟩
      obtain ⟨d2, k2, v2, hj, hb⟩ := h3 j hj1 hj2
      rw [getElem?_append_lt _ _ _ (by omega)] at hj
      exact ⟨d2, k2, v2, by rw [getElem?_append_lt _ _ _ (by omega)]; exact hj, hb⟩
    · subst hi
      rw [hPp] at hget
      simp only [Option.some.injEq, Prod.mk.injEq] at hget
      obtain ⟨hd0, hk0, hv0⟩ := hget
      subst hd0; subst hk0; subst hv0
      refine ⟨by omega, by omega, fun j hj1 hj2 => ?_⟩
      obtain ⟨d2, k2, v2, hj, hb, _⟩ := hdesc j hj1 hj2
      rw [getElem?_append_lt _ _ _ (by omega)] at hj
      exact ⟨d2, k2, v2, by rw [getElem?_append_lt _ _ _ (by omega)]; exact hj, hb⟩
    · have hgetL : (pre ++ none :: rest)[i]? = some (some (d0, k0, v0)) := by
        rw [hLgt i hi]
        rw [hPgt i hi] at hget
        exact hget
      obtain ⟨h1, h2, h3⟩ := hgood i d0 k0 v0 hgetL
      refine ⟨h1, h2, fun j hj1 hj2 => ?_⟩
      obtain ⟨d2, k2, v2, hj, hb⟩ := h3 j hj1 hj2
      have hjr : j < pre.length ∨ j = pre.length ∨ pre.length < j := by omega
      rcases hjr with hjc | hjc | hjc
      · rw [getElem?_append_lt _ _ _ hjc] at hj
        exact ⟨d2, k2, v2, by rw [getElem?_append_lt _ _ _ hjc]; exact hj, hb⟩
      · exfalso
        rw [hjc, hLp0] at hj
        simp at hj
      · rw [hLgt j hjc] at hj
        exact ⟨d2, k2, v2, by rw [hPgt j hjc]; exact hj, hb⟩
  · have hkp : List.Perm (keysOf (pre ++ some (pd, key, val) :: rest))
        (key :: keysOf (pre ++ none :: rest)) := by
      unfold keysOf
      rw [pairsOf_append, pairsOf_append, pairsOf_cons_some, pairsOf_cons_none]
      have := (@List.perm_middle (K × V) (key, val) (pairsOf pre) (pairsOf rest)).map Prod.fst
      simp only [List.map_append, List.map_cons] at this ⊢
      exact this
    exact hkp.nodup_iff.mpr (List.nodup_cons.mpr ⟨hknotin, hnd⟩)
  · rw [pairsOf_append, pairsOf_append, pairsOf_cons_some, pairsOf_cons_none]
    exact List.perm_middle

end Hash

namespace Hash

/-- Full specification of the probe-and-insert loop of
`hash_insert_internal`, relative to the walked prefix `pre`: a fresh
insertion preserves the layout invariant and key discipline and adds
exactly the new pair, growing the slot array only when no empty slot
remained; finding an existing entry changes nothing and reports the stored
value; and the saturation flag can only be set when at least 254 pairs are
stored. -/
theorem probeIns_spec {K V : Type} [DecidableEq K] (bk : K → Nat) (key : K) (val : V) :
    ∀ (suf pre : List (Slot K V)) (pd : Nat),
    good bk (pre ++ suf) →
    (keysOf (pre ++ suf)).Nodup →
    pre.length + 1 = bk key + pd →
    1 ≤ pd →
    (∀ j, bk key ≤ j → j < pre.length →
      ∃ (d2 : Nat) (k2 : K) (v2 : V), (pre ++ suf)[j]? = some (some (d2, k2, v2)) ∧
        bk k2 ≤ bk key ∧ k2 ≠ key) →
    (((probeIns key val suf pd).2.1 = InsOutcome.fresh →
      good bk (pre ++ (probeIns key val suf pd).1) ∧
      (keysOf (pre ++ (probeIns key val suf pd).1)).Nodup ∧
      List.Perm (pairsOf (pre ++ (probeIns key val suf pd).1))
        ((key, val) :: pairsOf (pre ++ suf)) ∧
      suf.length ≤ (probeIns key val suf pd).1.length ∧
      (probeIns key val suf pd).1.length ≤ suf.length + 1 ∧
      (none ∈ suf → (probeIns key val suf pd).1.length = suf.length)) ∧
    (∀ (k0 : K) (v0 : V), (probeIns key val suf pd).2.1 = InsOutcome.existing k0 v0 →
      (probeIns key val suf pd).1 = suf ∧ k0 = key ∧
      (probeIns key val suf pd).2.2 = false ∧
      ∃ (i d : Nat), (pre ++ suf)[i]? = some (some (d, key, v0))) ∧
    ((probeIns key val suf pd).2.2 = true →
      MVM_HASH_MAX_PROBE_DISTANCE ≤ (pairsOf (pre ++ suf)).length + 1)) := by
  intro suf
  induction suf with
  | nil =>
    intro pre pd hgood hnd hlen hpd hdesc
    rw [List.append_nil] at hgood hnd
    refine ⟨?_, ?_, ?_⟩
    · intro _
      obtain ⟨h1, h2, h3⟩ := probeIns_place_nil bk key val pre pd hgood hnd hlen hpd
        (by intro j hj1 hj2; obtain ⟨d2, k2, v2, hj, hb, hne⟩ := hdesc j hj1 hj2;
            rw [List.append_nil] at hj; exact ⟨d2, k2, v2, hj, hb, hne⟩)
      refine ⟨h1, h2, by rw [List.append_nil]; exact h3, by simp [probeIns],
        by simp [probeIns], by simp⟩
    · intro k0 v0 h
      simp [probeIns] at h
    · intro hf
      have hpd255 : pd = MVM_HASH_MAX_PROBE_DISTANCE := by
        have : (pd == MVM_HASH_MAX_PROBE_DISTANCE) = true := hf
        simpa using this
      have hocc : ∀ j, bk key ≤ j → j < pre.length →
          ∃ e : Nat × K × V, (pre ++ ([] : List (Slot K V)))[j]? = some (some e) := by
        intro j hj1 hj2
        obtain ⟨d2, k2, v2, hj, _, _⟩ := hdesc j hj1 hj2
        exact ⟨(d2, k2, v2), hj⟩
      have hcnt := pairsOf_length_ge_of_occupied (pre ++ []) (bk key) pre.length
        (by simp) hocc
      rw [MVM_HASH_MAX_PROBE_DISTANCE] at hpd255 ⊢
      omega
  | cons s rest ih =>
    intro pre pd hgood hnd hlen hpd hdesc
    cases s with
    | none =>
      refine ⟨?_, ?_, ?_⟩
      · intro _
        obtain ⟨h1, h2, h3⟩ := probeIns_place_gap bk key val pre rest pd hgood hnd hlen hpd hdesc
        exact ⟨h1, h2, h3, by simp [probeIns], by simp [probeIns], by simp [probeIns]⟩
      · intro k0 v0 h
        simp [probeIns] at h
      · intro hf
        have hpd255 : pd = MVM_HASH_MAX_PROBE_DISTANCE := by
          have : (pd == MVM_HASH_MAX_PROBE_DISTANCE) = true := hf
          simpa using this
        have hocc : ∀ j, bk key ≤ j → j < pre.length →
            ∃ e : Nat × K × V, (pre ++ none :: rest)[j]? = some (some e) := by
          intro j hj1 hj2
          obtain ⟨d2, k2, v2, hj, _, _⟩ := hdesc j hj1 hj2
          exact ⟨(d2, k2, v2), hj⟩
        have hcnt := pairsOf_length_ge_of_occupied (pre ++ none :: rest) (bk key) pre.length
          (by simp) hocc
        rw [MVM_HASH_MAX_PROBE_DISTANCE] at hpd255 ⊢
        omega
    | some e =>
      obtain ⟨d, k, v⟩ := e
      by_cases hdlt : d < pd
      · -- make room
        have hmr := probeIns_make_room bk key val pre rest pd d k v hgood hnd hlen hpd
          hdesc hdlt
        obtain ⟨h1, h2, h3, h4, h5, h6, h7⟩ := hmr
        refine ⟨?_, ?_, ?_⟩
        · intro _
          have hr : (probeIns key val (some (d, k, v) :: rest) pd).1 =
              some (pd, key, val) :: (shiftChain (d + 1, k, v) rest).1 := by
            rw [probeIns, if_pos hdlt]
          rw [hr]
          refine ⟨h1, h2, h3, ?_, ?_, ?_⟩
          · simp only [List.length_cons]
            omega
          · simp only [List.length_cons]
            omega
          · intro hnone
            have hnr : none ∈ rest := by
              rcases List.mem_cons.mp hnone with h | h
              · exact absurd h.symm (by simp)
              · exact h
            simp only [List.length_cons]
            rw [h6 hnr]
        · intro k0 v0 h
          rw [probeIns, if_pos hdlt] at h
          simp at h
        · intro hf
          rw [probeIns, if_pos hdlt] at hf
          exact h7 hf
      · by_cases heq : d = pd ∧ k = key
        · -- existing entry found
          refine ⟨?_, ?_, ?_⟩
          · intro h
            rw [probeIns, if_neg hdlt, if_pos heq] at h
            simp at h
          · intro k0 v0 h
            have hr : probeIns key val (some (d, k, v) :: rest) pd =
                (some (d, k, v) :: rest, InsOutcome.existing k v, false) := by
              rw [probeIns, if_neg hdlt, if_pos heq]
            rw [hr] at h ⊢
            simp only [InsOutcome.existing.injEq] at h
            refine ⟨rfl, h.1.symm.trans heq.2, rfl, pre.length, d, ?_⟩
            rw [getElem?_append_ge _ _ _ (Nat.le_refl _), Nat.sub_self]
            rw [heq.2] at h ⊢
            rw [← h.2]
            simp
          · intro hf
            rw [probeIns, if_neg hdlt, if_pos heq] at hf
            simp at hf
        · -- advance
          have hLeq : (pre ++ [some (d, k, v)]) ++ rest = pre ++ some (d, k, v) :: rest := by
            simp
          have hLp0 : (pre ++ some (d, k, v) :: rest)[pre.length]? =
              some (some (d, k, v)) := by
            rw [getElem?_append_ge _ _ _ (Nat.le_refl _), Nat.sub_self]
            simp
          obtain ⟨hbkk, hlawk, _⟩ := hgood pre.length d k v hLp0
          have hkne : k ≠ key := by
            intro hkk
            have : bk k = bk key := congrArg bk hkk
            exact heq ⟨by omega, hkk⟩
          have hdesc2 : ∀ j, bk key ≤ j → j < (pre ++ [some (d, k, v)]).length →
              ∃ (d2 : Nat) (k2 : K) (v2 : V),
                ((pre ++ [some (d, k, v)]) ++ rest)[j]? = some (some (d2, k2, v2)) ∧
                bk k2 ≤ bk key ∧ k2 ≠ key := by
            intro j hj1 hj2
            rw [List.length_append, List.length_singleton] at hj2
            by_cases hc : j < pre.length
            · obtain ⟨d2, k2, v2, hj, hb, hne⟩ := hdesc j hj1 hc
              exact ⟨d2, k2, v2, by rw [hLeq]; exact hj, hb, hne⟩
            · have hjeq : j = pre.length := by omega
              subst hjeq
              refine ⟨d, k, v, by rw [hLeq]; exact hLp0, by omega, hkne⟩
          have hih := ih (pre ++ [some (d, k, v)]) (pd + 1)
            (by rw [hLeq]; exact hgood) (by rw [hLeq]; exact hnd)
            (by rw [List.length_append, List.length_singleton]; omega) (by omega) hdesc2
          obtain ⟨ihf, ihe, ihflag⟩ := hih
          have hr1 : (probeIns key val (some (d, k, v) :: rest) pd).1 =
              some (d, k, v) :: (probeIns key val rest (pd + 1)).1 := by
            rw [probeIns, if_neg hdlt, if_neg heq]
          have hr2 : (probeIns key val (some (d, k, v) :: rest) pd).2.1 =
              (probeIns key val rest (pd + 1)).2.1 := by
            rw [probeIns, if_neg hdlt, if_neg heq]
          have hr3 : (probeIns key val (some (d, k, v) :: rest) pd).2.2 =
              (probeIns key val rest (pd + 1)).2.2 := by
            rw [probeIns, if_neg hdlt, if_neg heq]
          refine ⟨?_, ?_, ?_⟩
          · intro h
            rw [hr2] at h
            obtain ⟨g1, g2, g3, g4, g5, g6⟩ := ihf h
            simp only [List.append_assoc, List.singleton_append] at g1 g2 g3
            rw [hr1]
            refine ⟨g1, g2, g3, ?_, ?_, ?_⟩
            · simp only [List.length_cons]
              omega
            · simp only [List.length_cons]
              omega
            · intro hnone
              have hnr : none ∈ rest := by
                rcases List.mem_cons.mp hnone with h2 | h2
                · exact absurd h2.symm (by simp)
                · exact h2
              simp only [List.length_cons]
              rw [g6 hnr]
          · intro k0 v0 h
            rw [hr2] at h
            obtain ⟨g1, g2, g3, i, dd, g4⟩ := ihe k0 v0 h
            simp only [List.append_assoc, List.singleton_append] at g4
            exact ⟨by rw [hr1, g1], g2, by rw [hr3]; exact g3, i, dd, g4⟩
          · intro hf
            rw [hr3] at hf
            have h2 := ihflag hf
            simp only [List.append_assoc, List.singleton_append] at h2
            exact h2

end Hash

namespace Hash

theorem hash_insert_internal_eq {K V : Type} [DecidableEq K] (bk : K → Nat)
    (t : HashTable K V) (key : K) (val : V) (h : ¬ t.curItems ≥ t.maxItems) :
    hash_insert_internal bk t key val =
      some ({ officialSize := t.officialSize, keyRightShift := t.keyRightShift,
              maxItems := if (probeIns key val (t.slots.drop (bk key)) 1).2.2 then 0
                else t.maxItems,
              curItems := t.curItems,
              slots := t.slots.take (bk key) ++ (probeIns key val (t.slots.drop (bk key)) 1).1 },
            (probeIns key val (t.slots.drop (bk key)) 1).2.1) := by
  rw [hash_insert_internal, if_neg h]

/-- Table-level specification of `hash_insert_internal` under the
representation invariant, a free slot in the capacity budget, and fewer
than 254 stored entries (which keeps the saturation flag clear). -/
theorem hash_insert_internal_spec {K V : Type} [DecidableEq K] (bk : K → Nat)
    (t : HashTable K V) (key : K) (val : V)
    (hgood : good bk t.slots)
    (hnd : (keysOf t.slots).Nodup)
    (hbklt : ∀ k2, bk k2 < t.officialSize)
    (hlenge : t.officialSize + min (t.maxItems - 1) (MVM_HASH_MAX_PROBE_DISTANCE - 1) ≤
      t.slots.length)
    (hguard : t.curItems < t.maxItems)
    (hocc : (pairsOf t.slots).length ≤ 253)
    (hoccg : (pairsOf t.slots).length < min t.maxItems MVM_HASH_MAX_PROBE_DISTANCE) :
    (key ∉ keysOf t.slots →
       ∃ t2, hash_insert_internal bk t key val = some (t2, InsOutcome.fresh) ∧
         good bk t2.slots ∧ (keysOf t2.slots).Nodup ∧
         List.Perm (pairsOf t2.slots) ((key, val) :: pairsOf t.slots) ∧
         t2.officialSize = t.officialSize ∧ t2.keyRightShift = t.keyRightShift ∧
         t2.maxItems = t.maxItems ∧ t2.curItems = t.curItems ∧
         t2.slots.length = t.slots.length) ∧
    (∀ v0, (key, v0) ∈ pairsOf t.slots →
       hash_insert_internal bk t key val = some (t, InsOutcome.existing key v0)) := by
  have hblt := hbklt key
  have hoffle : t.officialSize ≤ t.slots.length := by omega
  have hble : bk key ≤ t.slots.length := by omega
  have hTD : t.slots.take (bk key) ++ t.slots.drop (bk key) = t.slots :=
    List.take_append_drop _ _
  have hprelen : (t.slots.take (bk key)).length = bk key := by
    rw [List.length_take]
    omega
  have hspec := probeIns_spec bk key val (t.slots.drop (bk key)) (t.slots.take (bk key)) 1
    (by rw [hTD]; exact hgood) (by rw [hTD]; exact hnd) (by omega) (Nat.le_refl 1)
    (by intro j hj1 hj2; rw [hprelen] at hj2; omega)
  obtain ⟨PF, PE, PFlag⟩ := hspec
  rw [hTD] at PF PE PFlag
  have hflagfalse : (probeIns key val (t.slots.drop (bk key)) 1).2.2 = false := by
    by_contra hc
    have h1 := PFlag (by
      cases h2 : (probeIns key val (t.slots.drop (bk key)) 1).2.2
      · exact absurd h2 hc
      · rfl)
    rw [MVM_HASH_MAX_PROBE_DISTANCE] at h1
    omega
  have hsuflen : (pairsOf (t.slots.drop (bk key))).length < (t.slots.drop (bk key)).length := by
    have hsplit : pairsOf t.slots =
        pairsOf (t.slots.take (bk key)) ++ pairsOf (t.slots.drop (bk key)) := by
      conv_lhs => rw [← hTD]
      rw [pairsOf_append]
    have h1 : (pairsOf (t.slots.drop (bk key))).length ≤ (pairsOf t.slots).length := by
      rw [hsplit, List.length_append]
      omega
    rw [List.length_drop]
    rw [MVM_HASH_MAX_PROBE_DISTANCE] at hlenge hoccg
    omega
  have hgap : none ∈ t.slots.drop (bk key) := gap_exists _ hsuflen
  constructor
  · intro hknotin
    have hfr : (probeIns key val (t.slots.drop (bk key)) 1).2.1 = InsOutcome.fresh := by
      rcases h2 : (probeIns key val (t.slots.drop (bk key)) 1).2.1 with _ | ⟨k0, v0⟩
      · rfl
      · obtain ⟨_, hk0, _, i, dd, hst⟩ := PE k0 v0 h2
        exact absurd (stored_mem_keys _ i dd key _ hst) hknotin
    obtain ⟨g1, g2, g3, g4, g5, g6⟩ := PF hfr
    rw [hash_insert_internal_eq bk t key val (by omega), hflagfalse, if_neg (by simp), hfr]
    refine ⟨_, rfl, g1, g2, g3, rfl, rfl, rfl, rfl, ?_⟩
    simp only [List.length_append]
    rw [g6 hgap, hprelen, List.length_drop]
    omega
  · intro v0 hmem
    have hex : (probeIns key val (t.slots.drop (bk key)) 1).2.1 =
        InsOutcome.existing key v0 := by
      rcases h2 : (probeIns key val (t.slots.drop (bk key)) 1).2.1 with _ | ⟨k0, v0'⟩
      · exfalso
        obtain ⟨_, g2, g3, _, _, _⟩ := PF h2
        have hkp : List.Perm (keysOf (t.slots.take (bk key) ++
            (probeIns key val (t.slots.drop (bk key)) 1).1)) (key :: keysOf t.slots) := by
          unfold keysOf
          have := g3.map Prod.fst
          simpa using this
        have hnd2 := hkp.nodup_iff.mp g2
        have hkin : key ∈ keysOf t.slots := by
          unfold keysOf
          exact List.mem_map.mpr ⟨(key, v0), hmem, rfl⟩
        exact (List.nodup_cons.mp hnd2).1 hkin
      · obtain ⟨_, hk0, _, i, dd, hst⟩ := PE k0 v0' h2
        obtain ⟨i2, dd2, hst2⟩ := pairs_mem_stored t.slots key v0 hmem
        have hieq : i = i2 := stored_unique t.slots hnd i i2 dd dd2 key v0' v0 hst hst2
        rw [hieq, hst2] at hst
        simp only [Option.some.injEq, Prod.mk.injEq] at hst
        rw [hk0, hst.2.2]
    obtain ⟨hr1, _, _, _⟩ := PE key v0 hex
    rw [hash_insert_internal_eq bk t key val (by omega), hflagfalse, if_neg (by simp), hex,
      hr1, hTD]

/-- `finishInsert` (the shared tail of the `lvalue_fetch` functions):
specification under the invariant. -/
theorem finishInsert_spec {K V : Type} [DecidableEq K] (bk : K → Nat)
    (t : HashTable K V) (key : K) (val : V)
    (hgood : good bk t.slots)
    (hnd : (keysOf t.slots).Nodup)
    (hbklt : ∀ k2, bk k2 < t.officialSize)
    (hlenge : t.officialSize + min (t.maxItems - 1) (MVM_HASH_MAX_PROBE_DISTANCE - 1) ≤
      t.slots.length)
    (hguard : t.curItems < t.maxItems)
    (hocc : (pairsOf t.slots).length ≤ 253)
    (hoccg : (pairsOf t.slots).length < min t.maxItems MVM_HASH_MAX_PROBE_DISTANCE) :
    (key ∉ keysOf t.slots →
       ∃ t2, finishInsert bk t key val = some (t2, InsOutcome.fresh) ∧
         good bk t2.slots ∧ (keysOf t2.slots).Nodup ∧
         List.Perm (pairsOf t2.slots) ((key, val) :: pairsOf t.slots) ∧
         t2.officialSize = t.officialSize ∧ t2.keyRightShift = t.keyRightShift ∧
         t2.maxItems = t.maxItems ∧ t2.curItems = t.curItems + 1 ∧
         t2.slots.length = t.slots.length) ∧
    (∀ v0, (key, v0) ∈ pairsOf t.slots →
       finishInsert bk t key val = some (t, InsOutcome.existing key v0)) := by
  obtain ⟨HF, HE⟩ := hash_insert_internal_spec bk t key val hgood hnd hbklt hlenge hguard
    hocc hoccg
  constructor
  · intro hknotin
    obtain ⟨t2, heq, g1, g2, g3, g4, g5, g6, g7, g8⟩ := HF hknotin
    refine ⟨{ t2 with curItems := t2.curItems + 1 }, ?_, g1, g2, g3, g4, g5, g6,
      by simp [g7], g8⟩
    rw [finishInsert, heq]
    rfl
  · intro v0 hmem
    rw [finishInsert, HE v0 hmem]
    rfl

end Hash

namespace Hash

/-- The reinsertion loop shared by both grow paths: folding the live
entries of an old slot array into a fresh table in slot order, with
`cur_items` untouched, preserves the invariant and accumulates exactly the
old pairs. -/
theorem reinsert_fold_spec {K V : Type} [DecidableEq K] (bk2 : K → Nat) :
    ∀ (rem : List (Slot K V)) (acc : HashTable K V) (proc : List (K × V)),
    good bk2 acc.slots →
    (keysOf acc.slots).Nodup →
    List.Perm (pairsOf acc.slots) proc →
    (∀ k2, bk2 k2 < acc.officialSize) →
    acc.officialSize + min (acc.maxItems - 1) (MVM_HASH_MAX_PROBE_DISTANCE - 1) ≤
      acc.slots.length →
    acc.curItems < acc.maxItems →
    proc.length + (pairsOf rem).length ≤ 254 →
    proc.length + (pairsOf rem).length ≤ acc.maxItems →
    ((proc ++ pairsOf rem).map Prod.fst).Nodup →
    ∃ t2, rem.foldlM (reinsertStep bk2) acc = some t2 ∧
      good bk2 t2.slots ∧ (keysOf t2.slots).Nodup ∧
      List.Perm (pairsOf t2.slots) (proc ++ pairsOf rem) ∧
      t2.officialSize = acc.officialSize ∧ t2.keyRightShift = acc.keyRightShift ∧
      t2.maxItems = acc.maxItems ∧ t2.curItems = acc.curItems ∧
      t2.slots.length = acc.slots.length := by
  intro rem
  induction rem with
  | nil =>
    intro acc proc hgood hnd hperm hbklt hlenge hguard h254 hbud hndall
    refine ⟨acc, rfl, hgood, hnd, ?_, rfl, rfl, rfl, rfl, rfl⟩
    rw [pairsOf_nil, List.append_nil]
    exact hperm
  | cons s rem' ih =>
    intro acc proc hgood hnd hperm hbklt hlenge hguard h254 hbud hndall
    cases s with
    | none =>
      rw [pairsOf_cons_none] at h254 hbud hndall ⊢
      obtain ⟨t2, hfold, g1, g2, g3, g4, g5, g6, g7, g8⟩ :=
        ih acc proc hgood hnd hperm hbklt hlenge hguard h254 hbud hndall
      exact ⟨t2, by rw [List.foldlM_cons]; exact hfold, g1, g2, g3, g4, g5, g6, g7, g8⟩
    | some e =>
      obtain ⟨dd, k, v⟩ := e
      rw [pairsOf_cons_some] at h254 hbud hndall ⊢
      have hproclen : (pairsOf acc.slots).length = proc.length := hperm.length_eq
      have hkfst : ((proc ++ (k, v) :: pairsOf rem').map Prod.fst) =
          proc.map Prod.fst ++ k :: (pairsOf rem').map Prod.fst := by
        rw [List.map_append, List.map_cons]
      rw [hkfst] at hndall
      obtain ⟨hnd1, hnd2, hdisj⟩ := List.nodup_append.mp hndall
      have hknotin : k ∉ keysOf acc.slots := by
        intro hmem
        have hmem2 : k ∈ proc.map Prod.fst := by
          have := (hperm.map Prod.fst).mem_iff.mp hmem
          exact this
        exact hdisj hmem2 (List.mem_cons_self _ _)
      have hMAX : MVM_HASH_MAX_PROBE_DISTANCE = 255 := rfl
      obtain ⟨HF, _⟩ := hash_insert_internal_spec bk2 acc k v hgood hnd hbklt hlenge hguard
        (by simp only [List.length_cons] at h254; omega)
        (by simp only [List.length_cons] at h254 hbud; rw [hMAX]; omega)
      obtain ⟨t2, heq, g1, g2, g3, g4, g5, g6, g7, g8⟩ := HF hknotin
      have hstep : (hash_insert_internal bk2 acc k v).map (fun r => r.1) = some t2 := by
        rw [heq]
        rfl
      have hperm2 : List.Perm (pairsOf t2.slots) (proc ++ [(k, v)]) :=
        g3.trans ((hperm.cons (k, v)).trans (List.perm_append_singleton _ _).symm)
      have hihnd : (((proc ++ [(k, v)]) ++ pairsOf rem').map Prod.fst).Nodup := by
        rw [List.append_assoc, List.singleton_append, hkfst]
        exact hndall
      obtain ⟨t3, hfold, f1, f2, f3, f4, f5, f6, f7, f8⟩ :=
        ih t2 (proc ++ [(k, v)]) g1 g2 hperm2
          (by rw [g4]; exact hbklt)
          (by rw [g4, g6, g8]; exact hlenge)
          (by rw [g6, g7]; exact hguard)
          (by simp only [List.length_append, List.length_singleton, List.length_nil,
                List.length_cons] at h254 ⊢; omega)
          (by simp only [List.length_append, List.length_singleton, List.length_nil,
                List.length_cons] at hbud ⊢; rw [g6]; omega)
          hihnd
      refine ⟨t3, ?_, f1, f2, ?_, ?_, ?_, ?_, ?_, ?_⟩
      · rw [List.foldlM_cons]
        dsimp only [reinsertStep]
        rw [hstep]
        exact hfold
      · refine f3.trans ?_
        rw [List.append_assoc, List.singleton_append]
      · rw [f4, g4]
      · rw [f5, g5]
      · rw [f6, g6]
      · rw [f7, g7]
      · rw [f8, g8]

end Hash

namespace Hash

theorem ptrBucket_lt (s e : Nat) (hse : s + e = 64) (k : Nat) :
    ptrBucket s k < 2 ^ e := by
  unfold ptrBucket MVM_ptr_hash_code
  have h1 : k * 11400714819323198485 % 2 ^ 64 < 2 ^ 64 := Nat.mod_lt _ (by norm_num)
  rw [Nat.div_lt_iff_lt_mul (Nat.pos_pow_of_pos s (by norm_num))]
  calc k * 11400714819323198485 % 2 ^ 64 < 2 ^ 64 := h1
    _ = 2 ^ e * 2 ^ s := by rw [← pow_add]; congr 1; omega

theorem hash_true_size_eq (x m : Nat) (hm : 1 ≤ m) :
    hash_true_size x m = x + min (m - 1) MVM_HASH_MAX_PROBE_DISTANCE := by
  rw [show hash_true_size x m =
    if x + MVM_HASH_MAX_PROBE_DISTANCE < x + m - 1 then x + MVM_HASH_MAX_PROBE_DISTANCE
    else x + m - 1 from rfl]
  rw [show MVM_HASH_MAX_PROBE_DISTANCE = 255 from rfl]
  by_cases h2 : x + 255 < x + m - 1
  · rw [if_pos h2, Nat.min_eq_right (show (255 : Nat) ≤ m - 1 by omega)]
  · rw [if_neg h2]
    rcases Nat.le_total (m - 1) 255 with h | h
    · rw [Nat.min_eq_left h]
      omega
    · rw [Nat.min_eq_right h]
      omega

/-- `hash_grow` plus the reinsertion loop: the doubled table satisfies the
invariant for the same pair list, keeps `cur_items`, and has free
capacity. -/
theorem ptr_grow_reinsert_spec {V : Type} (t : HashTable Nat V) (ins : List (Nat × V))
    (hOk : PtrOk t ins) (hcount : t.curItems = ins.length)
    (hcap : t.curItems = t.maxItems) (h254 : ins.length ≤ 254) :
    ∃ t2, ptr_grow_reinsert t = some t2 ∧ PtrOk t2 ins ∧ t2.curItems = t.curItems ∧
      t2.officialSize = t.officialSize * 2 ∧ t2.curItems < t2.maxItems := by
  obtain ⟨⟨hgood, hnd, hperm, hbklt, hlenge⟩, hmax, hpow, h55, h61⟩ := hOk
  have h56 : 56 ≤ t.keyRightShift := by
    by_contra hc
    have h55e : t.keyRightShift = 55 := by omega
    rw [h55e] at hpow
    norm_num at hpow
    rw [hpow] at hmax
    norm_num at hmax
    omega
  have he2 : 64 - t.keyRightShift = (64 - t.keyRightShift - 2) + 2 := by omega
  obtain ⟨m, hm, hm2⟩ : ∃ m, t.officialSize = 4 * m ∧ 2 ≤ m := by
    refine ⟨2 ^ (64 - t.keyRightShift - 2), ?_, ?_⟩
    · rw [hpow]
      conv_lhs => rw [he2]
      rw [pow_add, show (2 : Nat) ^ 2 = 4 from rfl]
      ring
    · have : (1 : Nat) ≤ 64 - t.keyRightShift - 2 := by omega
      calc (2 : Nat) = 2 ^ 1 := by norm_num
        _ ≤ 2 ^ (64 - t.keyRightShift - 2) := Nat.pow_le_pow_right (by norm_num) this
  have hmaxm : t.maxItems = 3 * m := by rw [hmax, hm]; omega
  have harith1 : t.officialSize * 2 = 2 ^ (64 - (t.keyRightShift - 1)) := by
    rw [hpow, show 64 - (t.keyRightShift - 1) = (64 - t.keyRightShift) + 1 by omega,
      pow_succ]
  have hg0 : (hash_allocate_common (t.officialSize * 2) (t.keyRightShift - 1) t.curItems :
      HashTable Nat V) =
      { officialSize := t.officialSize * 2, keyRightShift := t.keyRightShift - 1,
        maxItems := t.officialSize * 2 * 3 / 4, curItems := t.curItems,
        slots := List.replicate
          (hash_true_size (t.officialSize * 2) (t.officialSize * 2 * 3 / 4)) none } := rfl
  have hmax2 : t.officialSize * 2 * 3 / 4 = 6 * m := by rw [hm]; omega
  have hts : hash_true_size (t.officialSize * 2) (t.officialSize * 2 * 3 / 4) =
      t.officialSize * 2 + min (t.officialSize * 2 * 3 / 4 - 1) 255 := by
    rw [hash_true_size_eq _ _ (by rw [hmax2]; omega)]
    rfl
  have hfold := reinsert_fold_spec (ptrBucket (t.keyRightShift - 1)) t.slots
    (hash_allocate_common (t.officialSize * 2) (t.keyRightShift - 1) t.curItems) []
    (by rw [hg0]; exact good_replicate_none _ _)
    (by rw [hg0]; show (keysOf (List.replicate _ (none : Slot Nat V))).Nodup
        unfold keysOf
        rw [pairsOf_replicate_none]
        exact List.nodup_nil)
    (by rw [hg0]; show List.Perm (pairsOf (List.replicate _ (none : Slot Nat V))) []
        rw [pairsOf_replicate_none])
    (by rw [hg0]
        intro k2
        show ptrBucket (t.keyRightShift - 1) k2 < t.officialSize * 2
        rw [harith1]
        exact ptrBucket_lt _ _ (by omega) k2)
    (by rw [hg0]
        show t.officialSize * 2 + min (t.officialSize * 2 * 3 / 4 - 1)
            (MVM_HASH_MAX_PROBE_DISTANCE - 1) ≤ (List.replicate _ (none : Slot Nat V)).length
        rw [List.length_replicate, hts]
        rw [show MVM_HASH_MAX_PROBE_DISTANCE - 1 = 254 from rfl]
        exact Nat.add_le_add_left (min_le_min (Nat.le_refl _) (by norm_num)) _)
    (by rw [hg0]
        show t.curItems < t.officialSize * 2 * 3 / 4
        rw [hmax2]
        omega)
    (by rw [List.length_nil, hperm.length_eq]
        omega)
    (by rw [hg0, List.length_nil, hperm.length_eq]
        show 0 + ins.length ≤ t.officialSize * 2 * 3 / 4
        rw [hmax2]
        omega)
    (by rw [List.nil_append]
        exact hnd)
  obtain ⟨t2, hfeq, f1, f2, f3, f4, f5, f6, f7, f8⟩ := hfold
  rw [hg0] at f4 f5 f6 f7 f8
  dsimp only at f4 f5 f6 f7 f8
  rw [List.length_replicate] at f8
  refine ⟨t2, hfeq, ?_, f7, ?_, ?_⟩
  · refine ⟨⟨?_, f2, ?_, ?_, ?_⟩, ?_, ?_, ?_, ?_⟩
    · rw [f5]
      exact f1
    · rw [List.nil_append] at f3
      exact f3.trans hperm
    · intro k2
      rw [f5, f4]
      show ptrBucket (t.keyRightShift - 1) k2 < t.officialSize * 2
      rw [harith1]
      exact ptrBucket_lt _ _ (by omega) k2
    · rw [f4, f6, f8, hts]
      rw [show MVM_HASH_MAX_PROBE_DISTANCE - 1 = 254 from rfl]
      exact Nat.add_le_add_left (min_le_min (Nat.le_refl _) (by norm_num)) _
    · rw [f6, f4]
    · rw [f4, f5]
      show t.officialSize * 2 = 2 ^ (64 - (t.keyRightShift - 1))
      exact harith1
    · rw [f5]
      show 55 ≤ t.keyRightShift - 1
      omega
    · rw [f5]
      show t.keyRightShift - 1 ≤ 61
      omega
  · rw [f4]
  · rw [f7, f6, hmax2]
    omega

end Hash

namespace Hash

theorem ptr_lvalue_red {V : Type} (t : HashTable Nat V) (key : Nat) (val : V) :
    MVM_ptr_hash_lvalue_fetch (some t) key val =
      if t.curItems ≥ t.maxItems then
        match probeFetch key (t.slots.drop (ptrBucket t.keyRightShift key)) 1 with
        | some (k, v) => some (t, InsOutcome.existing k v)
        | none =>
          (ptr_grow_reinsert t).bind (fun grown =>
            finishInsert (ptrBucket grown.keyRightShift) grown key val)
      else finishInsert (ptrBucket t.keyRightShift) t key val := rfl

/-- Any pair recorded by the invariant is found by `MVM_ptr_hash_fetch`. -/
theorem MVM_ptr_hash_fetch_mem {V : Type} (t : HashTable Nat V) (ins : List (Nat × V))
    (hOk : PtrOk t ins) (k : Nat) (v : V) (hmem : (k, v) ∈ ins) :
    MVM_ptr_hash_fetch (some t) k = some (k, v) := by
  obtain ⟨⟨hgood, hnd, hperm, hbklt, hlenge⟩, hmax, hpow, h55, h61⟩ := hOk
  have hmem2 : (k, v) ∈ pairsOf t.slots := hperm.mem_iff.mpr hmem
  obtain ⟨i, d, hst⟩ := pairs_mem_stored t.slots k v hmem2
  have hble : ptrBucket t.keyRightShift k ≤ t.slots.length := by
    have := hbklt k
    omega
  have hTD : t.slots.take (ptrBucket t.keyRightShift k) ++
      t.slots.drop (ptrBucket t.keyRightShift k) = t.slots := List.take_append_drop _ _
  have hprelen : (t.slots.take (ptrBucket t.keyRightShift k)).length =
      ptrBucket t.keyRightShift k := by
    rw [List.length_take]
    omega
  have hbi : ptrBucket t.keyRightShift k ≤ i := (hgood i d k v hst).1
  show probeFetch k (t.slots.drop (ptrBucket t.keyRightShift k)) 1 = some (k, v)
  exact probeFetch_finds (ptrBucket t.keyRightShift) k
    (t.slots.drop (ptrBucket t.keyRightShift k))
    (t.slots.take (ptrBucket t.keyRightShift k)) 1
    (by rw [hTD]; exact hgood) (by rw [hTD]; exact hnd) (by omega) (Nat.le_refl 1)
    i d v (by omega) (by rw [hTD]; exact hst)

/-- Step specification of `MVM_ptr_hash_lvalue_fetch` on a live table. -/
theorem ptr_lvalue_step {V : Type} (t : HashTable Nat V) (ins : List (Nat × V))
    (key : Nat) (val : V)
    (hOk : PtrOk t ins) (hcount : t.curItems = ins.length)
    (hcurle : t.curItems ≤ t.maxItems) (h253 : ins.length ≤ 253) :
    (key ∉ ins.map Prod.fst →
      ∃ t2, MVM_ptr_hash_lvalue_fetch (some t) key val = some (t2, InsOutcome.fresh) ∧
        PtrOk t2 ((key, val) :: ins) ∧ t2.curItems = ins.length + 1 ∧
        t2.curItems ≤ t2.maxItems) ∧
    (∀ v0, (key, v0) ∈ ins →
      MVM_ptr_hash_lvalue_fetch (some t) key val = some (t, InsOutcome.existing key v0)) := by
  have hOk2 := hOk
  obtain ⟨⟨hgood, hnd, hperm, hbklt, hlenge⟩, hmax, hpow, h55, h61⟩ := hOk2
  have hocc : (pairsOf t.slots).length = ins.length := hperm.length_eq
  constructor
  · intro hknotins
    have hknotin : key ∉ keysOf t.slots := by
      intro hmem
      apply hknotins
      unfold keysOf at hmem
      exact (hperm.map Prod.fst).mem_iff.mp hmem
    by_cases hcap : t.curItems ≥ t.maxItems
    · -- at capacity: pure miss, grow, insert
      have hmiss : probeFetch key (t.slots.drop (ptrBucket t.keyRightShift key)) 1 = none := by
        rcases hr : probeFetch key (t.slots.drop (ptrBucket t.keyRightShift key)) 1
          with _ | ⟨k2, v2⟩
        · rfl
        · exfalso
          obtain ⟨hk2, i, d, hst⟩ := probeFetch_some key _ 1 k2 v2 hr
          rw [List.getElem?_drop] at hst
          exact hknotin (stored_mem_keys _ _ d key v2 hst)
      obtain ⟨tg, hgeq, hgOk, hgcur, hgoff, hglt⟩ :=
        ptr_grow_reinsert_spec t ins hOk hcount (by omega) (by omega)
      obtain ⟨⟨ggood, gnd, gperm, gbklt, glenge⟩, gmax, gpow, g55, g61⟩ := hgOk
      have hknotin2 : key ∉ keysOf tg.slots := by
        intro hmem
        apply hknotins
        unfold keysOf at hmem
        exact (gperm.map Prod.fst).mem_iff.mp hmem
      obtain ⟨HF, _⟩ := finishInsert_spec (ptrBucket tg.keyRightShift) tg key val
        ggood gnd gbklt glenge (by omega)
        (by rw [gperm.length_eq]; omega)
        (by rw [gperm.length_eq, show MVM_HASH_MAX_PROBE_DISTANCE = 255 from rfl]
            rcases Nat.le_total tg.maxItems 255 with h | h
            · rw [Nat.min_eq_left h]; omega
            · rw [Nat.min_eq_right h]; omega)
      obtain ⟨t2, heq, g1, g2, g3, g4, g5, g6, g7, g8⟩ := HF hknotin2
      refine ⟨t2, ?_, ⟨⟨?_, g2, ?_, ?_, ?_⟩, ?_, ?_, ?_, ?_⟩, ?_, ?_⟩
      · rw [ptr_lvalue_red, if_pos hcap, hmiss, hgeq]
        show finishInsert (ptrBucket tg.keyRightShift) tg key val = _
        rw [heq]
      · rw [g5]; exact g1
      · exact g3.trans (gperm.cons (key, val))
      · intro k2
        rw [g5, g4]
        exact gbklt k2
      · rw [g4, g6, g8]
        exact glenge
      · rw [g6, g4]; exact gmax
      · rw [g4, g5]; exact gpow
      · rw [g5]; exact g55
      · rw [g5]; exact g61
      · rw [g7, hgcur, hcount]
      · rw [g7, g6]
        omega
    · -- below capacity: plain insert
      obtain ⟨HF, _⟩ := finishInsert_spec (ptrBucket t.keyRightShift) t key val
        hgood hnd hbklt hlenge (by omega) (by omega)
        (by rw [hocc, show MVM_HASH_MAX_PROBE_DISTANCE = 255 from rfl]
            rcases Nat.le_total t.maxItems 255 with h | h
            · rw [Nat.min_eq_left h]; omega
            · rw [Nat.min_eq_right h]; omega)
      obtain ⟨t2, heq, g1, g2, g3, g4, g5, g6, g7, g8⟩ := HF hknotin
      refine ⟨t2, ?_, ⟨⟨?_, g2, ?_, ?_, ?_⟩, ?_, ?_, ?_, ?_⟩, ?_, ?_⟩
      · rw [ptr_lvalue_red, if_neg hcap]
        rw [heq]
      · rw [g5]; exact g1
      · exact g3.trans (hperm.cons (key, val))
      · intro k2
        rw [g5, g4]
        exact hbklt k2
      · rw [g4, g6, g8]
        exact hlenge
      · rw [g6, g4]; exact hmax
      · rw [g4, g5]; exact hpow
      · rw [g5]; exact h55
      · rw [g5]; exact h61
      · rw [g7, hcount]
      · rw [g7, g6]
        omega
  · intro v0 hmem
    have hmem2 : (key, v0) ∈ pairsOf t.slots := hperm.mem_iff.mpr hmem
    by_cases hcap : t.curItems ≥ t.maxItems
    · rw [ptr_lvalue_red, if_pos hcap]
      have hfind : probeFetch key (t.slots.drop (ptrBucket t.keyRightShift key)) 1 =
          some (key, v0) := MVM_ptr_hash_fetch_mem t ins hOk key v0 hmem
      rw [hfind]
    · rw [ptr_lvalue_red, if_neg hcap]
      obtain ⟨_, HE⟩ := finishInsert_spec (ptrBucket t.keyRightShift) t key val
        hgood hnd hbklt hlenge (by omega) (by omega)
        (by rw [hocc, show MVM_HASH_MAX_PROBE_DISTANCE = 255 from rfl]
            rcases Nat.le_total t.maxItems 255 with h | h
            · rw [Nat.min_eq_left h]; omega
            · rw [Nat.min_eq_right h]; omega)
      exact HE v0 hmem2

end Hash

namespace Hash

/-- Step specification of `MVM_ptr_hash_insert` on a live table. -/
theorem ptr_insert_step {V : Type} [DecidableEq V] (t : HashTable Nat V)
    (ins : List (Nat × V)) (key : Nat) (val : V)
    (hOk : PtrOk t ins) (hcount : t.curItems = ins.length)
    (hcurle : t.curItems ≤ t.maxItems) (h253 : ins.length ≤ 253) :
    (key ∉ ins.map Prod.fst →
      ∃ t2, MVM_ptr_hash_insert (some t) key val = some (some t2) ∧
        PtrOk t2 ((key, val) :: ins) ∧ t2.curItems = ins.length + 1 ∧
        t2.curItems ≤ t2.maxItems) ∧
    (∀ v0, (key, v0) ∈ ins →
      (val = v0 → MVM_ptr_hash_insert (some t) key val = some (some t)) ∧
      (val ≠ v0 → MVM_ptr_hash_insert (some t) key val = none)) := by
  obtain ⟨HF, HE⟩ := ptr_lvalue_step t ins key val hOk hcount hcurle h253
  constructor
  · intro hknot
    obtain ⟨t2, heq, hOk2, hcur2, hle2⟩ := HF hknot
    refine ⟨t2, ?_, hOk2, hcur2, hle2⟩
    rw [MVM_ptr_hash_insert, heq]
    rfl
  · intro v0 hmem
    constructor
    · intro hveq
      rw [MVM_ptr_hash_insert, HE v0 hmem]
      show (if val ≠ v0 then none else some (some t)) = some (some t)
      rw [if_neg (by simp [hveq])]
    · intro hvne
      rw [MVM_ptr_hash_insert, HE v0 hmem]
      show (if val ≠ v0 then none else some (some t)) = none
      rw [if_pos hvne]

/-- The first insertion into a NULL ptr hash builds the initial table. -/
theorem ptr_insert_none {V : Type} [DecidableEq V] (key : Nat) (val : V) :
    ∃ t2 : HashTable Nat V, MVM_ptr_hash_insert none key val = some (some t2) ∧
      PtrOk t2 [(key, val)] ∧ t2.curItems = 1 ∧ t2.curItems ≤ t2.maxItems := by
  have hg0 : (hash_initial_allocate : HashTable Nat V) =
      { officialSize := 8, keyRightShift := 61, maxItems := 6, curItems := 0,
        slots := List.replicate 13 none } := rfl
  obtain ⟨HF, _⟩ := finishInsert_spec (ptrBucket 61) (hash_initial_allocate : HashTable Nat V)
    key val
    (by rw [hg0]; exact good_replicate_none _ _)
    (by rw [hg0]
        show (keysOf (List.replicate 13 (none : Slot Nat V))).Nodup
        unfold keysOf
        rw [pairsOf_replicate_none]
        exact List.nodup_nil)
    (by rw [hg0]
        intro k2
        show ptrBucket 61 k2 < 8
        exact ptrBucket_lt 61 3 (by norm_num) k2)
    (by rw [hg0]
        show 8 + min (6 - 1) (MVM_HASH_MAX_PROBE_DISTANCE - 1) ≤
          (List.replicate 13 (none : Slot Nat V)).length
        rw [List.length_replicate]
        decide)
    (by rw [hg0]; show (0 : Nat) < 6; norm_num)
    (by rw [hg0]
        show (pairsOf (List.replicate 13 (none : Slot Nat V))).length ≤ 253
        rw [pairsOf_replicate_none, List.length_nil]
        norm_num)
    (by rw [hg0]
        show (pairsOf (List.replicate 13 (none : Slot Nat V))).length <
          min 6 MVM_HASH_MAX_PROBE_DISTANCE
        rw [pairsOf_replicate_none, List.length_nil]
        decide)
  obtain ⟨t2, heq, g1, g2, g3, g4, g5, g6, g7, g8⟩ := HF
    (by rw [hg0]
        show key ∉ keysOf (List.replicate 13 (none : Slot Nat V))
        unfold keysOf
        rw [pairsOf_replicate_none]
        exact List.not_mem_nil key)
  rw [hg0] at g3 g4 g5 g6 g7 g8
  dsimp only at g3 g4 g5 g6 g7 g8
  refine ⟨t2, ?_, ⟨⟨?_, g2, ?_, ?_, ?_⟩, ?_, ?_, ?_, ?_⟩, ?_, ?_⟩
  · rw [show MVM_ptr_hash_insert (none : Option (HashTable Nat V)) key val =
      (finishInsert (ptrBucket 61) hash_initial_allocate key val).bind (fun r =>
        match r.2 with
        | InsOutcome.fresh => some (some r.1)
        | InsOutcome.existing _ v0 => if val ≠ v0 then none else some (some r.1)) from rfl]
    rw [heq]
    rfl
  · rw [g5]
    exact g1
  · refine g3.trans ?_
    rw [pairsOf_replicate_none]
  · intro k2
    rw [g5, g4]
    exact ptrBucket_lt 61 3 (by norm_num) k2
  · rw [g4, g6, g8, List.length_replicate]
    decide
  · rw [g6, g4]
  · rw [g4, g5]
    decide
  · rw [g5]
    norm_num
  · rw [g5]
  · rw [g7]
  · rw [g7, g6]
    norm_num

/-- The unconditional-insert fold maintains the table-pointer invariant. -/
theorem ptr_insert_list_fold {V : Type} [DecidableEq V] :
    ∀ (ps : List (Nat × V)) (acc : Option (HashTable Nat V)) (ins : List (Nat × V)),
    PtrState acc ins →
    (ins.map Prod.fst ++ ps.map Prod.fst).Nodup →
    ins.length + ps.length ≤ 254 →
    ∃ acc2, ps.foldlM (fun a p => MVM_ptr_hash_insert a p.1 p.2) acc = some acc2 ∧
      PtrState acc2 (ps.reverse ++ ins) := by
  intro ps
  induction ps with
  | nil =>
    intro acc ins hstate hnd hlen
    exact ⟨acc, rfl, by rw [List.reverse_nil, List.nil_append]; exact hstate⟩
  | cons p ps' ih =>
    intro acc ins hstate hnd hlen
    obtain ⟨k, v⟩ := p
    cases acc with
    | none =>
      have hins : ins = [] := hstate
      subst hins
      obtain ⟨t2, heq, hOk2, hcur2, hle2⟩ := @ptr_insert_none V _ k v
      obtain ⟨acc2, hfold, hst2⟩ := ih (some t2) [(k, v)] ⟨hOk2, by rw [hcur2]; rfl, hle2⟩
        (by simpa using hnd) (by simp only [List.length_singleton]; simp at hlen ⊢; omega)
      refine ⟨acc2, ?_, ?_⟩
      · rw [List.foldlM_cons]
        show (MVM_ptr_hash_insert none k v >>= fun a =>
          ps'.foldlM (fun a p => MVM_ptr_hash_insert a p.1 p.2) a) = some acc2
        rw [heq]
        exact hfold
      · rw [List.reverse_cons, List.append_nil]
        exact hst2
    | some t =>
      obtain ⟨hOk, hcount, hle⟩ := hstate
      have hknot : k ∉ ins.map Prod.fst := by
        intro hmem
        rw [List.map_cons] at hnd
        obtain ⟨_, _, hdisj⟩ := List.nodup_append.mp hnd
        exact hdisj hmem (List.mem_cons_self _ _)
      have h253 : ins.length ≤ 253 := by
        simp only [List.length_cons] at hlen
        omega
      obtain ⟨HF, _⟩ := ptr_insert_step t ins k v hOk hcount hle h253
      obtain ⟨t2, heq, hOk2, hcur2, hle2⟩ := HF hknot
      obtain ⟨acc2, hfold, hst2⟩ := ih (some t2) ((k, v) :: ins)
        ⟨hOk2, by rw [hcur2]; simp, hle2⟩
        (by rw [List.map_cons, List.cons_append]
            rw [List.map_cons] at hnd
            exact (List.perm_middle.nodup_iff).mp hnd)
        (by simp only [List.length_cons] at hlen ⊢; omega)
      refine ⟨acc2, ?_, ?_⟩
      · rw [List.foldlM_cons]
        show (MVM_ptr_hash_insert (some t) k v >>= fun a =>
          ps'.foldlM (fun a p => MVM_ptr_hash_insert a p.1 p.2) a) = some acc2
        rw [heq]
        exact hfold
      · rw [List.reverse_cons, List.append_assoc, List.singleton_append]
        exact hst2

end Hash

namespace Hash

/-- C5: For the pointer hash table, after inserting any list of at most 254
distinct keys (each insertion reported fresh and counted; no deletions),
`MVM_ptr_hash_fetch` returns, for every inserted key, the entry holding
that key and its value — across any grows the insertions triggered — and
the final table stores exactly the inserted pairs, so grows preserve the
key set and the associated values. -/
theorem ptr_hash_insert_fetch {V : Type} [DecidableEq V] (pairs : List (Nat × V))
    (hnd : (pairs.map Prod.fst).Nodup) (hlen : pairs.length ≤ 254) :
    ∃ acc, ptr_hash_insert_list pairs = some acc ∧
      (∀ p ∈ pairs, MVM_ptr_hash_fetch acc p.1 = some (p.1, p.2)) ∧
      (∀ t, acc = some t → List.Perm (pairsOf t.slots) pairs) := by
  obtain ⟨acc2, hfold, hstate⟩ := ptr_insert_list_fold pairs none [] rfl
    (by simpa using hnd) (by simpa using hlen)
  rw [List.append_nil] at hstate
  refine ⟨acc2, hfold, ?_, ?_⟩
  · intro p hp
    obtain ⟨k, v⟩ := p
    cases acc2 with
    | none =>
      exfalso
      have hrev : pairs.reverse = [] := hstate
      rw [List.reverse_eq_nil_iff] at hrev
      rw [hrev] at hp
      exact absurd hp (List.not_mem_nil _)
    | some t =>
      obtain ⟨hOk, _, _⟩ := hstate
      exact MVM_ptr_hash_fetch_mem t _ hOk k v (by rw [List.mem_reverse]; exact hp)
  · intro t ht
    cases acc2 with
    | none => exact absurd ht (by simp)
    | some t2 =>
      obtain ⟨⟨⟨_, _, hperm, _, _⟩, _, _, _, _⟩, _, _⟩ := hstate
      have ht2 : t2 = t := by simpa using ht
      subst ht2
      exact hperm.trans pairs.reverse_perm

theorem ptr_hash_insert_fetch_witness :
    ((([(1, 10), (2, 20), (3, 30), (4, 40), (5, 50), (6, 60), (7, 70)] :
        List (Nat × Nat)).map Prod.fst).Nodup ∧
      ([(1, 10), (2, 20), (3, 30), (4, 40), (5, 50), (6, 60), (7, 70)] :
        List (Nat × Nat)).length ≤ 254) ∧
    ∃ acc, ptr_hash_insert_list
        ([(1, 10), (2, 20), (3, 30), (4, 40), (5, 50), (6, 60), (7, 70)] :
          List (Nat × Nat)) = some acc ∧
      (∀ p ∈ ([(1, 10), (2, 20), (3, 30), (4, 40), (5, 50), (6, 60), (7, 70)] :
          List (Nat × Nat)), MVM_ptr_hash_fetch acc p.1 = some (p.1, p.2)) ∧
      (∀ t, acc = some t → List.Perm (pairsOf t.slots)
        ([(1, 10), (2, 20), (3, 30), (4, 40), (5, 50), (6, 60), (7, 70)] :
          List (Nat × Nat))) :=
  ⟨⟨by decide, by decide⟩, ptr_hash_insert_fetch _ (by decide) (by decide)⟩

end Hash

namespace Hash

theorem uniBucket_lt {K : Type} (hashFn : K → Nat) (s e : Nat) (hse : s + e = 32) (k : K) :
    uniBucket hashFn s k < 2 ^ e := by
  unfold uniBucket
  have h1 : hashFn k % 2 ^ 32 < 2 ^ 32 := Nat.mod_lt _ (by norm_num)
  rw [Nat.div_lt_iff_lt_mul (Nat.pos_pow_of_pos s (by norm_num))]
  calc hashFn k % 2 ^ 32 < 2 ^ 32 := h1
    _ = 2 ^ e * 2 ^ s := by rw [← pow_add]; congr 1; omega

theorem uni_probe_overflow_ge (m : Nat) :
    min (m - 1) (MVM_HASH_MAX_PROBE_DISTANCE - 1) ≤ uni_probe_overflow m := by
  rw [show uni_probe_overflow m =
    if MVM_HASH_MAX_PROBE_DISTANCE < m - 1 then MVM_HASH_MAX_PROBE_DISTANCE - 1
    else m - 1 from rfl]
  rw [show MVM_HASH_MAX_PROBE_DISTANCE = 255 from rfl]
  rcases Nat.le_total (m - 1) 254 with h | h
  · rw [Nat.min_eq_left h]
    split <;> omega
  · rw [Nat.min_eq_right h]
    split <;> omega

/-- The uni grow path: fresh doubled control (with `cur_items` copied over)
plus reinsertion, preserving the invariant. -/
theorem uni_grow_reinsert_spec {K V : Type} [DecidableEq K] (hashFn : K → Nat)
    (t : HashTable K V) (ins : List (K × V))
    (hOk : UniOk hashFn t ins) (hcount : t.curItems = ins.length)
    (hcap : t.curItems = t.maxItems) (h254 : ins.length ≤ 254) :
    ∃ t2, uni_grow_reinsert hashFn t = some t2 ∧ UniOk hashFn t2 ins ∧
      t2.curItems = t.curItems ∧ t2.officialSize = t.officialSize * 2 ∧
      t2.curItems < t2.maxItems := by
  obtain ⟨⟨hgood, hnd, hperm, hbklt, hlenge⟩, hmax, hpow, h23, h29⟩ := hOk
  have h24 : 24 ≤ t.keyRightShift := by
    by_contra hc
    have h23e : t.keyRightShift = 23 := by omega
    rw [h23e] at hpow
    norm_num at hpow
    rw [hpow] at hmax
    norm_num at hmax
    omega
  have he2 : 32 - t.keyRightShift = (32 - t.keyRightShift - 2) + 2 := by omega
  obtain ⟨m, hm, hm2⟩ : ∃ m, t.officialSize = 4 * m ∧ 2 ≤ m := by
    refine ⟨2 ^ (32 - t.keyRightShift - 2), ?_, ?_⟩
    · rw [hpow]
      conv_lhs => rw [he2]
      rw [pow_add, show (2 : Nat) ^ 2 = 4 from rfl]
      ring
    · have h1 : (1 : Nat) ≤ 32 - t.keyRightShift - 2 := by omega
      calc (2 : Nat) = 2 ^ 1 := by norm_num
        _ ≤ 2 ^ (32 - t.keyRightShift - 2) := Nat.pow_le_pow_right (by norm_num) h1
  have hmaxm : t.maxItems = 3 * m := by rw [hmax, hm]; omega
  have harith1 : t.officialSize * 2 = 2 ^ (32 - (t.keyRightShift - 1)) := by
    rw [hpow, show 32 - (t.keyRightShift - 1) = (32 - t.keyRightShift) + 1 by omega,
      pow_succ]
  have hg0 : ({ (uni_hash_allocate_common (t.keyRightShift - 1) (t.officialSize * 2) :
      HashTable K V) with curItems := t.curItems }) =
      { officialSize := t.officialSize * 2, keyRightShift := t.keyRightShift - 1,
        maxItems := t.officialSize * 2 * 3 / 4, curItems := t.curItems,
        slots := List.replicate
          (t.officialSize * 2 + uni_probe_overflow (t.officialSize * 2 * 3 / 4)) none } := rfl
  have hmax2 : t.officialSize * 2 * 3 / 4 = 6 * m := by rw [hm]; omega
  have hfold := reinsert_fold_spec (uniBucket hashFn (t.keyRightShift - 1)) t.slots
    ({ (uni_hash_allocate_common (t.keyRightShift - 1) (t.officialSize * 2) :
      HashTable K V) with curItems := t.curItems }) []
    (by rw [hg0]; exact good_replicate_none _ _)
    (by rw [hg0]; show (keysOf (List.replicate _ (none : Slot K V))).Nodup
        unfold keysOf
        rw [pairsOf_replicate_none]
        exact List.nodup_nil)
    (by rw [hg0]; show List.Perm (pairsOf (List.replicate _ (none : Slot K V))) []
        rw [pairsOf_replicate_none])
    (by rw [hg0]
        intro k2
        show uniBucket hashFn (t.keyRightShift - 1) k2 < t.officialSize * 2
        rw [harith1]
        exact uniBucket_lt hashFn _ _ (by omega) k2)
    (by rw [hg0]
        show t.officialSize * 2 + min (t.officialSize * 2 * 3 / 4 - 1)
            (MVM_HASH_MAX_PROBE_DISTANCE - 1) ≤ (List.replicate _ (none : Slot K V)).length
        rw [List.length_replicate]
        exact Nat.add_le_add_left (uni_probe_overflow_ge _) _)
    (by rw [hg0]
        show t.curItems < t.officialSize * 2 * 3 / 4
        rw [hmax2]
        omega)
    (by rw [List.length_nil, hperm.length_eq]
        omega)
    (by rw [hg0, List.length_nil, hperm.length_eq]
        show 0 + ins.length ≤ t.officialSize * 2 * 3 / 4
        rw [hmax2]
        omega)
    (by rw [List.nil_append]
        exact hnd)
  obtain ⟨t2, hfeq, f1, f2, f3, f4, f5, f6, f7, f8⟩ := hfold
  rw [hg0] at f4 f5 f6 f7 f8
  dsimp only at f4 f5 f6 f7 f8
  rw [List.length_replicate] at f8
  refine ⟨t2, hfeq, ?_, f7, ?_, ?_⟩
  · refine ⟨⟨?_, f2, ?_, ?_, ?_⟩, ?_, ?_, ?_, ?_⟩
    · rw [f5]
      exact f1
    · rw [List.nil_append] at f3
      exact f3.trans hperm
    · intro k2
      rw [f5, f4]
      show uniBucket hashFn (t.keyRightShift - 1) k2 < t.officialSize * 2
      rw [harith1]
      exact uniBucket_lt hashFn _ _ (by omega) k2
    · rw [f4, f6, f8]
      exact Nat.add_le_add_left (uni_probe_overflow_ge _) _
    · rw [f6, f4]
    · rw [f4, f5]
      show t.officialSize * 2 = 2 ^ (32 - (t.keyRightShift - 1))
      exact harith1
    · rw [f5]
      show 23 ≤ t.keyRightShift - 1
      omega
    · rw [f5]
      show t.keyRightShift - 1 ≤ 29
      omega
  · rw [f4]
  · rw [f7, f6, hmax2]
    omega

end Hash

namespace Hash

theorem uni_lvalue_red {K V : Type} [DecidableEq K] (hashFn : K → Nat)
    (t : HashTable K V) (key : K) (val : V) :
    MVM_uni_hash_lvalue_fetch hashFn (some t) key val =
      if t.curItems ≥ t.maxItems then
        match probeFetch key (t.slots.drop (uniBucket hashFn t.keyRightShift key)) 1 with
        | some (k, v) => some (t, InsOutcome.existing k v)
        | none =>
          (uni_grow_reinsert hashFn t).bind (fun grown =>
            finishInsert (uniBucket hashFn grown.keyRightShift) grown key val)
      else finishInsert (uniBucket hashFn t.keyRightShift) t key val := rfl

/-- Any pair recorded by the invariant is found by `MVM_uni_hash_fetch`. -/
theorem MVM_uni_hash_fetch_mem {K V : Type} [DecidableEq K] (hashFn : K → Nat)
    (t : HashTable K V) (ins : List (K × V))
    (hOk : UniOk hashFn t ins) (k : K) (v : V) (hmem : (k, v) ∈ ins) :
    MVM_uni_hash_fetch hashFn (some t) k = some (k, v) := by
  obtain ⟨⟨hgood, hnd, hperm, hbklt, hlenge⟩, hmax, hpow, h23, h29⟩ := hOk
  have hmem2 : (k, v) ∈ pairsOf t.slots := hperm.mem_iff.mpr hmem
  obtain ⟨i, d, hst⟩ := pairs_mem_stored t.slots k v hmem2
  have hble : uniBucket hashFn t.keyRightShift k ≤ t.slots.length := by
    have := hbklt k
    omega
  have hTD : t.slots.take (uniBucket hashFn t.keyRightShift k) ++
      t.slots.drop (uniBucket hashFn t.keyRightShift k) = t.slots := List.take_append_drop _ _
  have hprelen : (t.slots.take (uniBucket hashFn t.keyRightShift k)).length =
      uniBucket hashFn t.keyRightShift k := by
    rw [List.length_take]
    omega
  have hbi : uniBucket hashFn t.keyRightShift k ≤ i := (hgood i d k v hst).1
  show probeFetch k (t.slots.drop (uniBucket hashFn t.keyRightShift k)) 1 = some (k, v)
  exact probeFetch_finds (uniBucket hashFn t.keyRightShift) k
    (t.slots.drop (uniBucket hashFn t.keyRightShift k))
    (t.slots.take (uniBucket hashFn t.keyRightShift k)) 1
    (by rw [hTD]; exact hgood) (by rw [hTD]; exact hnd) (by omega) (Nat.le_refl 1)
    i d v (by omega) (by rw [hTD]; exact hst)

/-- Step specification of `MVM_uni_hash_lvalue_fetch` on a live table. -/
theorem uni_lvalue_step {K V : Type} [DecidableEq K] (hashFn : K → Nat)
    (t : HashTable K V) (ins : List (K × V)) (key : K) (val : V)
    (hOk : UniOk hashFn t ins) (hcount : t.curItems = ins.length)
    (hcurle : t.curItems ≤ t.maxItems) (h253 : ins.length ≤ 253) :
    (key ∉ ins.map Prod.fst →
      ∃ t2, MVM_uni_hash_lvalue_fetch hashFn (some t) key val =
          some (t2, InsOutcome.fresh) ∧
        UniOk hashFn t2 ((key, val) :: ins) ∧ t2.curItems = ins.length + 1 ∧
        t2.curItems ≤ t2.maxItems) ∧
    (∀ v0, (key, v0) ∈ ins →
      MVM_uni_hash_lvalue_fetch hashFn (some t) key val =
        some (t, InsOutcome.existing key v0)) := by
  have hOk2 := hOk
  obtain ⟨⟨hgood, hnd, hperm, hbklt, hlenge⟩, hmax, hpow, h23, h29⟩ := hOk2
  have hocc : (pairsOf t.slots).length = ins.length := hperm.length_eq
  constructor
  · intro hknotins
    have hknotin : key ∉ keysOf t.slots := by
      intro hmem
      apply hknotins
      unfold keysOf at hmem
      exact (hperm.map Prod.fst).mem_iff.mp hmem
    by_cases hcap : t.curItems ≥ t.maxItems
    · have hmiss : probeFetch key (t.slots.drop (uniBucket hashFn t.keyRightShift key)) 1 =
          none := by
        rcases hr : probeFetch key (t.slots.drop (uniBucket hashFn t.keyRightShift key)) 1
          with _ | ⟨k2, v2⟩
        · rfl
        · exfalso
          obtain ⟨hk2, i, d, hst⟩ := probeFetch_some key _ 1 k2 v2 hr
          rw [List.getElem?_drop] at hst
          exact hknotin (stored_mem_keys _ _ d key v2 hst)
      obtain ⟨tg, hgeq, hgOk, hgcur, hgoff, hglt⟩ :=
        uni_grow_reinsert_spec hashFn t ins hOk hcount (by omega) (by omega)
      obtain ⟨⟨ggood, gnd, gperm, gbklt, glenge⟩, gmax, gpow, g23, g29⟩ := hgOk
      have hknotin2 : key ∉ keysOf tg.slots := by
        intro hmem
        apply hknotins
        unfold keysOf at hmem
        exact (gperm.map Prod.fst).mem_iff.mp hmem
      obtain ⟨HF, _⟩ := finishInsert_spec (uniBucket hashFn tg.keyRightShift) tg key val
        ggood gnd gbklt glenge (by omega)
        (by rw [gperm.length_eq]; omega)
        (by rw [gperm.length_eq, show MVM_HASH_MAX_PROBE_DISTANCE = 255 from rfl]
            rcases Nat.le_total tg.maxItems 255 with h | h
            · rw [Nat.min_eq_left h]; omega
            · rw [Nat.min_eq_right h]; omega)
      obtain ⟨t2, heq, g1, g2, g3, g4, g5, g6, g7, g8⟩ := HF hknotin2
      refine ⟨t2, ?_, ⟨⟨?_, g2, ?_, ?_, ?_⟩, ?_, ?_, ?_, ?_⟩, ?_, ?_⟩
      · rw [uni_lvalue_red, if_pos hcap, hmiss, hgeq]
        show finishInsert (uniBucket hashFn tg.keyRightShift) tg key val = _
        rw [heq]
      · rw [g5]; exact g1
      · exact g3.trans (gperm.cons (key, val))
      · intro k2
        rw [g5, g4]
        exact gbklt k2
      · rw [g4, g6, g8]
        exact glenge
      · rw [g6, g4]; exact gmax
      · rw [g4, g5]; exact gpow
      · rw [g5]; exact g23
      · rw [g5]; exact g29
      · rw [g7, hgcur, hcount]
      · rw [g7, g6]
        omega
    · obtain ⟨HF, _⟩ := finishInsert_spec (uniBucket hashFn t.keyRightShift) t key val
        hgood hnd hbklt hlenge (by omega) (by omega)
        (by rw [hocc, show MVM_HASH_MAX_PROBE_DISTANCE = 255 from rfl]
            rcases Nat.le_total t.maxItems 255 with h | h
            · rw [Nat.min_eq_left h]; omega
            · rw [Nat.min_eq_right h]; omega)
      obtain ⟨t2, heq, g1, g2, g3, g4, g5, g6, g7, g8⟩ := HF hknotin
      refine ⟨t2, ?_, ⟨⟨?_, g2, ?_, ?_, ?_⟩, ?_, ?_, ?_, ?_⟩, ?_, ?_⟩
      · rw [uni_lvalue_red, if_neg hcap]
        rw [heq]
      · rw [g5]; exact g1
      · exact g3.trans (hperm.cons (key, val))
      · intro k2
        rw [g5, g4]
        exact hbklt k2
      · rw [g4, g6, g8]
        exact hlenge
      · rw [g6, g4]; exact hmax
      · rw [g4, g5]; exact hpow
      · rw [g5]; exact h23
      · rw [g5]; exact h29
      · rw [g7, hcount]
      · rw [g7, g6]
        omega
  · intro v0 hmem
    have hmem2 : (key, v0) ∈ pairsOf t.slots := hperm.mem_iff.mpr hmem
    by_cases hcap : t.curItems ≥ t.maxItems
    · rw [uni_lvalue_red, if_pos hcap]
      have hfind : probeFetch key (t.slots.drop (uniBucket hashFn t.keyRightShift key)) 1 =
          some (key, v0) := MVM_uni_hash_fetch_mem hashFn t ins hOk key v0 hmem
      rw [hfind]
    · rw [uni_lvalue_red, if_neg hcap]
      obtain ⟨_, HE⟩ := finishInsert_spec (uniBucket hashFn t.keyRightShift) t key val
        hgood hnd hbklt hlenge (by omega) (by omega)
        (by rw [hocc, show MVM_HASH_MAX_PROBE_DISTANCE = 255 from rfl]
            rcases Nat.le_total t.maxItems 255 with h | h
            · rw [Nat.min_eq_left h]; omega
            · rw [Nat.min_eq_right h]; omega)
      exact HE v0 hmem2

end Hash

namespace Hash

/-- Step specification of `MVM_uni_hash_insert` on a live table. -/
theorem uni_insert_step {K V : Type} [DecidableEq K] [DecidableEq V] (hashFn : K → Nat)
    (t : HashTable K V) (ins : List (K × V)) (key : K) (val : V)
    (hOk : UniOk hashFn t ins) (hcount : t.curItems = ins.length)
    (hcurle : t.curItems ≤ t.maxItems) (h253 : ins.length ≤ 253) :
    (key ∉ ins.map Prod.fst →
      ∃ t2, MVM_uni_hash_insert hashFn (some t) key val = some (some t2) ∧
        UniOk hashFn t2 ((key, val) :: ins) ∧ t2.curItems = ins.length + 1 ∧
        t2.curItems ≤ t2.maxItems) ∧
    (∀ v0, (key, v0) ∈ ins →
      (val = v0 → MVM_uni_hash_insert hashFn (some t) key val = some (some t)) ∧
      (val ≠ v0 → MVM_uni_hash_insert hashFn (some t) key val = none)) := by
  obtain ⟨HF, HE⟩ := uni_lvalue_step hashFn t ins key val hOk hcount hcurle h253
  constructor
  · intro hknot
    obtain ⟨t2, heq, hOk2, hcur2, hle2⟩ := HF hknot
    refine ⟨t2, ?_, hOk2, hcur2, hle2⟩
    rw [MVM_uni_hash_insert, heq]
    rfl
  · intro v0 hmem
    constructor
    · intro hveq
      rw [MVM_uni_hash_insert, HE v0 hmem]
      show (if val ≠ v0 then none else some (some t)) = some (some t)
      rw [if_neg (by simp [hveq])]
    · intro hvne
      rw [MVM_uni_hash_insert, HE v0 hmem]
      show (if val ≠ v0 then none else some (some t)) = none
      rw [if_pos hvne]

/-- The first insertion into a NULL uni hash builds the default table. -/
theorem uni_insert_none {K V : Type} [DecidableEq K] [DecidableEq V] (hashFn : K → Nat)
    (key : K) (val : V) :
    ∃ t2 : HashTable K V, MVM_uni_hash_insert hashFn none key val = some (some t2) ∧
      UniOk hashFn t2 [(key, val)] ∧ t2.curItems = 1 ∧ t2.curItems ≤ t2.maxItems := by
  have hg0 : (MVM_uni_hash_build 0 : HashTable K V) =
      { officialSize := 8, keyRightShift := 29, maxItems := 6, curItems := 0,
        slots := List.replicate 13 none } := rfl
  obtain ⟨HF, _⟩ := finishInsert_spec (uniBucket hashFn 29) (MVM_uni_hash_build 0 : HashTable K V)
    key val
    (by rw [hg0]; exact good_replicate_none _ _)
    (by rw [hg0]
        show (keysOf (List.replicate 13 (none : Slot K V))).Nodup
        unfold keysOf
        rw [pairsOf_replicate_none]
        exact List.nodup_nil)
    (by rw [hg0]
        intro k2
        show uniBucket hashFn 29 k2 < 8
        exact uniBucket_lt hashFn 29 3 (by norm_num) k2)
    (by rw [hg0]
        show 8 + min (6 - 1) (MVM_HASH_MAX_PROBE_DISTANCE - 1) ≤
          (List.replicate 13 (none : Slot K V)).length
        rw [List.length_replicate]
        decide)
    (by rw [hg0]; show (0 : Nat) < 6; norm_num)
    (by rw [hg0]
        show (pairsOf (List.replicate 13 (none : Slot K V))).length ≤ 253
        rw [pairsOf_replicate_none, List.length_nil]
        norm_num)
    (by rw [hg0]
        show (pairsOf (List.replicate 13 (none : Slot K V))).length <
          min 6 MVM_HASH_MAX_PROBE_DISTANCE
        rw [pairsOf_replicate_none, List.length_nil]
        decide)
  obtain ⟨t2, heq, g1, g2, g3, g4, g5, g6, g7, g8⟩ := HF
    (by rw [hg0]
        show key ∉ keysOf (List.replicate 13 (none : Slot K V))
        unfold keysOf
        rw [pairsOf_replicate_none]
        exact List.not_mem_nil key)
  rw [hg0] at g3 g4 g5 g6 g7 g8
  dsimp only at g3 g4 g5 g6 g7 g8
  refine ⟨t2, ?_, ⟨⟨?_, g2, ?_, ?_, ?_⟩, ?_, ?_, ?_, ?_⟩, ?_, ?_⟩
  · rw [show MVM_uni_hash_insert hashFn (none : Option (HashTable K V)) key val =
      (finishInsert (uniBucket hashFn (32 - UNI_MIN_SIZE_BASE_2)) (MVM_uni_hash_build 0)
        key val).bind (fun r =>
        match r.2 with
        | InsOutcome.fresh => some (some r.1)
        | InsOutcome.existing _ v0 => if val ≠ v0 then none else some (some r.1)) from rfl]
    rw [show (32 - UNI_MIN_SIZE_BASE_2 : Nat) = 29 from rfl, heq]
    rfl
  · rw [g5]
    exact g1
  · refine g3.trans ?_
    rw [pairsOf_replicate_none]
  · intro k2
    rw [g5, g4]
    exact uniBucket_lt hashFn 29 3 (by norm_num) k2
  · rw [g4, g6, g8, List.length_replicate]
    decide
  · rw [g6, g4]
  · rw [g4, g5]
    decide
  · rw [g5]
    norm_num
  · rw [g5]
  · rw [g7]
  · rw [g7, g6]
    norm_num

/-- The unconditional uni insert fold maintains the table-pointer
invariant. -/
theorem uni_insert_list_fold {K V : Type} [DecidableEq K] [DecidableEq V] (hashFn : K → Nat) :
    ∀ (ps : List (K × V)) (acc : Option (HashTable K V)) (ins : List (K × V)),
    UniState hashFn acc ins →
    (ins.map Prod.fst ++ ps.map Prod.fst).Nodup →
    ins.length + ps.length ≤ 254 →
    ∃ acc2, ps.foldlM (fun a p => MVM_uni_hash_insert hashFn a p.1 p.2) acc = some acc2 ∧
      UniState hashFn acc2 (ps.reverse ++ ins) := by
  intro ps
  induction ps with
  | nil =>
    intro acc ins hstate hnd hlen
    exact ⟨acc, rfl, by rw [List.reverse_nil, List.nil_append]; exact hstate⟩
  | cons p ps' ih =>
    intro acc ins hstate hnd hlen
    obtain ⟨k, v⟩ := p
    cases acc with
    | none =>
      have hins : ins = [] := hstate
      subst hins
      obtain ⟨t2, heq, hOk2, hcur2, hle2⟩ := uni_insert_none hashFn k v
      obtain ⟨acc2, hfold, hst2⟩ := ih (some t2) [(k, v)] ⟨hOk2, by rw [hcur2]; rfl, hle2⟩
        (by simpa using hnd) (by simp only [List.length_singleton]; simp at hlen ⊢; omega)
      refine ⟨acc2, ?_, ?_⟩
      · rw [List.foldlM_cons]
        show (MVM_uni_hash_insert hashFn none k v >>= fun a =>
          ps'.foldlM (fun a p => MVM_uni_hash_insert hashFn a p.1 p.2) a) = some acc2
        rw [heq]
        exact hfold
      · rw [List.reverse_cons, List.append_nil]
        exact hst2
    | some t =>
      obtain ⟨hOk, hcount, hle⟩ := hstate
      have hknot : k ∉ ins.map Prod.fst := by
        intro hmem
        rw [List.map_cons] at hnd
        obtain ⟨_, _, hdisj⟩ := List.nodup_append.mp hnd
        exact hdisj hmem (List.mem_cons_self _ _)
      have h253 : ins.length ≤ 253 := by
        simp only [List.length_cons] at hlen
        omega
      obtain ⟨HF, _⟩ := uni_insert_step hashFn t ins k v hOk hcount hle h253
      obtain ⟨t2, heq, hOk2, hcur2, hle2⟩ := HF hknot
      obtain ⟨acc2, hfold, hst2⟩ := ih (some t2) ((k, v) :: ins)
        ⟨hOk2, by rw [hcur2]; simp, hle2⟩
        (by rw [List.map_cons, List.cons_append]
            rw [List.map_cons] at hnd
            exact (List.perm_middle.nodup_iff).mp hnd)
        (by simp only [List.length_cons] at hlen ⊢; omega)
      refine ⟨acc2, ?_, ?_⟩
      · rw [List.foldlM_cons]
        show (MVM_uni_hash_insert hashFn (some t) k v >>= fun a =>
          ps'.foldlM (fun a p => MVM_uni_hash_insert hashFn a p.1 p.2) a) = some acc2
        rw [heq]
        exact hfold
      · rw [List.reverse_cons, List.append_assoc, List.singleton_append]
        exact hst2

end Hash

namespace Hash

/-- C6: On a reachable table (built by at most 254 distinct-key inserts)
whose `cur_items` has reached `max_items`, calling `lvalue_fetch` — in
either the ptr or the uni variant — with a key that is already present
returns the existing entry (its stored value, not the offered one) and the
very same table: official size, shift, `cur_items` and every stored entry
are untouched, and no grow is performed; the table is grown only when the
key is absent. -/
theorem lvalue_fetch_at_capacity {V K W : Type} [DecidableEq V] [DecidableEq K]
    [DecidableEq W] (hashFn : K → Nat) :
    (∀ (pairs : List (Nat × V)) (t : HashTable Nat V),
      (pairs.map Prod.fst).Nodup → pairs.length ≤ 254 →
      ptr_hash_insert_list pairs = some (some t) →
      t.curItems ≥ t.maxItems →
      ∀ (k : Nat) (v : V), (k, v) ∈ pairs → ∀ val,
        MVM_ptr_hash_lvalue_fetch (some t) k val = some (t, InsOutcome.existing k v)) ∧
    (∀ (pairs : List (K × W)) (t : HashTable K W),
      (pairs.map Prod.fst).Nodup → pairs.length ≤ 254 →
      uni_hash_insert_list hashFn pairs = some (some t) →
      t.curItems ≥ t.maxItems →
      ∀ (k : K) (v : W), (k, v) ∈ pairs → ∀ val,
        MVM_uni_hash_lvalue_fetch hashFn (some t) k val =
          some (t, InsOutcome.existing k v)) := by
  constructor
  · intro pairs t hnd hlen hlist hcap k v hmem val
    obtain ⟨acc2, hfold, hstate⟩ := ptr_insert_list_fold pairs none [] rfl
      (by simpa using hnd) (by simpa using hlen)
    have heq : some acc2 = some (some t) := hfold.symm.trans hlist
    have heq2 : acc2 = some t := by simpa using heq
    subst heq2
    rw [List.append_nil] at hstate
    obtain ⟨hOk, _, _⟩ := hstate
    have hfind : probeFetch k (t.slots.drop (ptrBucket t.keyRightShift k)) 1 =
        some (k, v) :=
      MVM_ptr_hash_fetch_mem t pairs.reverse hOk k v (by rw [List.mem_reverse]; exact hmem)
    rw [ptr_lvalue_red, if_pos hcap, hfind]
  · intro pairs t hnd hlen hlist hcap k v hmem val
    obtain ⟨acc2, hfold, hstate⟩ := uni_insert_list_fold hashFn pairs none [] rfl
      (by simpa using hnd) (by simpa using hlen)
    have heq : some acc2 = some (some t) := hfold.symm.trans hlist
    have heq2 : acc2 = some t := by simpa using heq
    subst heq2
    rw [List.append_nil] at hstate
    obtain ⟨hOk, _, _⟩ := hstate
    have hfind : probeFetch k (t.slots.drop (uniBucket hashFn t.keyRightShift k)) 1 =
        some (k, v) :=
      MVM_uni_hash_fetch_mem hashFn t pairs.reverse hOk k v
        (by rw [List.mem_reverse]; exact hmem)
    rw [uni_lvalue_red, if_pos hcap, hfind]

theorem lvalue_fetch_at_capacity_witness :
    ((cexPtrPairs.map Prod.fst).Nodup ∧ cexPtrPairs.length ≤ 254 ∧
      ptr_hash_insert_list cexPtrPairs = some (some cexPtrTable) ∧
      cexPtrTable.curItems ≥ cexPtrTable.maxItems ∧ (1, 10) ∈ cexPtrPairs ∧
      (cexUniPairs.map Prod.fst).Nodup ∧ cexUniPairs.length ≤ 254 ∧
      uni_hash_insert_list cexUniHash cexUniPairs = some (some cexUniTable) ∧
      cexUniTable.curItems ≥ cexUniTable.maxItems ∧ (2, 20) ∈ cexUniPairs) ∧
    MVM_ptr_hash_lvalue_fetch (some cexPtrTable) 1 99 =
      some (cexPtrTable, InsOutcome.existing 1 10) ∧
    MVM_uni_hash_lvalue_fetch cexUniHash (some cexUniTable) 2 99 =
      some (cexUniTable, InsOutcome.existing 2 20) :=
  ⟨⟨by decide, by decide, by decide, by decide, by decide, by decide, by decide,
    by decide, by decide, by decide⟩,
   (@lvalue_fetch_at_capacity Nat Nat Nat _ _ _ cexUniHash).1 cexPtrPairs cexPtrTable (by decide) (by decide)
     (by decide) (by decide) 1 10 (by decide) 99,
   (@lvalue_fetch_at_capacity Nat Nat Nat _ _ _ cexUniHash).2 cexUniPairs cexUniTable (by decide) (by decide)
     (by decide) (by decide) 2 20 (by decide) 99⟩

/-- C10: On a reachable table (at most 253 distinct-key inserts), the
unconditional insert — ptr or uni — called with a present key and a value
equal to the stored one returns normally and leaves the table pointer
completely unchanged; with a present key and a different value it takes
the fatal `MVM_oops` abort (modelled as `none`). -/
theorem unconditional_insert_frame {V K W : Type} [DecidableEq V] [DecidableEq K]
    [DecidableEq W] (hashFn : K → Nat) :
    (∀ (pairs : List (Nat × V)) (t : HashTable Nat V),
      (pairs.map Prod.fst).Nodup → pairs.length ≤ 253 →
      ptr_hash_insert_list pairs = some (some t) →
      ∀ (k : Nat) (v : V), (k, v) ∈ pairs →
        MVM_ptr_hash_insert (some t) k v = some (some t) ∧
        (∀ v2, v2 ≠ v → MVM_ptr_hash_insert (some t) k v2 = none)) ∧
    (∀ (pairs : List (K × W)) (t : HashTable K W),
      (pairs.map Prod.fst).Nodup → pairs.length ≤ 253 →
      uni_hash_insert_list hashFn pairs = some (some t) →
      ∀ (k : K) (v : W), (k, v) ∈ pairs →
        MVM_uni_hash_insert hashFn (some t) k v = some (some t) ∧
        (∀ v2, v2 ≠ v → MVM_uni_hash_insert hashFn (some t) k v2 = none)) := by
  constructor
  · intro pairs t hnd hlen hlist k v hmem
    obtain ⟨acc2, hfold, hstate⟩ := ptr_insert_list_fold pairs none [] rfl
      (by simpa using hnd) (by simp; omega)
    have heq : some acc2 = some (some t) := hfold.symm.trans hlist
    have heq2 : acc2 = some t := by simpa using heq
    subst heq2
    rw [List.append_nil] at hstate
    obtain ⟨hOk, hcount, hle⟩ := hstate
    have hmemr : (k, v) ∈ pairs.reverse := by rw [List.mem_reverse]; exact hmem
    obtain ⟨_, HE⟩ := ptr_insert_step t pairs.reverse k v hOk hcount hle
      (by rw [List.length_reverse]; omega)
    obtain ⟨hsame, hdiff⟩ := HE v hmemr
    refine ⟨hsame rfl, fun v2 hv2 => ?_⟩
    obtain ⟨_, hdiff2⟩ := (ptr_insert_step t pairs.reverse k v2 hOk hcount hle
      (by rw [List.length_reverse]; omega)).2 v hmemr
    exact hdiff2 hv2
  · intro pairs t hnd hlen hlist k v hmem
    obtain ⟨acc2, hfold, hstate⟩ := uni_insert_list_fold hashFn pairs none [] rfl
      (by simpa using hnd) (by simp; omega)
    have heq : some acc2 = some (some t) := hfold.symm.trans hlist
    have heq2 : acc2 = some t := by simpa using heq
    subst heq2
    rw [List.append_nil] at hstate
    obtain ⟨hOk, hcount, hle⟩ := hstate
    have hmemr : (k, v) ∈ pairs.reverse := by rw [List.mem_reverse]; exact hmem
    obtain ⟨_, HE⟩ := uni_insert_step hashFn t pairs.reverse k v hOk hcount hle
      (by rw [List.length_reverse]; omega)
    obtain ⟨hsame, hdiff⟩ := HE v hmemr
    refine ⟨hsame rfl, fun v2 hv2 => ?_⟩
    obtain ⟨_, hdiff2⟩ := (uni_insert_step hashFn t pairs.reverse k v2 hOk hcount hle
      (by rw [List.length_reverse]; omega)).2 v hmemr
    exact hdiff2 hv2

theorem unconditional_insert_frame_witness :
    ((cexPtrPairs.map Prod.fst).Nodup ∧ cexPtrPairs.length ≤ 253 ∧
      ptr_hash_insert_list cexPtrPairs = some (some cexPtrTable) ∧ (3, 30) ∈ cexPtrPairs ∧
      (cexUniPairs.map Prod.fst).Nodup ∧ cexUniPairs.length ≤ 253 ∧
      uni_hash_insert_list cexUniHash cexUniPairs = some (some cexUniTable) ∧
      (4, 40) ∈ cexUniPairs) ∧
    (MVM_ptr_hash_insert (some cexPtrTable) 3 30 = some (some cexPtrTable) ∧
      (∀ v2, v2 ≠ 30 → MVM_ptr_hash_insert (some cexPtrTable) 3 v2 = none)) ∧
    (MVM_uni_hash_insert cexUniHash (some cexUniTable) 4 40 = some (some cexUniTable) ∧
      (∀ v2, v2 ≠ 40 → MVM_uni_hash_insert cexUniHash (some cexUniTable) 4 v2 = none)) :=
  ⟨⟨by decide, by decide, by decide, by decide, by decide, by decide, by decide, by decide⟩,
   (@unconditional_insert_frame Nat Nat Nat _ _ _ cexUniHash).1 cexPtrPairs cexPtrTable (by decide) (by decide)
     (by decide) 3 30 (by decide),
   (@unconditional_insert_frame Nat Nat Nat _ _ _ cexUniHash).2 cexUniPairs cexUniTable (by decide) (by decide)
     (by decide) 4 40 (by decide)⟩

end Hash

namespace Hash

end Hash

namespace Hash

end Hash

namespace Hash

end Hash
